import Mathlib

/-!
Verification development for the ripplecheck dependency-analysis core.

The TypeScript source stores all program state in JavaScript `Map` and `Set`
objects.  We model a `Map` as an association list whose `set` operation
replaces the first binding of the key (or appends a fresh binding), and a
`Set` as a list with membership-guarded insertion — both preserve insertion
order exactly as the JS collections do.
-/

namespace RippleCheck

section MapModel

variable {κ : Type} {α : Type} [DecidableEq κ]

/-- Lookup in a JS `Map`: the first binding of the key, if any. -/
def getA : List (κ × α) → κ → Option α
  | [], _ => none
  | p :: rest, k => if p.1 = k then some p.2 else getA rest k

/-- JS `Map.set`: replace the binding of the key, or append a fresh one. -/
def setA : List (κ × α) → κ → α → List (κ × α)
  | [], k, v => [(k, v)]
  | p :: rest, k, v => if p.1 = k then (k, v) :: rest else p :: setA rest k v

/-- JS `Map.delete`: remove the binding of the key. -/
def delA (m : List (κ × α)) (k : κ) : List (κ × α) :=
  m.filter (fun p => p.1 ≠ k)

/-- JS `Set.add`: append the element unless already present. -/
def insertS (s : List κ) (x : κ) : List κ :=
  if x ∈ s then s else s ++ [x]

/-- JS `Set.delete`: remove the element. -/
def deleteS (s : List κ) (x : κ) : List κ :=
  s.filter (fun y => y ≠ x)

theorem getA_setA (m : List (κ × α)) (k k' : κ) (v : α) :
    getA (setA m k v) k' = if k' = k then some v else getA m k' := by
  induction m with
  | nil =>
    by_cases h : k' = k
    · simp [setA, getA, h]
    · have h2 : ¬ k = k' := fun hh => h hh.symm
      simp [setA, getA, h, h2]
  | cons p rest ih =>
    by_cases hp : p.1 = k
    · subst hp
      by_cases h : k' = p.1
      · simp [setA, getA, h]
      · have h2 : ¬ p.1 = k' := fun hh => h hh.symm
        simp [setA, getA, h, h2]
    · by_cases hp' : p.1 = k'
      · have hk : ¬ k' = k := fun hh => hp (hp'.symm ▸ hh)
        simp [setA, getA, hp, hp', hk]
      · simp [setA, getA, hp, hp', ih]

theorem getA_setA_self (m : List (κ × α)) (k : κ) (v : α) :
    getA (setA m k v) k = some v := by
  simp [getA_setA]

theorem getA_setA_ne (m : List (κ × α)) {k k' : κ} (v : α) (h : k' ≠ k) :
    getA (setA m k v) k' = getA m k' := by
  simp [getA_setA, h]

theorem getA_delA (m : List (κ × α)) (k k' : κ) :
    getA (delA m k) k' = if k' = k then none else getA m k' := by
  induction m with
  | nil => simp [delA, getA]
  | cons p rest ih =>
    by_cases hp : p.1 = k
    · have h1 : delA (p :: rest) k = delA rest k := by
        simp [delA, List.filter_cons, hp]
      rw [h1, ih]
      by_cases hk : k' = k
      · simp [hk]
      · have hpk : ¬ p.1 = k' := fun hh => hk ((hh.symm.trans hp))
        simp [hk, getA, hpk]
    · have h1 : delA (p :: rest) k = p :: delA rest k := by
        simp [delA, List.filter_cons, hp]
      rw [h1]
      by_cases hp' : p.1 = k'
      · have hk : ¬ k' = k := fun hh => hp (hp'.symm ▸ hh)
        simp [getA, hp', hk]
      · simp [getA, hp', ih]

theorem getA_delA_self (m : List (κ × α)) (k : κ) :
    getA (delA m k) k = none := by
  simp [getA_delA]

theorem getA_delA_ne (m : List (κ × α)) {k k' : κ} (h : k' ≠ k) :
    getA (delA m k) k' = getA m k' := by
  simp [getA_delA, h]

theorem getA_mem (m : List (κ × α)) {k : κ} {v : α} (h : getA m k = some v) :
    (k, v) ∈ m := by
  induction m with
  | nil => simp [getA] at h
  | cons p rest ih =>
    rw [getA] at h
    by_cases hp : p.1 = k
    · rw [if_pos hp] at h
      have hv : p.2 = v := Option.some.inj h
      have hpe : p = (k, v) := by
        obtain ⟨a, b⟩ := p
        simp at hp hv
        simp [hp, hv]
      rw [← hpe]
      exact List.mem_cons_self p rest
    · rw [if_neg hp] at h
      exact List.mem_cons_of_mem p (ih h)

theorem getA_isSome_iff (m : List (κ × α)) (k : κ) :
    (getA m k).isSome = true ↔ k ∈ m.map Prod.fst := by
  induction m with
  | nil => simp [getA]
  | cons p rest ih =>
    by_cases hp : p.1 = k
    · simp [getA, hp]
    · have hk : ¬ k = p.1 := fun hh => hp hh.symm
      simp [getA, hp, ih, hk]

theorem getA_eq_none_iff (m : List (κ × α)) (k : κ) :
    getA m k = none ↔ k ∉ m.map Prod.fst := by
  rw [← getA_isSome_iff]
  cases hg : getA m k <;> simp

theorem getA_of_nodup_mem {m : List (κ × α)} {k : κ} {v : α} :
    (m.map Prod.fst).Nodup → (k, v) ∈ m → getA m k = some v := by
  induction m with
  | nil => intro _ h; simp at h
  | cons p rest ih =>
    intro hnd h
    simp at hnd
    rcases List.mem_cons.mp h with h | h
    · rw [← h]; simp [getA]
    · have hk : k ∈ rest.map Prod.fst := List.mem_map_of_mem Prod.fst h
      have hp : p.1 ≠ k := by
        intro he
        exact hnd.1 v (by rw [he]; exact h)
      simp [getA, hp]
      exact ih hnd.2 h

theorem keys_setA (m : List (κ × α)) (k : κ) (v : α) :
    (setA m k v).map Prod.fst =
      if k ∈ m.map Prod.fst then m.map Prod.fst else m.map Prod.fst ++ [k] := by
  induction m with
  | nil => simp [setA]
  | cons p rest ih =>
    by_cases hp : p.1 = k
    · simp [setA, hp]
    · have hk : ¬ k = p.1 := fun hh => hp hh.symm
      by_cases hm : k ∈ rest.map Prod.fst
      · simp [setA, hp, ih, hm, hk]
      · simp [setA, hp, ih, hm, hk]

theorem nodupKeys_setA (m : List (κ × α)) (k : κ) (v : α)
    (h : (m.map Prod.fst).Nodup) : ((setA m k v).map Prod.fst).Nodup := by
  rw [keys_setA]
  by_cases hm : k ∈ m.map Prod.fst
  · simpa [hm] using h
  · simp only [hm, if_false]
    exact List.Nodup.append h (List.nodup_singleton k)
      (fun a ha hb => by simp at hb; subst hb; exact hm ha)

theorem nodupKeys_delA (m : List (κ × α)) (k : κ)
    (h : (m.map Prod.fst).Nodup) : ((delA m k).map Prod.fst).Nodup := by
  have hsub : List.Sublist (delA m k) m := List.filter_sublist m
  exact List.Nodup.sublist (List.Sublist.map Prod.fst hsub) h

theorem mem_insertS (s : List κ) (x y : κ) :
    y ∈ insertS s x ↔ y ∈ s ∨ y = x := by
  by_cases h : x ∈ s
  · simp only [insertS, if_pos h]
    constructor
    · exact fun hy => Or.inl hy
    · rintro (hy | rfl)
      · exact hy
      · exact h
  · simp [insertS, h]

theorem nodup_insertS (s : List κ) (x : κ) (h : s.Nodup) :
    (insertS s x).Nodup := by
  by_cases hx : x ∈ s
  · simpa [insertS, hx] using h
  · simp only [insertS, hx, if_false]
    exact List.Nodup.append h (List.nodup_singleton x)
      (fun a ha hb => by simp at hb; subst hb; exact hx ha)

theorem mem_deleteS (s : List κ) (x y : κ) :
    y ∈ deleteS s x ↔ y ∈ s ∧ y ≠ x := by
  simp [deleteS]

theorem nodup_deleteS (s : List κ) (x : κ) (h : s.Nodup) :
    (deleteS s x).Nodup :=
  List.Nodup.sublist (List.filter_sublist s) h

end MapModel

end RippleCheck

/-!
Graph model — `DependencyGraph` from `core/graph/types.ts`: two maps keyed by
symbol id, forward (references) and reverse (referenced-by), each value a set
of symbol ids.
-/

namespace RippleCheck

/-- Embedding of the `DependencyGraph` interface: forward and reverse adjacency. -/
structure DependencyGraph where
  forward : List (String × List String)
  reverse : List (String × List String)
deriving DecidableEq

/-- Membership of `y` in the set stored under `x` (empty when the key is absent). -/
def memAdj (m : List (String × List String)) (x y : String) : Prop :=
  y ∈ (getA m x).getD []

instance (m : List (String × List String)) (x y : String) : Decidable (memAdj m x y) := by
  unfold memAdj; infer_instance

theorem memAdj_iff (m : List (String × List String)) (x y : String) :
    memAdj m x y ↔ ∃ l, getA m x = some l ∧ y ∈ l := by
  unfold memAdj
  cases h : getA m x <;> simp

/-- Mirror invariant: `y ∈ forward[x]` iff `x ∈ reverse[y]`. -/
def Mirror (g : DependencyGraph) : Prop :=
  ∀ x y, memAdj g.forward x y ↔ memAdj g.reverse y x

/-- No-self-loop invariant: `x ∉ forward[x]`. -/
def NoSelfLoop (g : DependencyGraph) : Prop :=
  ∀ x, ¬ memAdj g.forward x x

/-- No-empty-set invariant: every set stored under a key of either map is non-empty. -/
def NoEmptySet (g : DependencyGraph) : Prop :=
  (∀ k l, getA g.forward k = some l → l ≠ []) ∧
  (∀ k l, getA g.reverse k = some l → l ≠ [])

/-- Representation well-formedness of one adjacency map, inherited from JS
`Map`/`Set`: keys are distinct and every stored set has distinct elements. -/
def AdjWF (m : List (String × List String)) : Prop :=
  (m.map Prod.fst).Nodup ∧ ∀ p ∈ m, (p.2 : List String).Nodup

instance (m : List (String × List String)) : Decidable (AdjWF m) := by
  unfold AdjWF; infer_instance

/-- Representation well-formedness of both maps of a graph. -/
def GraphWF (g : DependencyGraph) : Prop :=
  AdjWF g.forward ∧ AdjWF g.reverse

instance (g : DependencyGraph) : Decidable (GraphWF g) := by
  unfold GraphWF; infer_instance

/-- Bundle of all graph invariants maintained by the live-graph mutators. -/
def GraphInv (g : DependencyGraph) : Prop :=
  GraphWF g ∧ Mirror g ∧ NoSelfLoop g ∧ NoEmptySet g

theorem mirror_of_entries (g : DependencyGraph)
    (hf : ∀ p ∈ g.forward, ∀ y ∈ (p.2 : List String), memAdj g.reverse y p.1)
    (hr : ∀ p ∈ g.reverse, ∀ x ∈ (p.2 : List String), memAdj g.forward x p.1) :
    Mirror g := by
  intro x y
  constructor
  · intro h
    rcases (memAdj_iff _ _ _).mp h with ⟨l, hl, hy⟩
    exact hf (x, l) (getA_mem _ hl) y hy
  · intro h
    rcases (memAdj_iff _ _ _).mp h with ⟨l, hl, hx⟩
    exact hr (y, l) (getA_mem _ hl) x hx

theorem noSelfLoop_of_entries (g : DependencyGraph)
    (hf : ∀ p ∈ g.forward, p.1 ∉ (p.2 : List String)) : NoSelfLoop g := by
  intro x h
  rcases (memAdj_iff _ _ _).mp h with ⟨l, hl, hy⟩
  exact hf (x, l) (getA_mem _ hl) hy

theorem noEmptySet_of_entries (g : DependencyGraph)
    (hf : ∀ p ∈ g.forward, (p.2 : List String) ≠ [])
    (hr : ∀ p ∈ g.reverse, (p.2 : List String) ≠ []) : NoEmptySet g := by
  constructor
  · intro k l hl; exact hf (k, l) (getA_mem _ hl)
  · intro k l hl; exact hr (k, l) (getA_mem _ hl)

/-!
Mutating operations, embedded from the source.
-/

/-- Embedding of `addEdge` from `referenceWalker` (`src/unnamed/part_009`):
insert `toId` into `forward[fromId]` and mirror `fromId` into `reverse[toId]`,
creating the sets on demand. -/
def addEdge (graph : DependencyGraph) (fromId toId : String) : DependencyGraph :=
  { forward := setA graph.forward fromId (insertS ((getA graph.forward fromId).getD []) toId),
    reverse := setA graph.reverse toId (insertS ((getA graph.reverse toId).getD []) fromId) }

/-- Inner loop of `removeFileFromGraph` block 1: for each dependency target,
drop `symbolId` from its reverse set, deleting the key when the set empties. -/
def cleanReverseTargets (reverse : List (String × List String)) (symbolId : String)
    (deps : List String) : List (String × List String) :=
  deps.foldl
    (fun rev depId =>
      match getA rev depId with
      | none => rev
      | some reverseSet =>
          let cleaned := deleteS reverseSet symbolId
          if cleaned = [] then delA rev depId else setA rev depId cleaned)
    reverse

/-- Inner loop of `removeFileFromGraph` block 2: for each owner, drop
`symbolId` from its forward set, deleting the key when the set empties. -/
def cleanForwardOwners (forward : List (String × List String)) (symbolId : String)
    (owners : List String) : List (String × List String) :=
  owners.foldl
    (fun fwd ownerId =>
      match getA fwd ownerId with
      | none => fwd
      | some forwardSet =>
          let cleaned := deleteS forwardSet symbolId
          if cleaned = [] then delA fwd ownerId else setA fwd ownerId cleaned)
    forward

/-- Per-symbol body of the `removeFileFromGraph` loop (`fileWatcher.ts` /
incremental updater): remove the forward edges of `symbolId` together with
their mirrored reverse entries, then the reverse entries of `symbolId`
together with the mirrored forward edges. -/
def removeSymbolFromGraph (graph : DependencyGraph) (symbolId : String) : DependencyGraph :=
  let g1 :=
    match getA graph.forward symbolId with
    | none => graph
    | some deps =>
        { forward := delA graph.forward symbolId,
          reverse := cleanReverseTargets graph.reverse symbolId deps }
  match getA g1.reverse symbolId with
  | none => g1
  | some owners =>
      { forward := cleanForwardOwners g1.forward symbolId owners,
        reverse := delA g1.reverse symbolId }

end RippleCheck

/-!
Characterization of the eviction primitives.
-/

namespace RippleCheck

/-- Effect on one stored set of dropping `s`: delete the element, and delete
the whole binding when the set empties. -/
def eraseOpt (o : Option (List String)) (s : String) : Option (List String) :=
  match o with
  | none => none
  | some l =>
      let cleaned := deleteS l s
      if cleaned = [] then none else some cleaned

/-- Effect on one stored set of dropping every element of `ids`. -/
def eraseAllOpt (o : Option (List String)) (ids : List String) : Option (List String) :=
  match o with
  | none => none
  | some l =>
      let cleaned := l.filter (fun y => y ∉ ids)
      if cleaned = [] then none else some cleaned

/-- One step of the set-cleaning loops of `removeFileFromGraph`. -/
def cleanOne (m : List (String × List String)) (s d : String) : List (String × List String) :=
  match getA m d with
  | none => m
  | some st =>
      let cleaned := deleteS st s
      if cleaned = [] then delA m d else setA m d cleaned

theorem cleanReverseTargets_eq_fold (m : List (String × List String)) (s : String)
    (ds : List String) :
    cleanReverseTargets m s ds = ds.foldl (fun acc d => cleanOne acc s d) m := rfl

theorem cleanForwardOwners_eq_fold (m : List (String × List String)) (s : String)
    (ds : List String) :
    cleanForwardOwners m s ds = ds.foldl (fun acc d => cleanOne acc s d) m := rfl

theorem mem_setA {m : List (String × List String)} {k : String} {v : List String}
    {p : String × List String} (h : p ∈ setA m k v) : p ∈ m ∨ p = (k, v) := by
  induction m with
  | nil => simp [setA] at h; right; exact h
  | cons q rest ih =>
    by_cases hq : q.1 = k
    · simp only [setA, if_pos hq] at h
      rcases List.mem_cons.mp h with h | h
      · right; exact h
      · left; exact List.mem_cons_of_mem q h
    · simp only [setA, if_neg hq] at h
      rcases List.mem_cons.mp h with h | h
      · left; exact h ▸ List.mem_cons_self q rest
      · rcases ih h with h | h
        · left; exact List.mem_cons_of_mem q h
        · right; exact h

theorem mem_delA {m : List (String × List String)} {k : String}
    {p : String × List String} (h : p ∈ delA m k) : p ∈ m :=
  List.mem_of_mem_filter h

theorem eraseOpt_ne_nil {o : Option (List String)} {s : String} {l : List String}
    (h : eraseOpt o s = some l) : l ≠ [] := by
  cases o with
  | none => simp [eraseOpt] at h
  | some l0 =>
    simp only [eraseOpt] at h
    by_cases hc : deleteS l0 s = []
    · simp [hc] at h
    · simp [hc] at h
      rw [← h]; exact hc

theorem mem_eraseOpt_getD (o : Option (List String)) (s y : String) :
    y ∈ (eraseOpt o s).getD [] ↔ y ∈ o.getD [] ∧ y ≠ s := by
  cases o with
  | none => simp [eraseOpt]
  | some l =>
    simp only [eraseOpt]
    by_cases hc : deleteS l s = []
    · simp only [hc, if_pos rfl]
      simp only [Option.getD_none, Option.getD_some]
      constructor
      · intro h; simp at h
      · rintro ⟨hy, hne⟩
        have : y ∈ deleteS l s := (mem_deleteS l s y).mpr ⟨hy, hne⟩
        rw [hc] at this; simp at this
    · simp only [hc, if_neg hc, Option.getD_some]
      exact mem_deleteS l s y

theorem eraseOpt_idem (o : Option (List String)) (s : String) :
    eraseOpt (eraseOpt o s) s = eraseOpt o s := by
  cases o with
  | none => simp [eraseOpt]
  | some l =>
    by_cases hc : deleteS l s = []
    · simp [eraseOpt, hc]
    · have h1 : eraseOpt (some l) s = some (deleteS l s) := by simp [eraseOpt, hc]
      have hd : deleteS (deleteS l s) s = deleteS l s := by
        apply List.filter_eq_self.mpr
        intro y hy
        have hmem := (mem_deleteS l s y).mp hy
        simp [hmem.2]
      rw [h1]
      simp [eraseOpt, hd, hc]

theorem eraseOpt_eq_self {o : Option (List String)} {s : String}
    (hne : ∀ l, o = some l → l ≠ [])
    (hs : ∀ l, o = some l → s ∉ l) : eraseOpt o s = o := by
  cases o with
  | none => rfl
  | some l =>
    simp only [eraseOpt]
    have hd : deleteS l s = l := by
      apply List.filter_eq_self.mpr
      intro y hy
      have : y ≠ s := fun he => hs l rfl (he ▸ hy)
      simp [this]
    rw [hd]
    simp [hne l rfl]

theorem cleanOne_getA (m : List (String × List String)) (s d k : String) :
    getA (cleanOne m s d) k = if k = d then eraseOpt (getA m d) s else getA m k := by
  unfold cleanOne
  cases hm : getA m d with
  | none =>
    by_cases hk : k = d
    · simp [hk, hm, eraseOpt]
    · simp [hk]
  | some st =>
    simp only [eraseOpt]
    by_cases hc : deleteS st s = []
    · simp only [hc, if_pos rfl]
      by_cases hk : k = d
      · simp [hk, getA_delA]
      · simp [hk, getA_delA_ne m hk]
    · simp only [hc, if_neg hc]
      by_cases hk : k = d
      · simp [hk, getA_setA]
      · simp [hk, getA_setA_ne m _ hk]

theorem cleanFold_getA (s : String) :
    ∀ (ds : List String) (m : List (String × List String)) (k : String),
      getA (ds.foldl (fun acc d => cleanOne acc s d) m) k =
        if k ∈ ds then eraseOpt (getA m k) s else getA m k := by
  intro ds
  induction ds with
  | nil => intro m k; simp
  | cons d rest ih =>
    intro m k
    rw [List.foldl_cons, ih]
    rw [cleanOne_getA]
    by_cases hkd : k = d
    · subst hkd
      by_cases hkr : k ∈ rest
      · simp [hkr, eraseOpt_idem]
      · simp [hkr]
    · by_cases hkr : k ∈ rest
      · simp [hkr, hkd]
      · simp [hkr, hkd]

theorem adjWF_cleanOne (m : List (String × List String)) (s d : String)
    (h : AdjWF m) : AdjWF (cleanOne m s d) := by
  unfold cleanOne
  cases hm : getA m d with
  | none => exact h
  | some st =>
    by_cases hc : deleteS st s = []
    · simp only [hc, if_pos rfl]
      exact ⟨nodupKeys_delA m d h.1, fun p hp => h.2 p (mem_delA hp)⟩
    · simp only [hc, if_neg hc]
      refine ⟨nodupKeys_setA m d _ h.1, fun p hp => ?_⟩
      rcases mem_setA hp with hp | hp
      · exact h.2 p hp
      · rw [hp]
        exact nodup_deleteS st s (h.2 (d, st) (getA_mem m hm))

theorem adjWF_cleanFold (s : String) (ds : List String) :
    ∀ (m : List (String × List String)), AdjWF m →
      AdjWF (ds.foldl (fun acc d => cleanOne acc s d) m) := by
  induction ds with
  | nil => intro m h; exact h
  | cons d rest ih =>
    intro m h
    rw [List.foldl_cons]
    exact ih _ (adjWF_cleanOne m s d h)

theorem adjWF_delA (m : List (String × List String)) (k : String)
    (h : AdjWF m) : AdjWF (delA m k) :=
  ⟨nodupKeys_delA m k h.1, fun p hp => h.2 p (mem_delA hp)⟩

end RippleCheck

namespace RippleCheck

theorem removeSym_eq_case1 {g : DependencyGraph} {s : String}
    (hf : getA g.forward s = none) (hr : getA g.reverse s = none) :
    removeSymbolFromGraph g s = g := by
  simp only [removeSymbolFromGraph, hf, hr]

theorem removeSym_eq_case2 {g : DependencyGraph} {s : String} {owners : List String}
    (hf : getA g.forward s = none) (hr : getA g.reverse s = some owners) :
    removeSymbolFromGraph g s =
      { forward := cleanForwardOwners g.forward s owners, reverse := delA g.reverse s } := by
  simp only [removeSymbolFromGraph, hf, hr]

theorem removeSym_eq_case3 {g : DependencyGraph} {s : String} {deps : List String}
    (hf : getA g.forward s = some deps)
    (hr : getA (cleanReverseTargets g.reverse s deps) s = none) :
    removeSymbolFromGraph g s =
      { forward := delA g.forward s, reverse := cleanReverseTargets g.reverse s deps } := by
  simp only [removeSymbolFromGraph, hf, hr]

theorem removeSym_eq_case4 {g : DependencyGraph} {s : String} {deps owners : List String}
    (hf : getA g.forward s = some deps)
    (hr : getA (cleanReverseTargets g.reverse s deps) s = some owners) :
    removeSymbolFromGraph g s =
      { forward := cleanForwardOwners (delA g.forward s) s owners,
        reverse := delA (cleanReverseTargets g.reverse s deps) s } := by
  simp only [removeSymbolFromGraph, hf, hr]

end RippleCheck

namespace RippleCheck

theorem removeSymbolFromGraph_getA (g : DependencyGraph) (s : String)
    (hM : Mirror g) (hS : NoSelfLoop g) (hE : NoEmptySet g) (k : String) :
    getA (removeSymbolFromGraph g s).forward k
        = (if k = s then none else eraseOpt (getA g.forward k) s) ∧
    getA (removeSymbolFromGraph g s).reverse k
        = (if k = s then none else eraseOpt (getA g.reverse k) s) := by
  have hfid : ∀ k', ¬ memAdj g.forward k' s →
      eraseOpt (getA g.forward k') s = getA g.forward k' := by
    intro k' hmem
    apply eraseOpt_eq_self
    · intro l hl; exact hE.1 k' l hl
    · intro l hl hsl
      exact hmem (by unfold memAdj; rw [hl]; simpa using hsl)
  have hrid : ∀ k', ¬ memAdj g.reverse k' s →
      eraseOpt (getA g.reverse k') s = getA g.reverse k' := by
    intro k' hmem
    apply eraseOpt_eq_self
    · intro l hl; exact hE.2 k' l hl
    · intro l hl hsl
      exact hmem (by unfold memAdj; rw [hl]; simpa using hsl)
  cases hf : getA g.forward s with
  | none =>
    have hrevno : ∀ k', ¬ memAdj g.reverse k' s := by
      intro k' hmem
      have h2 : memAdj g.forward s k' := (hM s k').mpr hmem
      unfold memAdj at h2; rw [hf] at h2; simp at h2
    cases hr : getA g.reverse s with
    | none =>
      have hfwdno : ∀ k', ¬ memAdj g.forward k' s := by
        intro k' hmem
        have h2 : memAdj g.reverse s k' := (hM k' s).mp hmem
        unfold memAdj at h2; rw [hr] at h2; simp at h2
      rw [removeSym_eq_case1 hf hr]
      constructor
      · by_cases hk : k = s
        · rw [if_pos hk, hk, hf]
        · rw [if_neg hk]
          exact (hfid k (hfwdno k)).symm
      · by_cases hk : k = s
        · rw [if_pos hk, hk, hr]
        · rw [if_neg hk]
          exact (hrid k (hrevno k)).symm
    | some owners =>
      have hso : s ∉ owners := by
        intro hmem
        have h1 : memAdj g.reverse s s := by unfold memAdj; rw [hr]; simpa using hmem
        exact hS s ((hM s s).mpr h1)
      have hfwdno : ∀ k', k' ∉ owners → ¬ memAdj g.forward k' s := by
        intro k' hko hmem
        have h2 : memAdj g.reverse s k' := (hM k' s).mp hmem
        unfold memAdj at h2; rw [hr] at h2
        exact hko (by simpa using h2)
      rw [removeSym_eq_case2 hf hr]
      constructor
      · show getA (cleanForwardOwners g.forward s owners) k = _
        rw [cleanForwardOwners_eq_fold, cleanFold_getA]
        by_cases hk : k = s
        · rw [if_neg (fun hm => hso (hk ▸ hm)), if_pos hk, hk, hf]
        · by_cases hko : k ∈ owners
          · rw [if_pos hko, if_neg hk]
          · rw [if_neg hko, if_neg hk]
            exact (hfid k (hfwdno k hko)).symm
      · show getA (delA g.reverse s) k = _
        rw [getA_delA]
        by_cases hk : k = s
        · rw [if_pos hk, if_pos hk]
        · rw [if_neg hk, if_neg hk]
          exact (hrid k (hrevno k)).symm
  | some deps =>
    have hsd : s ∉ deps := by
      intro hmem
      exact hS s (by unfold memAdj; rw [hf]; simpa using hmem)
    have hcrs : getA (cleanReverseTargets g.reverse s deps) s = getA g.reverse s := by
      rw [cleanReverseTargets_eq_fold, cleanFold_getA]
      simp [hsd]
    have hrevno : ∀ k', k' ∉ deps → ¬ memAdj g.reverse k' s := by
      intro k' hkd hmem
      have h2 : memAdj g.forward s k' := (hM s k').mpr hmem
      unfold memAdj at h2; rw [hf] at h2
      exact hkd (by simpa using h2)
    have hrevspec : ∀ k', getA (cleanReverseTargets g.reverse s deps) k' =
        if k' = s then getA g.reverse s
        else if k' ∈ deps then eraseOpt (getA g.reverse k') s else getA g.reverse k' := by
      intro k'
      by_cases hk : k' = s
      · rw [if_pos hk, hk, hcrs]
      · rw [if_neg hk, cleanReverseTargets_eq_fold, cleanFold_getA]
    cases hr : getA g.reverse s with
    | none =>
      have hfwdno : ∀ k', ¬ memAdj g.forward k' s := by
        intro k' hmem
        have h2 : memAdj g.reverse s k' := (hM k' s).mp hmem
        unfold memAdj at h2; rw [hr] at h2; simp at h2
      rw [removeSym_eq_case3 hf (hcrs.trans hr)]
      constructor
      · show getA (delA g.forward s) k = _
        rw [getA_delA]
        by_cases hk : k = s
        · rw [if_pos hk, if_pos hk]
        · rw [if_neg hk, if_neg hk]
          exact (hfid k (hfwdno k)).symm
      · show getA (cleanReverseTargets g.reverse s deps) k = _
        rw [hrevspec]
        by_cases hk : k = s
        · rw [if_pos hk, if_pos hk, hr]
        · rw [if_neg hk, if_neg hk]
          by_cases hkd : k ∈ deps
          · rw [if_pos hkd]
          · rw [if_neg hkd]
            exact (hrid k (hrevno k hkd)).symm
    | some owners =>
      have hso : s ∉ owners := by
        intro hmem
        have h1 : memAdj g.reverse s s := by unfold memAdj; rw [hr]; simpa using hmem
        exact hS s ((hM s s).mpr h1)
      have hfwdno : ∀ k', k' ∉ owners → ¬ memAdj g.forward k' s := by
        intro k' hko hmem
        have h2 : memAdj g.reverse s k' := (hM k' s).mp hmem
        unfold memAdj at h2; rw [hr] at h2
        exact hko (by simpa using h2)
      rw [removeSym_eq_case4 hf (hcrs.trans hr)]
      constructor
      · show getA (cleanForwardOwners (delA g.forward s) s owners) k = _
        rw [cleanForwardOwners_eq_fold, cleanFold_getA, getA_delA]
        by_cases hk : k = s
        · rw [if_neg (fun hm => hso (hk ▸ hm)), if_pos hk, if_pos hk]
        · by_cases hko : k ∈ owners
          · rw [if_pos hko, if_neg hk, if_neg hk]
          · rw [if_neg hko, if_neg hk, if_neg hk]
            exact (hfid k (hfwdno k hko)).symm
      · show getA (delA (cleanReverseTargets g.reverse s deps) s) k = _
        rw [getA_delA, hrevspec]
        by_cases hk : k = s
        · rw [if_pos hk, if_pos hk]
        · rw [if_neg hk, if_neg hk, if_neg hk]
          by_cases hkd : k ∈ deps
          · rw [if_pos hkd]
          · rw [if_neg hkd]
            exact (hrid k (hrevno k hkd)).symm

end RippleCheck

namespace RippleCheck

theorem removeSymbolFromGraph_memAdj (g : DependencyGraph) (s : String)
    (hM : Mirror g) (hS : NoSelfLoop g) (hE : NoEmptySet g) (x y : String) :
    (memAdj (removeSymbolFromGraph g s).forward x y ↔
      x ≠ s ∧ y ≠ s ∧ memAdj g.forward x y) ∧
    (memAdj (removeSymbolFromGraph g s).reverse x y ↔
      x ≠ s ∧ y ≠ s ∧ memAdj g.reverse x y) := by
  have hspec := removeSymbolFromGraph_getA g s hM hS hE x
  constructor
  · unfold memAdj
    rw [hspec.1]
    by_cases hx : x = s
    · simp [hx]
    · rw [if_neg hx, mem_eraseOpt_getD]
      constructor
      · rintro ⟨h1, h2⟩; exact ⟨hx, h2, h1⟩
      · rintro ⟨_, h2, h1⟩; exact ⟨h1, h2⟩
  · unfold memAdj
    rw [hspec.2]
    by_cases hx : x = s
    · simp [hx]
    · rw [if_neg hx, mem_eraseOpt_getD]
      constructor
      · rintro ⟨h1, h2⟩; exact ⟨hx, h2, h1⟩
      · rintro ⟨_, h2, h1⟩; exact ⟨h1, h2⟩

theorem graphWF_removeSymbolFromGraph (g : DependencyGraph) (s : String)
    (h : GraphWF g) : GraphWF (removeSymbolFromGraph g s) := by
  cases hf : getA g.forward s with
  | none =>
    cases hr : getA g.reverse s with
    | none => rw [removeSym_eq_case1 hf hr]; exact h
    | some owners =>
      rw [removeSym_eq_case2 hf hr]
      refine ⟨?_, adjWF_delA _ _ h.2⟩
      rw [cleanForwardOwners_eq_fold]
      exact adjWF_cleanFold s owners g.forward h.1
  | some deps =>
    have h1f : AdjWF (delA g.forward s) := adjWF_delA _ _ h.1
    have h1r : AdjWF (cleanReverseTargets g.reverse s deps) := by
      rw [cleanReverseTargets_eq_fold]
      exact adjWF_cleanFold s deps g.reverse h.2
    cases hr : getA (cleanReverseTargets g.reverse s deps) s with
    | none => rw [removeSym_eq_case3 hf hr]; exact ⟨h1f, h1r⟩
    | some owners =>
      rw [removeSym_eq_case4 hf hr]
      refine ⟨?_, adjWF_delA _ _ h1r⟩
      rw [cleanForwardOwners_eq_fold]
      exact adjWF_cleanFold s owners _ h1f

theorem graphInv_removeSymbolFromGraph (g : DependencyGraph) (s : String)
    (h : GraphInv g) : GraphInv (removeSymbolFromGraph g s) := by
  obtain ⟨hW, hM, hS, hE⟩ := h
  refine ⟨graphWF_removeSymbolFromGraph g s hW, ?_, ?_, ?_⟩
  · intro x y
    rw [(removeSymbolFromGraph_memAdj g s hM hS hE x y).1,
        (removeSymbolFromGraph_memAdj g s hM hS hE y x).2]
    constructor
    · rintro ⟨h1, h2, h3⟩; exact ⟨h2, h1, (hM x y).mp h3⟩
    · rintro ⟨h1, h2, h3⟩; exact ⟨h2, h1, (hM x y).mpr h3⟩
  · intro x hx
    rcases ((removeSymbolFromGraph_memAdj g s hM hS hE x x).1).mp hx with ⟨_, _, h3⟩
    exact hS x h3
  · constructor
    · intro k l hl
      rw [(removeSymbolFromGraph_getA g s hM hS hE k).1] at hl
      by_cases hk : k = s
      · simp [hk] at hl
      · rw [if_neg hk] at hl
        exact eraseOpt_ne_nil hl
    · intro k l hl
      rw [(removeSymbolFromGraph_getA g s hM hS hE k).2] at hl
      by_cases hk : k = s
      · simp [hk] at hl
      · rw [if_neg hk] at hl
        exact eraseOpt_ne_nil hl

end RippleCheck

/-!
Symbol index — `SymbolEntry` from `symbolExtractor` (`src/unnamed/part_010`)
and `SymbolIndex = Map<string, SymbolEntry>` from `symbolIndex`
(`src/unnamed/part_006`).  The `kind` union of string literals is kept as a
string.
-/

namespace RippleCheck

/-- Embedding of `SymbolEntry`. -/
structure SymbolEntry where
  id : String
  name : String
  kind : String
  filePath : String
  startLine : Nat
  endLine : Nat
  startPos : Nat
  endPos : Nat
  isExported : Bool
  parentId : Option String
  signatureHash : String
deriving DecidableEq

/-- Embedding of `SymbolIndex`. -/
abbrev SymbolIndex := List (String × SymbolEntry)

/-- Embedding of `removeFileFromGraph` (incremental updater in
`fileWatcher.ts`): collect the ids of the file's symbols, then for each one
clean its forward edges, clean its reverse entries, and delete it from the
index. -/
def removeFileFromGraph (filePath : String) (symbolIndex : SymbolIndex)
    (graph : DependencyGraph) : SymbolIndex × DependencyGraph :=
  let fileSymbolIds := (symbolIndex.filter (fun p => p.2.filePath = filePath)).map Prod.fst
  fileSymbolIds.foldl
    (fun st symbolId => (delA st.1 symbolId, removeSymbolFromGraph st.2 symbolId))
    (symbolIndex, graph)

theorem eraseAllOpt_nil {o : Option (List String)}
    (hne : ∀ l, o = some l → l ≠ []) : eraseAllOpt o [] = o := by
  cases o with
  | none => rfl
  | some l =>
    simp only [eraseAllOpt]
    have h1 : l.filter (fun y => y ∉ ([] : List String)) = l := by
      apply List.filter_eq_self.mpr
      intro y _; simp
    rw [h1]
    simp [hne l rfl]

theorem eraseAllOpt_cons (o : Option (List String)) (i : String) (rest : List String) :
    eraseAllOpt (eraseOpt o i) rest = eraseAllOpt o (i :: rest) := by
  cases o with
  | none => rfl
  | some l =>
    by_cases hc : deleteS l i = []
    · have h1 : eraseOpt (some l) i = none := by simp [eraseOpt, hc]
      rw [h1]
      have hall : ∀ y ∈ l, y = i := by
        intro y hy
        by_contra hne
        have : y ∈ deleteS l i := (mem_deleteS l i y).mpr ⟨hy, hne⟩
        rw [hc] at this; simp at this
      have h2 : l.filter (fun y => y ∉ i :: rest) = [] := by
        apply List.filter_eq_nil_iff.mpr
        intro y hy
        simp [hall y hy]
      have h3 : eraseAllOpt (none : Option (List String)) rest = none := rfl
      rw [h3]
      simp only [eraseAllOpt]
      rw [h2]
      simp
    · have h1 : eraseOpt (some l) i = some (deleteS l i) := by simp [eraseOpt, hc]
      rw [h1]
      have hff : (deleteS l i).filter (fun y => y ∉ rest) =
          l.filter (fun y => y ∉ i :: rest) := by
        unfold deleteS
        rw [List.filter_filter]
        apply List.filter_congr
        intro y _
        by_cases hyi : y = i
        · simp [hyi]
        · by_cases hyr : y ∈ rest
          · simp [hyi, hyr]
          · simp [hyi, hyr]
      simp only [eraseAllOpt, hff]

theorem eraseAllOpt_ne_nil {o : Option (List String)} {ids : List String} {l : List String}
    (h : eraseAllOpt o ids = some l) : l ≠ [] := by
  cases o with
  | none => simp [eraseAllOpt] at h
  | some l0 =>
    simp only [eraseAllOpt] at h
    by_cases hc : l0.filter (fun y => y ∉ ids) = []
    · rw [if_pos hc] at h
      exact absurd h (by simp)
    · rw [if_neg hc] at h
      have h2 := Option.some.inj h
      rw [← h2]
      exact hc

theorem mem_eraseAllOpt_getD (o : Option (List String)) (ids : List String) (y : String) :
    y ∈ (eraseAllOpt o ids).getD [] ↔ y ∈ o.getD [] ∧ y ∉ ids := by
  cases o with
  | none => simp [eraseAllOpt]
  | some l =>
    simp only [eraseAllOpt]
    by_cases hc : l.filter (fun y => y ∉ ids) = []
    · simp only [hc, if_pos rfl, Option.getD_none, Option.getD_some]
      constructor
      · intro h; simp at h
      · rintro ⟨hy, hni⟩
        have : y ∈ l.filter (fun y => y ∉ ids) := by
          apply List.mem_filter.mpr
          exact ⟨hy, by simpa using hni⟩
        rw [hc] at this; simp at this
    · rw [if_neg hc]
      simp only [Option.getD_some]
      rw [List.mem_filter]
      simp

/-- Fold-level effect of evicting a list of symbol ids: every listed id is
gone as a key of the index and both adjacency maps, and every stored set has
lost the listed ids (bindings that empty are removed). -/
theorem removeSyms_fold_spec (ids : List String) :
    ∀ (idx : SymbolIndex) (g : DependencyGraph), GraphInv g →
      (∀ k, getA (ids.foldl
          (fun st symbolId => (delA st.1 symbolId, removeSymbolFromGraph st.2 symbolId))
          (idx, g)).1 k = if k ∈ ids then none else getA idx k) ∧
      (∀ k, getA (ids.foldl
          (fun st symbolId => (delA st.1 symbolId, removeSymbolFromGraph st.2 symbolId))
          (idx, g)).2.forward k =
          if k ∈ ids then none else eraseAllOpt (getA g.forward k) ids) ∧
      (∀ k, getA (ids.foldl
          (fun st symbolId => (delA st.1 symbolId, removeSymbolFromGraph st.2 symbolId))
          (idx, g)).2.reverse k =
          if k ∈ ids then none else eraseAllOpt (getA g.reverse k) ids) ∧
      GraphInv (ids.foldl
          (fun st symbolId => (delA st.1 symbolId, removeSymbolFromGraph st.2 symbolId))
          (idx, g)).2 := by
  induction ids with
  | nil =>
    intro idx g hG
    refine ⟨fun k => by simp, fun k => ?_, fun k => ?_, hG⟩
    · simp [eraseAllOpt_nil (fun l hl => hG.2.2.2.1 k l hl)]
    · simp [eraseAllOpt_nil (fun l hl => hG.2.2.2.2 k l hl)]
  | cons i rest ih =>
    intro idx g hG
    obtain ⟨hW, hM, hS, hE⟩ := hG
    have hG1 : GraphInv (removeSymbolFromGraph g i) :=
      graphInv_removeSymbolFromGraph g i ⟨hW, hM, hS, hE⟩
    have hstep := fun k => removeSymbolFromGraph_getA g i hM hS hE k
    rcases ih (delA idx i) (removeSymbolFromGraph g i) hG1 with ⟨h1, h2, h3, h4⟩
    rw [List.foldl_cons] at *
    refine ⟨fun k => ?_, fun k => ?_, fun k => ?_, h4⟩
    · rw [h1 k, getA_delA]
      by_cases hkr : k ∈ rest
      · simp [hkr]
      · by_cases hki : k = i
        · simp [hkr, hki]
        · simp [hkr, hki]
    · rw [h2 k, (hstep k).1]
      by_cases hkr : k ∈ rest
      · simp [hkr]
      · by_cases hki : k = i
        · simp [hkr, hki, eraseAllOpt]
        · rw [if_neg hkr, if_neg hki, eraseAllOpt_cons]
          have hmemc : k ∉ i :: rest := by simp [hki, hkr]
          rw [if_neg hmemc]
    · rw [h3 k, (hstep k).2]
      by_cases hkr : k ∈ rest
      · simp [hkr]
      · by_cases hki : k = i
        · simp [hkr, hki, eraseAllOpt]
        · rw [if_neg hkr, if_neg hki, eraseAllOpt_cons]
          have hmemc : k ∉ i :: rest := by simp [hki, hkr]
          rw [if_neg hmemc]

end RippleCheck

namespace RippleCheck

theorem insertS_ne_nil (s : List String) (x : String) : insertS s x ≠ [] := by
  unfold insertS
  by_cases h : x ∈ s
  · rw [if_pos h]
    intro he
    rw [he] at h
    simp at h
  · simp [h]

theorem addEdge_forward_getA (g : DependencyGraph) (a b k : String) :
    getA (addEdge g a b).forward k =
      if k = a then some (insertS ((getA g.forward a).getD []) b) else getA g.forward k := by
  unfold addEdge
  exact getA_setA _ _ _ _

theorem addEdge_reverse_getA (g : DependencyGraph) (a b k : String) :
    getA (addEdge g a b).reverse k =
      if k = b then some (insertS ((getA g.reverse b).getD []) a) else getA g.reverse k := by
  unfold addEdge
  exact getA_setA _ _ _ _

theorem addEdge_memAdj_forward (g : DependencyGraph) (a b x y : String) :
    memAdj (addEdge g a b).forward x y ↔ memAdj g.forward x y ∨ (x = a ∧ y = b) := by
  unfold memAdj
  rw [addEdge_forward_getA]
  by_cases hx : x = a
  · rw [if_pos hx, Option.getD_some, mem_insertS, hx]
    tauto
  · rw [if_neg hx]
    constructor
    · intro h; exact Or.inl h
    · rintro (h | ⟨h1, _⟩)
      · exact h
      · exact absurd h1 hx

theorem addEdge_memAdj_reverse (g : DependencyGraph) (a b x y : String) :
    memAdj (addEdge g a b).reverse x y ↔ memAdj g.reverse x y ∨ (x = b ∧ y = a) := by
  unfold memAdj
  rw [addEdge_reverse_getA]
  by_cases hx : x = b
  · rw [if_pos hx, Option.getD_some, mem_insertS, hx]
    tauto
  · rw [if_neg hx]
    constructor
    · intro h; exact Or.inl h
    · rintro (h | ⟨h1, _⟩)
      · exact h
      · exact absurd h1 hx

theorem adjWF_setInsert (m : List (String × List String)) (a b : String)
    (h : AdjWF m) : AdjWF (setA m a (insertS ((getA m a).getD []) b)) := by
  refine ⟨nodupKeys_setA m a _ h.1, fun p hp => ?_⟩
  rcases mem_setA hp with hp | hp
  · exact h.2 p hp
  · rw [hp]
    apply nodup_insertS
    cases hm : getA m a with
    | none => simp
    | some l =>
      simp only [Option.getD_some]
      exact h.2 (a, l) (getA_mem m hm)

theorem graphInv_addEdge (g : DependencyGraph) (a b : String)
    (h : GraphInv g) (hne : a ≠ b) : GraphInv (addEdge g a b) := by
  obtain ⟨⟨hWf, hWr⟩, hM, hS, hE⟩ := h
  refine ⟨⟨adjWF_setInsert g.forward a b hWf, adjWF_setInsert g.reverse b a hWr⟩, ?_, ?_, ?_⟩
  · intro x y
    rw [addEdge_memAdj_forward, addEdge_memAdj_reverse, hM x y]
    tauto
  · intro x hx
    rcases (addEdge_memAdj_forward g a b x x).mp hx with h1 | ⟨h1, h2⟩
    · exact hS x h1
    · exact hne (h1 ▸ h2 ▸ rfl)
  · constructor
    · intro k l hl
      rw [addEdge_forward_getA] at hl
      by_cases hk : k = a
      · rw [if_pos hk] at hl
        rw [← Option.some.inj hl]
        exact insertS_ne_nil _ _
      · rw [if_neg hk] at hl
        exact hE.1 k l hl
    · intro k l hl
      rw [addEdge_reverse_getA] at hl
      by_cases hk : k = b
      · rw [if_pos hk] at hl
        rw [← Option.some.inj hl]
        exact insertS_ne_nil _ _
      · rw [if_neg hk] at hl
        exact hE.2 k l hl

/-- The cleared graph produced at the start of `rebuildInPlace`. -/
def emptyGraph : DependencyGraph := { forward := [], reverse := [] }

theorem graphInv_emptyGraph : GraphInv emptyGraph := by
  refine ⟨⟨⟨by simp [emptyGraph], by simp [emptyGraph]⟩,
      ⟨by simp [emptyGraph], by simp [emptyGraph]⟩⟩, ?_, ?_, ?_⟩
  · intro x y
    unfold memAdj emptyGraph getA
    simp
  · intro x
    unfold memAdj emptyGraph getA
    simp
  · constructor
    · intro k l hl; simp [emptyGraph, getA] at hl
    · intro k l hl; simp [emptyGraph, getA] at hl

theorem graphInv_addEdges (edges : List (String × String)) :
    (∀ e ∈ edges, e.1 ≠ e.2) →
    ∀ g, GraphInv g →
      GraphInv (edges.foldl (fun acc e => addEdge acc e.1 e.2) g) := by
  induction edges with
  | nil => intro _ g hg; exact hg
  | cons e rest ih =>
    intro hne g hg
    rw [List.foldl_cons]
    exact ih (fun e' he' => hne e' (List.mem_cons_of_mem e he'))
      _ (graphInv_addEdge g e.1 e.2 hg (hne e (List.mem_cons_self e rest)))

end RippleCheck

namespace RippleCheck

theorem removeFileFromGraph_spec (fp : String) (idx : SymbolIndex) (g : DependencyGraph)
    (hG : GraphInv g) :
    (∀ k, getA (removeFileFromGraph fp idx g).1 k =
      if k ∈ (idx.filter (fun p => p.2.filePath = fp)).map Prod.fst then none
      else getA idx k) ∧
    (∀ k, getA (removeFileFromGraph fp idx g).2.forward k =
      if k ∈ (idx.filter (fun p => p.2.filePath = fp)).map Prod.fst then none
      else eraseAllOpt (getA g.forward k) ((idx.filter (fun p => p.2.filePath = fp)).map Prod.fst)) ∧
    (∀ k, getA (removeFileFromGraph fp idx g).2.reverse k =
      if k ∈ (idx.filter (fun p => p.2.filePath = fp)).map Prod.fst then none
      else eraseAllOpt (getA g.reverse k) ((idx.filter (fun p => p.2.filePath = fp)).map Prod.fst)) ∧
    GraphInv (removeFileFromGraph fp idx g).2 := by
  unfold removeFileFromGraph
  exact removeSyms_fold_spec _ idx g hG

theorem graphInv_removeFileFromGraph (fp : String) (idx : SymbolIndex) (g : DependencyGraph)
    (hG : GraphInv g) : GraphInv (removeFileFromGraph fp idx g).2 :=
  (removeFileFromGraph_spec fp idx g hG).2.2.2

/-- Decidable sufficient conditions for `GraphInv` on a concrete graph. -/
theorem graphInv_of_checks (g : DependencyGraph)
    (h1 : AdjWF g.forward) (h2 : AdjWF g.reverse)
    (h3 : ∀ p ∈ g.forward, ∀ y ∈ (p.2 : List String), memAdj g.reverse y p.1)
    (h4 : ∀ p ∈ g.reverse, ∀ x ∈ (p.2 : List String), memAdj g.forward x p.1)
    (h5 : ∀ p ∈ g.forward, p.1 ∉ (p.2 : List String))
    (h6 : ∀ p ∈ g.forward, (p.2 : List String) ≠ [])
    (h7 : ∀ p ∈ g.reverse, (p.2 : List String) ≠ []) : GraphInv g :=
  ⟨⟨h1, h2⟩, mirror_of_entries g h3 h4, noSelfLoop_of_entries g h5,
    noEmptySet_of_entries g h6 h7⟩

/-- C5: after every operation that mutates the live dependency graph — edge
insertion during reference walking (which only inserts `src ≠ tgt` edges),
`removeFileFromGraph` eviction, and the in-place rebuild (clear both maps,
then re-walk every file through `addEdge`) — the mirror, no-self-loop and
non-empty-set invariants all hold. -/
theorem c5_live_graph_invariants :
    (∀ (g : DependencyGraph) (s t : String), GraphInv g → s ≠ t →
      Mirror (addEdge g s t) ∧ NoSelfLoop (addEdge g s t) ∧ NoEmptySet (addEdge g s t)) ∧
    (∀ (fp : String) (idx : SymbolIndex) (g : DependencyGraph), GraphInv g →
      Mirror (removeFileFromGraph fp idx g).2 ∧ NoSelfLoop (removeFileFromGraph fp idx g).2 ∧
        NoEmptySet (removeFileFromGraph fp idx g).2) ∧
    (∀ (edges : List (String × String)), (∀ e ∈ edges, e.1 ≠ e.2) →
      Mirror (edges.foldl (fun acc e => addEdge acc e.1 e.2) emptyGraph) ∧
      NoSelfLoop (edges.foldl (fun acc e => addEdge acc e.1 e.2) emptyGraph) ∧
      NoEmptySet (edges.foldl (fun acc e => addEdge acc e.1 e.2) emptyGraph)) := by
  refine ⟨?_, ?_, ?_⟩
  · intro g s t hG hne
    obtain ⟨_, hM, hS, hE⟩ := graphInv_addEdge g s t hG hne
    exact ⟨hM, hS, hE⟩
  · intro fp idx g hG
    obtain ⟨_, hM, hS, hE⟩ := graphInv_removeFileFromGraph fp idx g hG
    exact ⟨hM, hS, hE⟩
  · intro edges hne
    obtain ⟨_, hM, hS, hE⟩ := graphInv_addEdges edges hne emptyGraph graphInv_emptyGraph
    exact ⟨hM, hS, hE⟩

/-- Witness for C5 at concrete inputs. -/
theorem c5_live_graph_invariants_witness :
    Mirror (addEdge emptyGraph "a" "b") ∧
    Mirror (removeFileFromGraph "f.ts" [] emptyGraph).2 ∧
    NoEmptySet ([(("a" : String), ("b" : String))].foldl
      (fun acc e => addEdge acc e.1 e.2) emptyGraph) :=
  ⟨(c5_live_graph_invariants.1 emptyGraph "a" "b" graphInv_emptyGraph (by decide)).1,
   (c5_live_graph_invariants.2.1 "f.ts" [] emptyGraph graphInv_emptyGraph).1,
   (c5_live_graph_invariants.2.2 [(("a" : String), ("b" : String))]
      (by decide)).2.2⟩

end RippleCheck

/-!
Incremental updater — `snapshotSignatures` / `detectSignatureChanges`
(`signatureAnalyzer.ts`) and `handleFileChanged` (incremental updater in
`fileWatcher.ts`).  The external parser step (`refreshSourceFile` plus
`extractSymbols` plus the AST walk of `walkSourceFile`) is abstracted by a
`ParsedSourceFile` value carrying the symbols extraction emits and the edges
the single-file walk inserts; a failed refresh is `none`.
-/

namespace RippleCheck

/-- Embedding of `SignatureChangeResult`. -/
structure SignatureChangeResult where
  ripple : List String
  safe : List String
  added : List String
  removed : List String
deriving DecidableEq

/-- Embedding of `snapshotSignatures`: hashes of the file's current symbols. -/
def snapshotSignatures (filePath : String) (symbolIndex : SymbolIndex) :
    List (String × String) :=
  symbolIndex.foldl
    (fun snap p => if p.2.filePath = filePath then setA snap p.1 p.2.signatureHash else snap)
    []

/-- Embedding of `detectSignatureChanges`: partition the file's current
symbols into added / ripple / safe against the snapshot, then collect
snapshot ids absent from the new index as removed. -/
def detectSignatureChanges (filePath : String) (oldHashes : List (String × String))
    (newIndex : SymbolIndex) : SignatureChangeResult :=
  let r0 : SignatureChangeResult := { ripple := [], safe := [], added := [], removed := [] }
  let r1 := newIndex.foldl
    (fun r p =>
      if p.2.filePath ≠ filePath then r
      else
        match getA oldHashes p.1 with
        | none => { r with added := r.added ++ [p.1] }
        | some oldHash =>
            if oldHash ≠ p.2.signatureHash then { r with ripple := r.ripple ++ [p.1] }
            else { r with safe := r.safe ++ [p.1] })
    r0
  (oldHashes.map Prod.fst).foldl
    (fun r id => if (getA newIndex id).isSome then r else { r with removed := r.removed ++ [id] })
    r1

/-- Abstraction of a refreshed ts-morph source file: the symbols
`extractSymbols` emits for it and the edges the single-file reference walk
records (all with source in the file, never self-edges — the walker guards
`referencedId !== currentOwner`). -/
structure ParsedSourceFile where
  syms : List SymbolEntry
  edges : List (String × String)

/-- Embedding of `reindexSourceFile`: insert every extracted symbol. -/
def reindexSourceFile (sf : ParsedSourceFile) (symbolIndex : SymbolIndex) : SymbolIndex :=
  sf.syms.foldl (fun idx sym => setA idx sym.id sym) symbolIndex

/-- Embedding of the effect of `walkSourceFile` on the graph: insert every
edge the walk records. -/
def walkSourceFile (sf : ParsedSourceFile) (graph : DependencyGraph) : DependencyGraph :=
  sf.edges.foldl (fun g e => addEdge g e.1 e.2) graph

/-- Embedding of `handleFileChanged`: snapshot, evict, refresh (abstracted as
`parseResult`), then either bail out with the all-removed report or re-index,
re-walk and diff. -/
def handleFileChanged (fsPath : String) (parseResult : Option ParsedSourceFile)
    (symbolIndex : SymbolIndex) (graph : DependencyGraph) :
    SignatureChangeResult × SymbolIndex × DependencyGraph :=
  let oldHashes := snapshotSignatures fsPath symbolIndex
  let evicted := removeFileFromGraph fsPath symbolIndex graph
  match parseResult with
  | none =>
      ({ ripple := [], safe := [], added := [], removed := oldHashes.map Prod.fst },
       evicted.1, evicted.2)
  | some sourceFile =>
      let idx2 := reindexSourceFile sourceFile evicted.1
      let g2 := walkSourceFile sourceFile evicted.2
      (detectSignatureChanges fsPath oldHashes idx2, idx2, g2)

theorem fileIds_of_getA {idx : SymbolIndex} {fp k : String} {e : SymbolEntry}
    (h : getA idx k = some e) (hfp : e.filePath = fp) :
    k ∈ (idx.filter (fun p => p.2.filePath = fp)).map Prod.fst := by
  have hm : (k, e) ∈ idx := getA_mem idx h
  have hm2 : (k, e) ∈ idx.filter (fun p => p.2.filePath = fp) := by
    apply List.mem_filter.mpr
    exact ⟨hm, by simpa using hfp⟩
  exact List.mem_map_of_mem Prod.fst hm2

/-- C8: if step 3 of `handleFileChanged` fails (the parsed source cannot be
refreshed or created), the returned report has empty ripple / safe / added
and a removed set equal to the key set of the pre-eviction snapshot, all of
the file's symbols stay deleted from the index, and no symbol of the file
occurs anywhere in the graph, neither as a key nor inside any stored set. -/
theorem c8_handleFileChanged_parse_failure (fsPath : String) (idx : SymbolIndex)
    (g : DependencyGraph) (hG : GraphInv g) :
    (handleFileChanged fsPath none idx g).1.ripple = [] ∧
    (handleFileChanged fsPath none idx g).1.safe = [] ∧
    (handleFileChanged fsPath none idx g).1.added = [] ∧
    (handleFileChanged fsPath none idx g).1.removed =
      (snapshotSignatures fsPath idx).map Prod.fst ∧
    (∀ k e, getA (handleFileChanged fsPath none idx g).2.1 k = some e →
      e.filePath ≠ fsPath) ∧
    (∀ s e, getA idx s = some e → e.filePath = fsPath →
      getA (handleFileChanged fsPath none idx g).2.2.forward s = none ∧
      getA (handleFileChanged fsPath none idx g).2.2.reverse s = none ∧
      (∀ x, ¬ memAdj (handleFileChanged fsPath none idx g).2.2.forward x s) ∧
      (∀ x, ¬ memAdj (handleFileChanged fsPath none idx g).2.2.reverse x s)) := by
  have hres : handleFileChanged fsPath none idx g =
      ({ ripple := [], safe := [], added := [],
         removed := (snapshotSignatures fsPath idx).map Prod.fst },
       (removeFileFromGraph fsPath idx g).1, (removeFileFromGraph fsPath idx g).2) := rfl
  rw [hres]
  obtain ⟨hidx, hfwd, hrev, _⟩ := removeFileFromGraph_spec fsPath idx g hG
  refine ⟨rfl, rfl, rfl, rfl, ?_, ?_⟩
  · intro k e hk hfp
    have hkid : k ∈ (idx.filter (fun p => p.2.filePath = fsPath)).map Prod.fst := by
      rw [hidx k] at hk
      by_cases hmem : k ∈ (idx.filter (fun p => p.2.filePath = fsPath)).map Prod.fst
      · rw [if_pos hmem] at hk; exact absurd hk (by simp)
      · rw [if_neg hmem] at hk
        exact fileIds_of_getA hk hfp
    rw [hidx k, if_pos hkid] at hk
    exact absurd hk (by simp)
  · intro s e hs hfp
    have hsid : s ∈ (idx.filter (fun p => p.2.filePath = fsPath)).map Prod.fst :=
      fileIds_of_getA hs hfp
    refine ⟨?_, ?_, ?_, ?_⟩
    · rw [hfwd s, if_pos hsid]
    · rw [hrev s, if_pos hsid]
    · intro x hx
      unfold memAdj at hx
      rw [hfwd x] at hx
      by_cases hxm : x ∈ (idx.filter (fun p => p.2.filePath = fsPath)).map Prod.fst
      · rw [if_pos hxm] at hx; simp at hx
      · rw [if_neg hxm] at hx
        rcases (mem_eraseAllOpt_getD _ _ _).mp hx with ⟨_, hsnot⟩
        exact hsnot hsid
    · intro x hx
      unfold memAdj at hx
      rw [hrev x] at hx
      by_cases hxm : x ∈ (idx.filter (fun p => p.2.filePath = fsPath)).map Prod.fst
      · rw [if_pos hxm] at hx; simp at hx
      · rw [if_neg hxm] at hx
        rcases (mem_eraseAllOpt_getD _ _ _).mp hx with ⟨_, hsnot⟩
        exact hsnot hsid

end RippleCheck

namespace RippleCheck

/-- Small concrete symbol entry used by closed-instance checks. -/
def sampleEntry (id fp : String) : SymbolEntry :=
  { id := id, name := id, kind := "function", filePath := fp, startLine := 1, endLine := 2,
    startPos := 0, endPos := 10, isExported := true, parentId := none, signatureHash := "h" }

/-- Witness for C8 at a concrete index and graph: a one-symbol file `f.ts`
referenced by a symbol of `g.ts`. -/
theorem c8_handleFileChanged_parse_failure_witness :
    (handleFileChanged "f.ts" none
        [("g.ts#O", sampleEntry "g.ts#O" "g.ts"), ("f.ts#S", sampleEntry "f.ts#S" "f.ts")]
        { forward := [("g.ts#O", ["f.ts#S"])],
          reverse := [("f.ts#S", ["g.ts#O"])] }).1.removed =
      (snapshotSignatures "f.ts"
        [("g.ts#O", sampleEntry "g.ts#O" "g.ts"),
         ("f.ts#S", sampleEntry "f.ts#S" "f.ts")]).map Prod.fst ∧
    getA (handleFileChanged "f.ts" none
        [("g.ts#O", sampleEntry "g.ts#O" "g.ts"), ("f.ts#S", sampleEntry "f.ts#S" "f.ts")]
        { forward := [("g.ts#O", ["f.ts#S"])],
          reverse := [("f.ts#S", ["g.ts#O"])] }).2.2.forward "f.ts#S" = none := by
  have h := c8_handleFileChanged_parse_failure "f.ts"
    [("g.ts#O", sampleEntry "g.ts#O" "g.ts"), ("f.ts#S", sampleEntry "f.ts#S" "f.ts")]
    { forward := [("g.ts#O", ["f.ts#S"])], reverse := [("f.ts#S", ["g.ts#O"])] }
    (graphInv_of_checks _ (by decide) (by decide) (by decide) (by decide)
      (by decide) (by decide) (by decide))
  exact ⟨h.2.2.2.1,
    (h.2.2.2.2.2 "f.ts#S" (sampleEntry "f.ts#S" "f.ts") (by decide) (by decide)).1⟩

end RippleCheck

namespace RippleCheck

theorem addEdge_isSome_forward (g : DependencyGraph) (a b k : String) :
    (getA (addEdge g a b).forward k).isSome = true ↔
      (getA g.forward k).isSome = true ∨ k = a := by
  rw [addEdge_forward_getA]
  by_cases hk : k = a
  · simp [hk]
  · simp [hk]

theorem addEdge_isSome_reverse (g : DependencyGraph) (a b k : String) :
    (getA (addEdge g a b).reverse k).isSome = true ↔
      (getA g.reverse k).isSome = true ∨ k = b := by
  rw [addEdge_reverse_getA]
  by_cases hk : k = b
  · simp [hk]
  · simp [hk]

theorem addEdges_memAdj_forward (edges : List (String × String)) :
    ∀ (g : DependencyGraph) (x y : String),
      memAdj (edges.foldl (fun g e => addEdge g e.1 e.2) g).forward x y ↔
        memAdj g.forward x y ∨ (x, y) ∈ edges := by
  induction edges with
  | nil => intro g x y; simp
  | cons e rest ih =>
    intro g x y
    rw [List.foldl_cons, ih, addEdge_memAdj_forward]
    constructor
    · rintro ((h | ⟨h1, h2⟩) | h)
      · exact Or.inl h
      · right
        rw [h1, h2]
        exact List.mem_cons_self e rest
      · exact Or.inr (List.mem_cons_of_mem e h)
    · rintro (h | h)
      · exact Or.inl (Or.inl h)
      · rcases List.mem_cons.mp h with h | h
        · left; right
          rw [← h]
          exact ⟨rfl, rfl⟩
        · exact Or.inr h

theorem addEdges_memAdj_reverse (edges : List (String × String)) :
    ∀ (g : DependencyGraph) (x y : String),
      memAdj (edges.foldl (fun g e => addEdge g e.1 e.2) g).reverse x y ↔
        memAdj g.reverse x y ∨ (y, x) ∈ edges := by
  induction edges with
  | nil => intro g x y; simp
  | cons e rest ih =>
    intro g x y
    rw [List.foldl_cons, ih, addEdge_memAdj_reverse]
    constructor
    · rintro ((h | ⟨h1, h2⟩) | h)
      · exact Or.inl h
      · right
        rw [h1, h2]
        exact List.mem_cons_self e rest
      · exact Or.inr (List.mem_cons_of_mem e h)
    · rintro (h | h)
      · exact Or.inl (Or.inl h)
      · rcases List.mem_cons.mp h with h | h
        · left; right
          rw [← h]
          exact ⟨rfl, rfl⟩
        · exact Or.inr h

theorem addEdges_isSome_forward (edges : List (String × String)) :
    ∀ (g : DependencyGraph) (k : String),
      (getA (edges.foldl (fun g e => addEdge g e.1 e.2) g).forward k).isSome = true ↔
        (getA g.forward k).isSome = true ∨ ∃ b, (k, b) ∈ edges := by
  induction edges with
  | nil => intro g k; simp
  | cons e rest ih =>
    intro g k
    rw [List.foldl_cons, ih, addEdge_isSome_forward]
    constructor
    · rintro ((h | h) | ⟨b, hb⟩)
      · exact Or.inl h
      · right
        exact ⟨e.2, by rw [h]; exact List.mem_cons_self e rest⟩
      · exact Or.inr ⟨b, List.mem_cons_of_mem e hb⟩
    · rintro (h | ⟨b, hb⟩)
      · exact Or.inl (Or.inl h)
      · rcases List.mem_cons.mp hb with h | h
        · left; right
          rw [show e = (k, b) from h.symm]
        · exact Or.inr ⟨b, h⟩

theorem addEdges_isSome_reverse (edges : List (String × String)) :
    ∀ (g : DependencyGraph) (k : String),
      (getA (edges.foldl (fun g e => addEdge g e.1 e.2) g).reverse k).isSome = true ↔
        (getA g.reverse k).isSome = true ∨ ∃ a, (a, k) ∈ edges := by
  induction edges with
  | nil => intro g k; simp
  | cons e rest ih =>
    intro g k
    rw [List.foldl_cons, ih, addEdge_isSome_reverse]
    constructor
    · rintro ((h | h) | ⟨a, ha⟩)
      · exact Or.inl h
      · right
        exact ⟨e.1, by rw [h]; exact List.mem_cons_self e rest⟩
      · exact Or.inr ⟨a, List.mem_cons_of_mem e ha⟩
    · rintro (h | ⟨a, ha⟩)
      · exact Or.inl (Or.inl h)
      · rcases List.mem_cons.mp ha with h | h
        · left; right
          rw [show e = (a, k) from h.symm]
        · exact Or.inr ⟨a, h⟩

theorem reindex_getA (syms : List SymbolEntry) :
    (syms.map SymbolEntry.id).Nodup →
    ∀ (idx0 : SymbolIndex) (k : String),
      getA (syms.foldl (fun idx sym => setA idx sym.id sym) idx0) k =
        match getA (syms.map (fun e => (e.id, e))) k with
        | some e => some e
        | none => getA idx0 k := by
  induction syms with
  | nil => intro _ idx0 k; simp [getA]
  | cons e rest ih =>
    intro hnd idx0 k
    simp only [List.map_cons, List.nodup_cons] at hnd
    rw [List.foldl_cons, ih hnd.2]
    by_cases hk : k = e.id
    · have hnone : getA (rest.map (fun e => (e.id, e))) k = none := by
        rw [getA_eq_none_iff]
        intro hmem
        apply hnd.1
        rw [← hk]
        simpa using hmem
      rw [hnone]
      have hcons : getA ((e :: rest).map (fun e => (e.id, e))) k = some e := by
        simp [getA, hk.symm]
      rw [hcons, getA_setA]
      simp [hk]
    · have hcons : getA ((e :: rest).map (fun e => (e.id, e))) k =
          getA (rest.map (fun e => (e.id, e))) k := by
        simp only [List.map_cons, getA]
        rw [if_neg (fun hh => hk hh.symm)]
      rw [hcons]
      cases hrest : getA (rest.map (fun e => (e.id, e))) k with
      | some e' => rfl
      | none => rw [getA_setA_ne _ _ (fun hh => hk hh)]

theorem getA_symPairs {syms : List SymbolEntry} {k : String} {e : SymbolEntry}
    (h : getA (syms.map (fun e => (e.id, e))) k = some e) : e.id = k ∧ e ∈ syms := by
  have hm := getA_mem _ h
  rcases List.mem_map.mp hm with ⟨e', he', heq⟩
  have h1 : e'.id = k := congrArg Prod.fst heq
  have h2 : e' = e := congrArg Prod.snd heq
  rw [← h2]
  exact ⟨h1, he'⟩

end RippleCheck

namespace RippleCheck

theorem fileIds_mem_iff {idx : SymbolIndex} {fp k : String}
    (hnd : (idx.map Prod.fst).Nodup) :
    k ∈ (idx.filter (fun p => p.2.filePath = fp)).map Prod.fst ↔
      ∃ e, getA idx k = some e ∧ e.filePath = fp := by
  constructor
  · intro h
    rcases List.mem_map.mp h with ⟨p, hp, hpk⟩
    have hpm := List.mem_filter.mp hp
    refine ⟨p.2, ?_, by simpa using hpm.2⟩
    have : (k, p.2) ∈ idx := by
      have : p = (k, p.2) := by
        obtain ⟨a, b⟩ := p
        simp at hpk
        simp [hpk]
      rw [← this]
      exact hpm.1
    exact getA_of_nodup_mem hnd this
  · rintro ⟨e, hge, hfp⟩
    exact fileIds_of_getA hge hfp

/-- C4 (amended): evicting a file and re-extracting plus re-walking it with
unchanged content restores the symbol index exactly and the graph up to set
iteration order, provided no symbol outside the file references a symbol of
the file.  (Without that proviso such incoming edges are removed by the
eviction and the single-file rewalk — whose edges all originate in the file —
cannot restore them; see the counterexample.) -/
theorem c4_rewalk_identity (fp : String) (idx : SymbolIndex) (g : DependencyGraph)
    (sf : ParsedSourceFile)
    (hIdxNd : (idx.map Prod.fst).Nodup)
    (hKeyed : ∀ p ∈ idx, (p.2 : SymbolEntry).id = p.1)
    (hG : GraphInv g)
    (hSymNd : (sf.syms.map SymbolEntry.id).Nodup)
    (hSymsOk : ∀ e ∈ sf.syms, e.filePath = fp ∧ getA idx e.id = some e)
    (hSymsAll : ∀ p ∈ idx, (p.2 : SymbolEntry).filePath = fp → p.2 ∈ sf.syms)
    (hEdgesOk : ∀ e ∈ sf.edges, memAdj g.forward e.1 e.2 ∧
        e.1 ∈ (idx.filter (fun p => p.2.filePath = fp)).map Prod.fst)
    (hEdgesAll : ∀ p ∈ g.forward, ∀ b ∈ (p.2 : List String),
        p.1 ∈ (idx.filter (fun p => p.2.filePath = fp)).map Prod.fst →
        (p.1, b) ∈ sf.edges)
    (hNoIncoming : ∀ p ∈ g.forward, ∀ b ∈ (p.2 : List String),
        b ∈ (idx.filter (fun p => p.2.filePath = fp)).map Prod.fst →
        p.1 ∈ (idx.filter (fun p => p.2.filePath = fp)).map Prod.fst) :
    (∀ k, getA (reindexSourceFile sf (removeFileFromGraph fp idx g).1) k = getA idx k) ∧
    (∀ k, (getA (walkSourceFile sf (removeFileFromGraph fp idx g).2).forward k).isSome = true ↔
        (getA g.forward k).isSome = true) ∧
    (∀ x y, memAdj (walkSourceFile sf (removeFileFromGraph fp idx g).2).forward x y ↔
        memAdj g.forward x y) ∧
    (∀ k, (getA (walkSourceFile sf (removeFileFromGraph fp idx g).2).reverse k).isSome = true ↔
        (getA g.reverse k).isSome = true) ∧
    (∀ x y, memAdj (walkSourceFile sf (removeFileFromGraph fp idx g).2).reverse x y ↔
        memAdj g.reverse x y) := by
  obtain ⟨hidxspec, hfwdspec, hrevspec, _⟩ := removeFileFromGraph_spec fp idx g hG
  have hM : Mirror g := hG.2.1
  have hEf : ∀ k l, getA g.forward k = some l → l ≠ [] := hG.2.2.2.1
  have hEr : ∀ k l, getA g.reverse k = some l → l ≠ [] := hG.2.2.2.2
  have hevfwd : ∀ x y, memAdj (removeFileFromGraph fp idx g).2.forward x y ↔
      (x ∉ (idx.filter (fun p => p.2.filePath = fp)).map Prod.fst ∧
       memAdj g.forward x y ∧
       y ∉ (idx.filter (fun p => p.2.filePath = fp)).map Prod.fst) := by
    intro x y
    unfold memAdj
    rw [hfwdspec x]
    by_cases hm : x ∈ (idx.filter (fun p => p.2.filePath = fp)).map Prod.fst
    · rw [if_pos hm]
      simp [hm]
    · rw [if_neg hm, mem_eraseAllOpt_getD]
      tauto
  have hevrev : ∀ x y, memAdj (removeFileFromGraph fp idx g).2.reverse x y ↔
      (x ∉ (idx.filter (fun p => p.2.filePath = fp)).map Prod.fst ∧
       memAdj g.reverse x y ∧
       y ∉ (idx.filter (fun p => p.2.filePath = fp)).map Prod.fst) := by
    intro x y
    unfold memAdj
    rw [hrevspec x]
    by_cases hm : x ∈ (idx.filter (fun p => p.2.filePath = fp)).map Prod.fst
    · rw [if_pos hm]
      simp [hm]
    · rw [if_neg hm, mem_eraseAllOpt_getD]
      tauto
  refine ⟨?_, ?_, ?_, ?_, ?_⟩
  · intro k
    unfold reindexSourceFile
    rw [reindex_getA sf.syms hSymNd]
    cases hl : getA (sf.syms.map (fun e => (e.id, e))) k with
    | some e =>
      obtain ⟨hid, hmem⟩ := getA_symPairs hl
      have h2 := (hSymsOk e hmem).2
      rw [hid] at h2
      exact h2.symm
    | none =>
      rw [hidxspec k]
      by_cases hmem : k ∈ (idx.filter (fun p => p.2.filePath = fp)).map Prod.fst
      · exfalso
        obtain ⟨e, hge, hfpe⟩ := (fileIds_mem_iff hIdxNd).mp hmem
        have hsy : e ∈ sf.syms := hSymsAll (k, e) (getA_mem idx hge) hfpe
        have hid : e.id = k := hKeyed (k, e) (getA_mem idx hge)
        rw [getA_eq_none_iff] at hl
        apply hl
        rw [← hid]
        exact List.mem_map_of_mem Prod.fst (List.mem_map_of_mem (fun e => (e.id, e)) hsy)
      · rw [if_neg hmem]
  · intro k
    unfold walkSourceFile
    rw [addEdges_isSome_forward]
    constructor
    · rintro (h | ⟨b, hb⟩)
      · rw [hfwdspec k] at h
        by_cases hm : k ∈ (idx.filter (fun p => p.2.filePath = fp)).map Prod.fst
        · rw [if_pos hm] at h; simp at h
        · rw [if_neg hm] at h
          cases ho : getA g.forward k with
          | none => rw [ho] at h; simp [eraseAllOpt] at h
          | some l => simp
      · have hmem := (hEdgesOk (k, b) hb).1
        rcases (memAdj_iff _ _ _).mp hmem with ⟨l, hl, _⟩
        simp [hl]
    · intro h
      cases ho : getA g.forward k with
      | none => rw [ho] at h; simp at h
      | some l =>
        have hlne : l ≠ [] := hEf k l ho
        by_cases hm : k ∈ (idx.filter (fun p => p.2.filePath = fp)).map Prod.fst
        · right
          obtain ⟨b, hb⟩ := List.exists_mem_of_ne_nil l hlne
          exact ⟨b, hEdgesAll (k, l) (getA_mem _ ho) b hb hm⟩
        · left
          rw [hfwdspec k, if_neg hm, ho]
          have hfilter : l.filter
              (fun y => y ∉ (idx.filter (fun p => p.2.filePath = fp)).map Prod.fst) = l := by
            apply List.filter_eq_self.mpr
            intro y hy
            simp only [decide_eq_true_eq]
            intro hyin
            exact hm (hNoIncoming (k, l) (getA_mem _ ho) y hy hyin)
          simp only [eraseAllOpt]
          rw [hfilter]
          simp [hlne]
  · intro x y
    unfold walkSourceFile
    rw [addEdges_memAdj_forward, hevfwd]
    constructor
    · rintro (⟨_, h2, _⟩ | h)
      · exact h2
      · exact (hEdgesOk (x, y) h).1
    · intro h
      rcases (memAdj_iff _ _ _).mp h with ⟨l, hl, hy⟩
      by_cases hm : x ∈ (idx.filter (fun p => p.2.filePath = fp)).map Prod.fst
      · exact Or.inr (hEdgesAll (x, l) (getA_mem _ hl) y hy hm)
      · left
        refine ⟨hm, h, ?_⟩
        intro hyin
        exact hm (hNoIncoming (x, l) (getA_mem _ hl) y hy hyin)
  · intro k
    unfold walkSourceFile
    rw [addEdges_isSome_reverse]
    constructor
    · rintro (h | ⟨a, ha⟩)
      · rw [hrevspec k] at h
        by_cases hm : k ∈ (idx.filter (fun p => p.2.filePath = fp)).map Prod.fst
        · rw [if_pos hm] at h; simp at h
        · rw [if_neg hm] at h
          cases ho : getA g.reverse k with
          | none => rw [ho] at h; simp [eraseAllOpt] at h
          | some l => simp
      · have hmem := (hEdgesOk (a, k) ha).1
        have hrev : memAdj g.reverse k a := (hM a k).mp hmem
        rcases (memAdj_iff _ _ _).mp hrev with ⟨l, hl, _⟩
        simp [hl]
    · intro h
      cases ho : getA g.reverse k with
      | none => rw [ho] at h; simp at h
      | some l =>
        have hlne : l ≠ [] := hEr k l ho
        obtain ⟨a, ha⟩ := List.exists_mem_of_ne_nil l hlne
        have hra : memAdj g.reverse k a := by
          unfold memAdj; rw [ho]; simpa using ha
        have hfa : memAdj g.forward a k := (hM a k).mpr hra
        rcases (memAdj_iff _ _ _).mp hfa with ⟨la, hla, hkla⟩
        by_cases hkm : k ∈ (idx.filter (fun p => p.2.filePath = fp)).map Prod.fst
        · have ham : a ∈ (idx.filter (fun p => p.2.filePath = fp)).map Prod.fst :=
            hNoIncoming (a, la) (getA_mem _ hla) k hkla hkm
          exact Or.inr ⟨a, hEdgesAll (a, la) (getA_mem _ hla) k hkla ham⟩
        · by_cases ham : a ∈ (idx.filter (fun p => p.2.filePath = fp)).map Prod.fst
          · exact Or.inr ⟨a, hEdgesAll (a, la) (getA_mem _ hla) k hkla ham⟩
          · left
            rw [hrevspec k, if_neg hkm, ho]
            have hane : l.filter
                (fun y => y ∉ (idx.filter (fun p => p.2.filePath = fp)).map Prod.fst) ≠ [] := by
              intro hnil
              have : a ∈ l.filter
                  (fun y => y ∉ (idx.filter (fun p => p.2.filePath = fp)).map Prod.fst) := by
                apply List.mem_filter.mpr
                exact ⟨ha, by simpa using ham⟩
              rw [hnil] at this
              simp at this
            simp only [eraseAllOpt]
            rw [if_neg hane]
            simp
  · intro x y
    unfold walkSourceFile
    rw [addEdges_memAdj_reverse, hevrev]
    constructor
    · rintro (⟨_, h2, _⟩ | h)
      · exact h2
      · exact (hM y x).mp (hEdgesOk (y, x) h).1
    · intro h
      have hf : memAdj g.forward y x := (hM y x).mpr h
      rcases (memAdj_iff _ _ _).mp hf with ⟨l, hl, hx⟩
      by_cases hym : y ∈ (idx.filter (fun p => p.2.filePath = fp)).map Prod.fst
      · exact Or.inr (hEdgesAll (y, l) (getA_mem _ hl) x hx hym)
      · left
        refine ⟨?_, h, hym⟩
        intro hxm
        exact hym (hNoIncoming (y, l) (getA_mem _ hl) x hx hxm)
  
end RippleCheck

namespace RippleCheck

/-- C4 counterexample: index holds `g.ts#O` and `f.ts#S`, the graph has the
single edge `g.ts#O → f.ts#S`, and the unchanged content of `f.ts` consists
of exactly its one current symbol and its zero outgoing edges (the conjuncts
below verify those premises of the claim).  Evicting `f.ts` and re-walking it
leaves a graph in which the external incoming edge, and with it the whole
`g.ts#O` binding, is gone — the rewalked graph is not identical to the
original. -/
theorem c4_rewalk_counterexample :
    (∀ e ∈ ([sampleEntry "f.ts#S" "f.ts"] : List SymbolEntry),
        e.filePath = "f.ts" ∧
        getA [("g.ts#O", sampleEntry "g.ts#O" "g.ts"),
              ("f.ts#S", sampleEntry "f.ts#S" "f.ts")] e.id = some e) ∧
    (∀ p ∈ ([("g.ts#O", sampleEntry "g.ts#O" "g.ts"),
             ("f.ts#S", sampleEntry "f.ts#S" "f.ts")] : SymbolIndex),
        p.2.filePath = "f.ts" → p.2 ∈ ([sampleEntry "f.ts#S" "f.ts"] : List SymbolEntry)) ∧
    (∀ p ∈ ({ forward := [("g.ts#O", ["f.ts#S"])],
              reverse := [("f.ts#S", ["g.ts#O"])] } : DependencyGraph).forward,
        ∀ b ∈ (p.2 : List String),
        p.1 ∈ (([("g.ts#O", sampleEntry "g.ts#O" "g.ts"),
                 ("f.ts#S", sampleEntry "f.ts#S" "f.ts")] : SymbolIndex).filter
                  (fun p => p.2.filePath = "f.ts")).map Prod.fst →
        (p.1, b) ∈ ([] : List (String × String))) ∧
    getA ({ forward := [("g.ts#O", ["f.ts#S"])],
            reverse := [("f.ts#S", ["g.ts#O"])] } : DependencyGraph).forward "g.ts#O" =
      some ["f.ts#S"] ∧
    getA (walkSourceFile { syms := [sampleEntry "f.ts#S" "f.ts"], edges := [] }
        (removeFileFromGraph "f.ts"
          [("g.ts#O", sampleEntry "g.ts#O" "g.ts"), ("f.ts#S", sampleEntry "f.ts#S" "f.ts")]
          { forward := [("g.ts#O", ["f.ts#S"])],
            reverse := [("f.ts#S", ["g.ts#O"])] }).2).forward "g.ts#O" = none := by
  refine ⟨by decide, by decide, by decide, by decide, by decide⟩

/-- Witness for the amended C4 at a file whose symbols are only referenced
from inside the file itself. -/
theorem c4_rewalk_identity_witness :
    getA (reindexSourceFile
        { syms := [sampleEntry "f.ts#S1" "f.ts", sampleEntry "f.ts#S2" "f.ts"],
          edges := [("f.ts#S1", "f.ts#S2")] }
        (removeFileFromGraph "f.ts"
          [("f.ts#S1", sampleEntry "f.ts#S1" "f.ts"),
           ("f.ts#S2", sampleEntry "f.ts#S2" "f.ts"),
           ("g.ts#A", sampleEntry "g.ts#A" "g.ts"),
           ("g.ts#B", sampleEntry "g.ts#B" "g.ts")]
          { forward := [("f.ts#S1", ["f.ts#S2"]), ("g.ts#A", ["g.ts#B"])],
            reverse := [("f.ts#S2", ["f.ts#S1"]), ("g.ts#B", ["g.ts#A"])] }).1) "f.ts#S1" =
      getA [("f.ts#S1", sampleEntry "f.ts#S1" "f.ts"),
            ("f.ts#S2", sampleEntry "f.ts#S2" "f.ts"),
            ("g.ts#A", sampleEntry "g.ts#A" "g.ts"),
            ("g.ts#B", sampleEntry "g.ts#B" "g.ts")] "f.ts#S1" ∧
    (memAdj (walkSourceFile
        { syms := [sampleEntry "f.ts#S1" "f.ts", sampleEntry "f.ts#S2" "f.ts"],
          edges := [("f.ts#S1", "f.ts#S2")] }
        (removeFileFromGraph "f.ts"
          [("f.ts#S1", sampleEntry "f.ts#S1" "f.ts"),
           ("f.ts#S2", sampleEntry "f.ts#S2" "f.ts"),
           ("g.ts#A", sampleEntry "g.ts#A" "g.ts"),
           ("g.ts#B", sampleEntry "g.ts#B" "g.ts")]
          { forward := [("f.ts#S1", ["f.ts#S2"]), ("g.ts#A", ["g.ts#B"])],
            reverse := [("f.ts#S2", ["f.ts#S1"]), ("g.ts#B", ["g.ts#A"])] }).2).forward
        "f.ts#S1" "f.ts#S2" ↔
      memAdj ({ forward := [("f.ts#S1", ["f.ts#S2"]), ("g.ts#A", ["g.ts#B"])],
                reverse := [("f.ts#S2", ["f.ts#S1"]), ("g.ts#B", ["g.ts#A"])] } :
          DependencyGraph).forward "f.ts#S1" "f.ts#S2") := by
  have h := c4_rewalk_identity "f.ts"
    [("f.ts#S1", sampleEntry "f.ts#S1" "f.ts"),
     ("f.ts#S2", sampleEntry "f.ts#S2" "f.ts"),
     ("g.ts#A", sampleEntry "g.ts#A" "g.ts"),
     ("g.ts#B", sampleEntry "g.ts#B" "g.ts")]
    { forward := [("f.ts#S1", ["f.ts#S2"]), ("g.ts#A", ["g.ts#B"])],
      reverse := [("f.ts#S2", ["f.ts#S1"]), ("g.ts#B", ["g.ts#A"])] }
    { syms := [sampleEntry "f.ts#S1" "f.ts", sampleEntry "f.ts#S2" "f.ts"],
      edges := [("f.ts#S1", "f.ts#S2")] }
    (by decide) (by decide)
    (graphInv_of_checks _ (by decide) (by decide) (by decide) (by decide)
      (by decide) (by decide) (by decide))
    (by decide) (by decide) (by decide) (by decide) (by decide) (by decide)
  exact ⟨h.1 "f.ts#S1", h.2.2.1 "f.ts#S1" "f.ts#S2"⟩

end RippleCheck

/-!
Blast-radius engine — embedding of `traverseImpact`, `bfsUnlimited` and
`buildPaths` from `blastRadiusEngine` (`src/unnamed/part_011`).
-/

namespace RippleCheck

/-- Embedding of `PropagationMode`. -/
inductive PropagationMode where
  | shallow
  | deep
deriving DecidableEq

/-- Embedding of `RootReason`. -/
inductive RootReason where
  | bodyChange
  | signatureRipple
  | deleted
  | renamed
deriving DecidableEq

/-- Embedding of `REASON_PRIORITY`. -/
def REASON_PRIORITY : RootReason → Nat
  | RootReason.deleted => 3
  | RootReason.signatureRipple => 2
  | RootReason.renamed => 1
  | RootReason.bodyChange => 0

/-- Embedding of `ImpactRoot`. -/
structure ImpactRoot where
  symbolId : String
  propagationMode : PropagationMode
  reason : RootReason
deriving DecidableEq

/-- Embedding of `BlastRadiusResult` (the optional staged graph is `none`
when produced by `traverseImpact`). -/
structure BlastRadiusResult where
  roots : List ImpactRoot
  directImpact : List String
  indirectImpact : List String
  depthMap : List (String × Nat)
  paths : List (String × List (List String))
  stagedGraph : Option DependencyGraph
deriving DecidableEq

/-- State of one `bfsUnlimited` call: the per-traversal visited map
(`localDepth`), the per-root parent map, the shared global depth map and the
FIFO queue. -/
structure BfsState where
  localDepth : List (String × Nat)
  perRootParent : List (String × Option String)
  globalDepthMap : List (String × Nat)
  queue : List (String × Nat)

/-- The conditional global-minimum update
`if ((globalDepthMap.get(k) ?? Infinity) > d) globalDepthMap.set(k, d)`. -/
def globalUpdate (g : List (String × Nat)) (k : String) (d : Nat) : List (String × Nat) :=
  match getA g k with
  | none => setA g k d
  | some d0 => if d0 > d then setA g k d else g

/-- Inner for-loop of `bfsUnlimited`: discover the unvisited dependents of
the dequeued node at depth `depth`. -/
def bfsStep (graph : DependencyGraph) (id : String) (depth : Nat) (st : BfsState) : BfsState :=
  match getA graph.reverse id with
  | none => st
  | some dependents =>
      dependents.foldl
        (fun st depId =>
          if (getA st.localDepth depId).isSome then st
          else
            { localDepth := setA st.localDepth depId (depth + 1),
              perRootParent := setA st.perRootParent depId (some id),
              globalDepthMap := globalUpdate st.globalDepthMap depId (depth + 1),
              queue := st.queue ++ [(depId, depth + 1)] })
        st

/-- The while-loop of `bfsUnlimited`, made total with fuel: dequeue, skip a
node whose recorded local depth beats the queued depth
(`(localDepth.get(id) ?? Infinity) < depth`), otherwise expand it. -/
def bfsLoop (graph : DependencyGraph) : Nat → BfsState → BfsState
  | 0, st => st
  | fuel + 1, st =>
      match st.queue with
      | [] => st
      | (id, depth) :: rest =>
          let st1 : BfsState :=
            { localDepth := st.localDepth, perRootParent := st.perRootParent,
              globalDepthMap := st.globalDepthMap, queue := rest }
          let skip : Bool :=
            match getA st.localDepth id with
            | some d => decide (d < depth)
            | none => false
          if skip then bfsLoop graph fuel st1
          else bfsLoop graph fuel (bfsStep graph id depth st1)

/-- Fuel bound for `bfsLoop`: one dequeue per enqueue, and every enqueue
beyond the root discovers a distinct id occurring in some reverse set. -/
def bfsFuel (graph : DependencyGraph) : Nat :=
  2 + (graph.reverse.map (fun p => p.2.length)).sum

/-- Embedding of `bfsUnlimited`: seed the root at depth 0 (also updating the
shared global map) and run the loop to exhaustion. -/
def bfsUnlimited (rootId : String) (graph : DependencyGraph)
    (globalDepthMap : List (String × Nat)) : BfsState :=
  bfsLoop graph (bfsFuel graph)
    { localDepth := setA [] rootId 0,
      perRootParent := setA [] rootId none,
      globalDepthMap := globalUpdate globalDepthMap rootId 0,
      queue := [(rootId, 0)] }

/-- Embedding of the parent-link walk in `buildPaths`:
`while (cur !== null && cur !== undefined) { path.unshift(cur); cur = parentMap.get(cur) ?? null }`. -/
def walkParent (parentMap : List (String × Option String)) :
    Nat → Option String → List String → List String
  | 0, _, path => path
  | fuel + 1, cur, path =>
      match cur with
      | none => path
      | some c => walkParent parentMap fuel (Option.join (getA parentMap c)) (c :: path)

/-- Embedding of `buildPaths`: for every impacted id, one reconstructed path
per deep root whose parent map contains it, plus the two-element shallow path
when a shallow parent exists. -/
def buildPaths (depthMap : List (String × Nat))
    (perRootParentMaps : List (String × List (String × Option String)))
    (shallowParentMap : List (String × String)) :
    List (String × List (List String)) :=
  depthMap.foldl
    (fun paths p =>
      let id := p.1
      let deepPaths := perRootParentMaps.foldl
        (fun acc q =>
          if (getA q.2 id).isSome then
            acc ++ [walkParent q.2 (q.2.length + 1) (Option.join (getA q.2 id)) [id]]
          else acc)
        ([] : List (List String))
      let allPaths :=
        match getA shallowParentMap id with
        | some shallowParent => deepPaths ++ [[shallowParent, id]]
        | none => deepPaths
      if allPaths = [] then paths else setA paths id allPaths)
    ([] : List (String × List (List String)))

/-- Embedding of `traverseImpact`: per-root deep BFS sharing a minimum global
depth map, one-hop shallow expansion with the deep-wins guard, unified depth
map excluding roots, depth-1 / depth-ge-2 classification, and path
reconstruction. -/
def traverseImpact (roots : List ImpactRoot) (graph : DependencyGraph) : BlastRadiusResult :=
  let rootSet := roots.map (fun r => r.symbolId)
  let deepRoots := roots.filter (fun r => r.propagationMode = PropagationMode.deep)
  let shallowRoots := roots.filter (fun r => r.propagationMode = PropagationMode.shallow)
  let pass1 := deepRoots.foldl
    (fun acc root =>
      let st := bfsUnlimited root.symbolId graph acc.1
      (st.globalDepthMap, setA acc.2 root.symbolId st.perRootParent))
    (([] : List (String × Nat)), ([] : List (String × List (String × Option String))))
  let deepDepthMap := pass1.1
  let perRootParentMaps := pass1.2
  let shallowParentMap := shallowRoots.foldl
    (fun sp root =>
      match getA graph.reverse root.symbolId with
      | none => sp
      | some dependents =>
          dependents.foldl
            (fun sp depId =>
              if depId ∈ rootSet then sp
              else if (getA deepDepthMap depId).isSome then sp
              else if (getA sp depId).isSome then sp
              else setA sp depId root.symbolId)
            sp)
    ([] : List (String × String))
  let depthMap1 := deepDepthMap.foldl
    (fun dm p => if p.1 ∈ rootSet then dm else setA dm p.1 p.2)
    ([] : List (String × Nat))
  let depthMap := shallowParentMap.foldl (fun dm p => setA dm p.1 1) depthMap1
  let classified := depthMap.foldl
    (fun acc p => if p.2 = 1 then (acc.1 ++ [p.1], acc.2) else (acc.1, acc.2 ++ [p.1]))
    (([] : List String), ([] : List String))
  { roots := roots,
    directImpact := classified.1,
    indirectImpact := classified.2,
    depthMap := depthMap,
    paths := buildPaths depthMap perRootParentMaps shallowParentMap,
    stagedGraph := none }

end RippleCheck

namespace RippleCheck

/-- The C3 scenario graph: forward edges `A→B`, `A→C`, `X→A`. -/
def c3Graph : DependencyGraph :=
  { forward := [("A", ["B", "C"]), ("X", ["A"])],
    reverse := [("B", ["A"]), ("C", ["A"]), ("A", ["X"])] }

/-- The C3 scenario roots: B deep (signature-ripple), C shallow (body-change). -/
def c3Roots : List ImpactRoot :=
  [{ symbolId := "B", propagationMode := PropagationMode.deep,
     reason := RootReason.signatureRipple },
   { symbolId := "C", propagationMode := PropagationMode.shallow,
     reason := RootReason.bodyChange }]

/-- C3 counterexample: in the claimed scenario, `paths["A"]` holds only the
deep path `[B, A]`.  The shallow pass skips `A` because it is already in the
deep depth map — so the claimed shallow path `[C, A]` is never recorded. -/
theorem c3_counterexample :
    getA (traverseImpact c3Roots c3Graph).paths "A" = some [["B", "A"]] ∧
    ∀ pl, getA (traverseImpact c3Roots c3Graph).paths "A" = some pl →
      ["C", "A"] ∉ pl := by
  refine ⟨by decide, ?_⟩
  intro pl hpl
  have h1 : pl = [["B", "A"]] := by
    have h0 : getA (traverseImpact c3Roots c3Graph).paths "A" = some [["B", "A"]] := by decide
    rw [h0] at hpl
    exact (Option.some.inj hpl).symm
  rw [h1]
  decide

/-- C3 (amended): graph `A→B`, `A→C`, `X→A`, with B a deep signature-ripple
root and C a shallow body-change root.  `traverseImpact` returns depth 1 for
A and depth 2 for X, classifies A direct and X indirect, and records
`paths[A] = [[B, A]]` only (the shallow root contributes no path for A
because A is already deep-reached) with `paths[X] = [[B, A, X]]`. -/
theorem c3_multi_root_deep_shallow :
    getA (traverseImpact c3Roots c3Graph).depthMap "A" = some 1 ∧
    getA (traverseImpact c3Roots c3Graph).depthMap "X" = some 2 ∧
    getA (traverseImpact c3Roots c3Graph).depthMap "B" = none ∧
    getA (traverseImpact c3Roots c3Graph).depthMap "C" = none ∧
    (traverseImpact c3Roots c3Graph).directImpact = ["A"] ∧
    (traverseImpact c3Roots c3Graph).indirectImpact = ["X"] ∧
    getA (traverseImpact c3Roots c3Graph).paths "A" = some [["B", "A"]] ∧
    getA (traverseImpact c3Roots c3Graph).paths "X" = some [["B", "A", "X"]] := by
  refine ⟨by decide, by decide, by decide, by decide, by decide, by decide, by decide, by decide⟩

end RippleCheck

/-!
Correctness of the deep BFS: `localDepth` computes exactly the shortest
reverse-edge distance from the root, `globalDepthMap` accumulates the
pointwise minimum across roots, and `perRootParent` stores a valid parent
chain.
-/

namespace RippleCheck

/-- Reverse-edge neighborhood used by the BFS. -/
def revAdj (graph : DependencyGraph) (x : String) : List String :=
  (getA graph.reverse x).getD []

/-- Reverse-edge reachability from `root` in exactly `d` steps. -/
inductive ReachRev (graph : DependencyGraph) (root : String) : String → Nat → Prop where
  | base : ReachRev graph root root 0
  | step {x y : String} {d : Nat} :
      ReachRev graph root x d → y ∈ revAdj graph x → ReachRev graph root y (d + 1)

/-- Shortest reverse-edge distance. -/
def IsMinDepth (graph : DependencyGraph) (root x : String) (d : Nat) : Prop :=
  ReachRev graph root x d ∧ ∀ d', ReachRev graph root x d' → d ≤ d'

/-- Pointwise minimum on optional depths (`none` plays Infinity). -/
def optMin (a b : Option Nat) : Option Nat :=
  match a, b with
  | none, b => b
  | some a, none => some a
  | some a, some b => some (min a b)

theorem globalUpdate_getA (g : List (String × Nat)) (k : String) (d : Nat) (k' : String) :
    getA (globalUpdate g k d) k' =
      if k' = k then optMin (getA g k) (some d) else getA g k' := by
  unfold globalUpdate
  cases hg : getA g k with
  | none =>
    rw [getA_setA]
    by_cases hk : k' = k
    · simp [hk, optMin]
    · simp [hk]
  | some d0 =>
    show getA (if d0 > d then setA g k d else g) k' = _
    by_cases hcmp : d0 > d
    · rw [if_pos hcmp, getA_setA]
      by_cases hk : k' = k
      · simp [hk, optMin, Nat.min_eq_right (Nat.le_of_lt hcmp)]
      · simp [hk]
    · rw [if_neg hcmp]
      by_cases hk : k' = k
      · have hle : d0 ≤ d := Nat.le_of_not_lt hcmp
        simp [hk, hg, optMin, Nat.min_eq_left hle]
      · simp [hk]

/-- Loop invariant of `bfsLoop` for one root. -/
structure BfsInv (graph : DependencyGraph) (root : String)
    (g0 : List (String × Nat)) (st : BfsState) : Prop where
  root_mem : getA st.localDepth root = some 0
  sound : ∀ x d, getA st.localDepth x = some d → ReachRev graph root x d
  queue_local : ∀ q ∈ st.queue, getA st.localDepth q.1 = some q.2
  queue_nodup : (st.queue.map Prod.fst).Nodup
  queue_mono : List.Pairwise (fun a b => a ≤ b) (st.queue.map Prod.snd)
  depth_bound : ∀ x dx, getA st.localDepth x = some dx →
      ∀ q ∈ st.queue, dx ≤ q.2 + 1
  closure : ∀ x dx, getA st.localDepth x = some dx →
      ((x, dx) ∈ st.queue ∨
        ∀ y ∈ revAdj graph x, ∃ dy, getA st.localDepth y = some dy ∧ dy ≤ dx + 1)
  parent_dom : ∀ x, (getA st.perRootParent x).isSome = (getA st.localDepth x).isSome
  parent_root : getA st.perRootParent root = some none
  parent_none : ∀ x, getA st.perRootParent x = some none → x = root
  parent_step : ∀ x p, getA st.perRootParent x = some (some p) →
      ∃ dp, getA st.localDepth p = some dp ∧ getA st.localDepth x = some (dp + 1) ∧
        x ∈ revAdj graph p
  global_rel : ∀ x, getA st.globalDepthMap x = optMin (getA g0 x) (getA st.localDepth x)
  local_nodup : (st.localDepth.map Prod.fst).Nodup
  parent_nodup : (st.perRootParent.map Prod.fst).Nodup

theorem bfsInv_init (graph : DependencyGraph) (root : String) (g0 : List (String × Nat)) :
    BfsInv graph root g0
      { localDepth := setA [] root 0,
        perRootParent := setA [] root none,
        globalDepthMap := globalUpdate g0 root 0,
        queue := [(root, 0)] } := by
  have hloc : ∀ x, getA (setA ([] : List (String × Nat)) root 0) x =
      if x = root then some 0 else none := by
    intro x; rw [getA_setA]; simp [getA]
  have hpar : ∀ x, getA (setA ([] : List (String × Option String)) root none) x =
      if x = root then some none else none := by
    intro x; rw [getA_setA]; simp [getA]
  refine ⟨?_, ?_, ?_, ?_, ?_, ?_, ?_, ?_, ?_, ?_, ?_, ?_, ?_, ?_⟩
  · rw [hloc]; simp
  · intro x d h
    rw [hloc] at h
    by_cases hx : x = root
    · rw [if_pos hx] at h
      have hd : d = 0 := (Option.some.inj h).symm
      rw [hx, hd]
      exact ReachRev.base
    · rw [if_neg hx] at h; exact absurd h (by simp)
  · intro q hq
    rcases List.mem_singleton.mp hq with h
    rw [h, hloc]
    simp
  · simp
  · simp
  · intro x dx h q hq
    rw [hloc] at h
    by_cases hx : x = root
    · rw [if_pos hx] at h
      have hd : dx = 0 := (Option.some.inj h).symm
      simp [hd]
    · rw [if_neg hx] at h; exact absurd h (by simp)
  · intro x dx h
    rw [hloc] at h
    by_cases hx : x = root
    · rw [if_pos hx] at h
      have hd : dx = 0 := (Option.some.inj h).symm
      left
      rw [hx, hd]
      simp
    · rw [if_neg hx] at h; exact absurd h (by simp)
  · intro x
    rw [hloc, hpar]
    by_cases hx : x = root <;> simp [hx]
  · rw [hpar]; simp
  · intro x h
    rw [hpar] at h
    by_cases hx : x = root
    · exact hx
    · rw [if_neg hx] at h; exact absurd h (by simp)
  · intro x p h
    rw [hpar] at h
    by_cases hx : x = root
    · rw [if_pos hx] at h
      exact absurd (Option.some.inj h) (by simp)
    · rw [if_neg hx] at h; exact absurd h (by simp)
  · intro x
    rw [globalUpdate_getA, hloc]
    by_cases hx : x = root
    · simp [hx]
    · simp [hx, optMin]
      cases getA g0 x <;> simp [optMin]
  · simp [setA]
  · simp [setA]

end RippleCheck

namespace RippleCheck

theorem bfsDiscover_spec (graphId : String) (depth : Nat) :
    ∀ (deps : List String), deps.Nodup → ∀ (st : BfsState),
      (∀ x, getA (deps.foldl
          (fun st depId =>
            if (getA st.localDepth depId).isSome then st
            else
              { localDepth := setA st.localDepth depId (depth + 1),
                perRootParent := setA st.perRootParent depId (some graphId),
                globalDepthMap := globalUpdate st.globalDepthMap depId (depth + 1),
                queue := st.queue ++ [(depId, depth + 1)] })
          st).localDepth x =
          if x ∈ deps.filter (fun y => (getA st.localDepth y).isNone) then some (depth + 1)
          else getA st.localDepth x) ∧
      (∀ x, getA (deps.foldl
          (fun st depId =>
            if (getA st.localDepth depId).isSome then st
            else
              { localDepth := setA st.localDepth depId (depth + 1),
                perRootParent := setA st.perRootParent depId (some graphId),
                globalDepthMap := globalUpdate st.globalDepthMap depId (depth + 1),
                queue := st.queue ++ [(depId, depth + 1)] })
          st).perRootParent x =
          if x ∈ deps.filter (fun y => (getA st.localDepth y).isNone) then some (some graphId)
          else getA st.perRootParent x) ∧
      (∀ x, getA (deps.foldl
          (fun st depId =>
            if (getA st.localDepth depId).isSome then st
            else
              { localDepth := setA st.localDepth depId (depth + 1),
                perRootParent := setA st.perRootParent depId (some graphId),
                globalDepthMap := globalUpdate st.globalDepthMap depId (depth + 1),
                queue := st.queue ++ [(depId, depth + 1)] })
          st).globalDepthMap x =
          if x ∈ deps.filter (fun y => (getA st.localDepth y).isNone) then
            optMin (getA st.globalDepthMap x) (some (depth + 1))
          else getA st.globalDepthMap x) ∧
      ((deps.foldl
          (fun st depId =>
            if (getA st.localDepth depId).isSome then st
            else
              { localDepth := setA st.localDepth depId (depth + 1),
                perRootParent := setA st.perRootParent depId (some graphId),
                globalDepthMap := globalUpdate st.globalDepthMap depId (depth + 1),
                queue := st.queue ++ [(depId, depth + 1)] })
          st).queue =
          st.queue ++ (deps.filter (fun y => (getA st.localDepth y).isNone)).map
            (fun y => (y, depth + 1))) ∧
      ((st.localDepth.map Prod.fst).Nodup →
        ((deps.foldl
          (fun st depId =>
            if (getA st.localDepth depId).isSome then st
            else
              { localDepth := setA st.localDepth depId (depth + 1),
                perRootParent := setA st.perRootParent depId (some graphId),
                globalDepthMap := globalUpdate st.globalDepthMap depId (depth + 1),
                queue := st.queue ++ [(depId, depth + 1)] })
          st).localDepth.map Prod.fst).Nodup) ∧
      ((st.perRootParent.map Prod.fst).Nodup →
        ((deps.foldl
          (fun st depId =>
            if (getA st.localDepth depId).isSome then st
            else
              { localDepth := setA st.localDepth depId (depth + 1),
                perRootParent := setA st.perRootParent depId (some graphId),
                globalDepthMap := globalUpdate st.globalDepthMap depId (depth + 1),
                queue := st.queue ++ [(depId, depth + 1)] })
          st).perRootParent.map Prod.fst).Nodup) := by
  intro deps
  induction deps with
  | nil =>
    intro _ st
    refine ⟨fun x => by simp, fun x => by simp, fun x => by simp, by simp,
      fun h => h, fun h => h⟩
  | cons d ds ih =>
    intro hnd st
    have hndd : d ∉ ds := (List.nodup_cons.mp hnd).1
    have hnds : ds.Nodup := (List.nodup_cons.mp hnd).2
    rw [List.foldl_cons]
    by_cases hdisc : (getA st.localDepth d).isSome = true
    · have hstep : (if (getA st.localDepth d).isSome = true then st
          else
            { localDepth := setA st.localDepth d (depth + 1),
              perRootParent := setA st.perRootParent d (some graphId),
              globalDepthMap := globalUpdate st.globalDepthMap d (depth + 1),
              queue := st.queue ++ [(d, depth + 1)] }) = st := if_pos hdisc
      rw [hstep]
      have hfil : (d :: ds).filter (fun y => (getA st.localDepth y).isNone) =
          ds.filter (fun y => (getA st.localDepth y).isNone) := by
        rw [List.filter_cons]
        have hx : (getA st.localDepth d).isNone = false := by
          cases h : getA st.localDepth d
          · rw [h] at hdisc; simp at hdisc
          · simp
        simp [hx]
      rw [hfil]
      exact ih hnds st
    · have hnone : (getA st.localDepth d).isNone = true := by
        cases h : getA st.localDepth d
        · simp
        · rw [h] at hdisc; simp at hdisc
      have hstep : (if (getA st.localDepth d).isSome = true then st
          else
            { localDepth := setA st.localDepth d (depth + 1),
              perRootParent := setA st.perRootParent d (some graphId),
              globalDepthMap := globalUpdate st.globalDepthMap d (depth + 1),
              queue := st.queue ++ [(d, depth + 1)] }) =
          { localDepth := setA st.localDepth d (depth + 1),
            perRootParent := setA st.perRootParent d (some graphId),
            globalDepthMap := globalUpdate st.globalDepthMap d (depth + 1),
            queue := st.queue ++ [(d, depth + 1)] } := if_neg hdisc
      rw [hstep]
      set st1 : BfsState :=
        { localDepth := setA st.localDepth d (depth + 1),
          perRootParent := setA st.perRootParent d (some graphId),
          globalDepthMap := globalUpdate st.globalDepthMap d (depth + 1),
          queue := st.queue ++ [(d, depth + 1)] } with hst1
      have hloc1 : ∀ x, getA st1.localDepth x =
          if x = d then some (depth + 1) else getA st.localDepth x := by
        intro x; rw [hst1]; exact getA_setA _ _ _ _
      have hpar1 : ∀ x, getA st1.perRootParent x =
          if x = d then some (some graphId) else getA st.perRootParent x := by
        intro x; rw [hst1]; exact getA_setA _ _ _ _
      have hglo1 : ∀ x, getA st1.globalDepthMap x =
          if x = d then optMin (getA st.globalDepthMap d) (some (depth + 1))
          else getA st.globalDepthMap x := by
        intro x
        rw [hst1]
        show getA (globalUpdate st.globalDepthMap d (depth + 1)) x = _
        exact globalUpdate_getA _ _ _ _
      have hfil1 : ds.filter (fun y => (getA st1.localDepth y).isNone) =
          ds.filter (fun y => (getA st.localDepth y).isNone) := by
        apply List.filter_congr
        intro y hy
        have hyd : ¬ y = d := fun he => hndd (he ▸ hy)
        rw [hloc1 y, if_neg hyd]
      have hfilc : (d :: ds).filter (fun y => (getA st.localDepth y).isNone) =
          d :: ds.filter (fun y => (getA st.localDepth y).isNone) := by
        rw [List.filter_cons]
        simp [hnone]
      obtain ⟨ihl, ihp, ihg, ihq, ihn1, ihn2⟩ := ih hnds st1
      rw [hfil1] at ihl ihp ihg ihq
      refine ⟨?_, ?_, ?_, ?_, ?_, ?_⟩
      · intro x
        rw [ihl x, hfilc]
        by_cases hxf : x ∈ ds.filter (fun y => (getA st.localDepth y).isNone)
        · simp [hxf]
        · rw [if_neg hxf, hloc1 x]
          by_cases hxd : x = d
          · simp [hxd, hxf]
          · simp [hxd, hxf]
      · intro x
        rw [ihp x, hfilc]
        by_cases hxf : x ∈ ds.filter (fun y => (getA st.localDepth y).isNone)
        · simp [hxf]
        · rw [if_neg hxf, hpar1 x]
          by_cases hxd : x = d
          · simp [hxd, hxf]
          · simp [hxd, hxf]
      · intro x
        rw [ihg x, hfilc]
        by_cases hxf : x ∈ ds.filter (fun y => (getA st.localDepth y).isNone)
        · have hxd : ¬ x = d := by
            intro he
            exact hndd (he ▸ List.mem_of_mem_filter hxf)
          rw [if_pos hxf, hglo1 x, if_neg hxd]
          simp [hxf]
        · rw [if_neg hxf, hglo1 x]
          by_cases hxd : x = d
          · simp [hxd, hxf]
          · simp [hxd, hxf]
      · rw [ihq, hfilc, hst1]
        simp
      · intro hnodup
        apply ihn1
        rw [hst1]
        exact nodupKeys_setA _ _ _ hnodup
      · intro hnodup
        apply ihn2
        rw [hst1]
        exact nodupKeys_setA _ _ _ hnodup

end RippleCheck

namespace RippleCheck

theorem revAdj_nodup (graph : DependencyGraph) (hWF : GraphWF graph) (x : String) :
    (revAdj graph x).Nodup := by
  unfold revAdj
  cases hr : getA graph.reverse x with
  | none => simp
  | some deps =>
    simp only [Option.getD_some]
    exact hWF.2.2 (x, deps) (getA_mem _ hr)

theorem optMin_none_right (a : Option Nat) : optMin a none = a := by
  cases a <;> rfl

theorem pairwise_const_le (l : List String) (c : Nat) :
    List.Pairwise (fun a b => a ≤ b) (l.map (fun _ => c)) := by
  induction l with
  | nil => simp
  | cons x xs ih =>
    simp only [List.map_cons, List.pairwise_cons]
    refine ⟨?_, ih⟩
    intro b hb
    rcases List.mem_map.mp hb with ⟨_, _, hbe⟩
    rw [← hbe]

theorem bfsStep_spec (graph : DependencyGraph) (id : String) (depth : Nat) (st : BfsState)
    (hWF : GraphWF graph) :
    (∀ x, getA (bfsStep graph id depth st).localDepth x =
        if x ∈ (revAdj graph id).filter (fun y => (getA st.localDepth y).isNone)
        then some (depth + 1) else getA st.localDepth x) ∧
    (∀ x, getA (bfsStep graph id depth st).perRootParent x =
        if x ∈ (revAdj graph id).filter (fun y => (getA st.localDepth y).isNone)
        then some (some id) else getA st.perRootParent x) ∧
    (∀ x, getA (bfsStep graph id depth st).globalDepthMap x =
        if x ∈ (revAdj graph id).filter (fun y => (getA st.localDepth y).isNone)
        then optMin (getA st.globalDepthMap x) (some (depth + 1))
        else getA st.globalDepthMap x) ∧
    ((bfsStep graph id depth st).queue = st.queue ++
        ((revAdj graph id).filter (fun y => (getA st.localDepth y).isNone)).map
          (fun y => (y, depth + 1))) ∧
    ((st.localDepth.map Prod.fst).Nodup →
      ((bfsStep graph id depth st).localDepth.map Prod.fst).Nodup) ∧
    ((st.perRootParent.map Prod.fst).Nodup →
      ((bfsStep graph id depth st).perRootParent.map Prod.fst).Nodup) := by
  unfold bfsStep
  cases hr : getA graph.reverse id with
  | none =>
    have hadj : revAdj graph id = [] := by unfold revAdj; rw [hr]; rfl
    rw [hadj]
    refine ⟨fun x => by simp, fun x => by simp, fun x => by simp, by simp,
      fun h => h, fun h => h⟩
  | some deps =>
    have hadj : revAdj graph id = deps := by unfold revAdj; rw [hr]; rfl
    have hnd : deps.Nodup := hWF.2.2 (id, deps) (getA_mem _ hr)
    rw [hadj]
    have hspec := bfsDiscover_spec id depth deps hnd st
    obtain ⟨h1, h2, h3, h4, h5, h6⟩ := hspec
    have hglo : ∀ x, getA (deps.foldl
        (fun st depId =>
          if (getA st.localDepth depId).isSome then st
          else
            { localDepth := setA st.localDepth depId (depth + 1),
              perRootParent := setA st.perRootParent depId (some id),
              globalDepthMap := globalUpdate st.globalDepthMap depId (depth + 1),
              queue := st.queue ++ [(depId, depth + 1)] })
        st).globalDepthMap x =
        if x ∈ deps.filter (fun y => (getA st.localDepth y).isNone) then
          optMin (getA st.globalDepthMap x) (some (depth + 1))
        else getA st.globalDepthMap x := h3
    exact ⟨h1, h2, hglo, h4, h5, h6⟩

theorem bfsInv_process (graph : DependencyGraph) (root : String)
    (g0 : List (String × Nat)) (hWF : GraphWF graph)
    (L : List (String × Nat)) (P : List (String × Option String))
    (G : List (String × Nat)) (id : String) (depth : Nat) (rest : List (String × Nat))
    (hInv : BfsInv graph root g0
      { localDepth := L, perRootParent := P, globalDepthMap := G,
        queue := (id, depth) :: rest }) :
    BfsInv graph root g0 (bfsStep graph id depth
      { localDepth := L, perRootParent := P, globalDepthMap := G, queue := rest }) := by
  obtain ⟨hroot, hsound, hql, hqn, hqm, hdb, hcl, hpd, hpr, hpn, hps, hgr, hln, hpnodup⟩ := hInv
  have hlocid : getA L id = some depth := hql (id, depth) (List.mem_cons_self _ _)
  have hqn2 : (List.map Prod.fst ((id, depth) :: rest)).Nodup := hqn
  have hqm2 : List.Pairwise (fun a b => a ≤ b) (List.map Prod.snd ((id, depth) :: rest)) := hqm
  rw [List.map_cons] at hqn2 hqm2
  have hrestmono : ∀ q ∈ rest, depth ≤ q.2 := by
    intro q hq
    have h := List.pairwise_cons.mp hqm2
    exact h.1 q.2 (List.mem_map_of_mem Prod.snd hq)
  have hdb_at : ∀ x dx, getA L x = some dx → dx ≤ depth + 1 := by
    intro x dx h
    exact hdb x dx h (id, depth) (List.mem_cons_self _ _)
  obtain ⟨hsl, hsp, hsg, hsq, hsn1, hsn2⟩ :=
    bfsStep_spec graph id depth
      { localDepth := L, perRootParent := P, globalDepthMap := G, queue := rest } hWF
  set news := (revAdj graph id).filter (fun y => (getA L y).isNone) with hnews
  have hnews_iff : ∀ y, y ∈ news ↔ (y ∈ revAdj graph id ∧ getA L y = none) := by
    intro y
    rw [hnews, List.mem_filter]
    constructor
    · rintro ⟨ha, hb⟩
      exact ⟨ha, by cases h : getA L y with
        | none => rfl
        | some d => rw [h] at hb; simp at hb⟩
    · rintro ⟨ha, hb⟩
      exact ⟨ha, by rw [hb]; rfl⟩
  have hnot_news : ∀ y d, getA L y = some d → y ∉ news := by
    intro y d h hy
    rw [hnews_iff y] at hy
    rw [h] at hy
    exact absurd hy.2 (by simp)
  have hid_not : id ∉ news := hnot_news id depth hlocid
  have hroot_not : root ∉ news := hnot_news root 0 hroot
  have hrest_keys : ∀ q ∈ rest, q.1 ∉ news := by
    intro q hq
    exact hnot_news q.1 q.2 (hql q (List.mem_cons_of_mem _ hq))
  refine ⟨?_, ?_, ?_, ?_, ?_, ?_, ?_, ?_, ?_, ?_, ?_, ?_, ?_, ?_⟩
  · rw [hsl root, if_neg hroot_not]
    exact hroot
  · intro x d h
    rw [hsl x] at h
    by_cases hx : x ∈ news
    · rw [if_pos hx] at h
      have hd : d = depth + 1 := (Option.some.inj h).symm
      rw [hd]
      exact ReachRev.step (hsound id depth hlocid) ((hnews_iff x).mp hx).1
    · rw [if_neg hx] at h
      exact hsound x d h
  · intro q hq
    rw [hsq] at hq
    rcases List.mem_append.mp hq with hq | hq
    · rw [hsl q.1, if_neg (hrest_keys q hq)]
      exact hql q (List.mem_cons_of_mem _ hq)
    · rcases List.mem_map.mp hq with ⟨y, hy, hye⟩
      rw [← hye]
      rw [hsl y, if_pos hy]
  · rw [hsq]
    rw [List.map_append, List.map_map]
    have hrn : (rest.map Prod.fst).Nodup := (List.nodup_cons.mp hqn2).2
    have hnn : news.Nodup := List.Nodup.filter _ (revAdj_nodup graph hWF id)
    have h1 : (Prod.fst ∘ fun y : String => (y, depth + 1)) = fun y => y := rfl
    have hmap : (news.map (Prod.fst ∘ fun y => (y, depth + 1))) = news := by
      rw [h1]
      exact List.map_id' news
    rw [hmap]
    apply List.Nodup.append hrn hnn
    intro a ha hb
    rcases List.mem_map.mp ha with ⟨q, hq, hqa⟩
    exact hrest_keys q hq (hqa ▸ hb)
  · rw [hsq, List.map_append, List.map_map]
    rw [List.pairwise_append]
    refine ⟨(List.pairwise_cons.mp hqm2).2, ?_, ?_⟩
    · have : (Prod.snd ∘ fun y => (y, depth + 1)) = fun (_ : String) => depth + 1 := rfl
      rw [this]
      exact pairwise_const_le news (depth + 1)
    · intro a ha b hb
      rcases List.mem_map.mp ha with ⟨q, hq, hqa⟩
      rcases List.mem_map.mp hb with ⟨y, hy, hyb⟩
      have h1 : a = q.2 := hqa.symm
      have h2 : b = depth + 1 := hyb.symm
      rw [h1, h2]
      have hqv := hql q (List.mem_cons_of_mem _ hq)
      exact hdb q.1 q.2 hqv (id, depth) (List.mem_cons_self _ _)
  · intro x dx h q hq
    rw [hsl x] at h
    rw [hsq] at hq
    rcases List.mem_append.mp hq with hq | hq
    · by_cases hx : x ∈ news
      · rw [if_pos hx] at h
        have hd : dx = depth + 1 := (Option.some.inj h).symm
        rw [hd]
        have := hrestmono q hq
        omega
      · rw [if_neg hx] at h
        exact hdb x dx h q (List.mem_cons_of_mem _ hq)
    · rcases List.mem_map.mp hq with ⟨y, hy, hye⟩
      have hq2 : q.2 = depth + 1 := by rw [← hye]
      rw [hq2]
      by_cases hx : x ∈ news
      · rw [if_pos hx] at h
        have hd : dx = depth + 1 := (Option.some.inj h).symm
        omega
      · rw [if_neg hx] at h
        have := hdb_at x dx h
        omega
  · intro x dx h
    rw [hsl x] at h
    by_cases hx : x ∈ news
    · rw [if_pos hx] at h
      left
      rw [hsq]
      apply List.mem_append.mpr
      right
      have hd : dx = depth + 1 := (Option.some.inj h).symm
      rw [hd]
      exact List.mem_map_of_mem _ hx
    · rw [if_neg hx] at h
      by_cases hxid : x = id
      · right
        intro y hy
        subst hxid
        have hdx : dx = depth := by
          rw [hlocid] at h
          exact (Option.some.inj h).symm
        by_cases hyn : y ∈ news
        · refine ⟨depth + 1, ?_, ?_⟩
          · rw [hsl y, if_pos hyn]
          · omega
        · have hysome : (getA L y).isSome = true := by
            cases hc : getA L y with
            | none => exact absurd ((hnews_iff y).mpr ⟨hy, hc⟩) hyn
            | some d => simp
          rcases Option.isSome_iff_exists.mp hysome with ⟨dy, hdy⟩
          refine ⟨dy, ?_, ?_⟩
          · rw [hsl y, if_neg hyn]
            exact hdy
          · have := hdb_at y dy hdy
            omega
      · rcases hcl x dx h with hin | hright
        · rcases List.mem_cons.mp hin with hin | hin
          · exact absurd (congrArg Prod.fst hin) hxid
          · left
            rw [hsq]
            exact List.mem_append.mpr (Or.inl hin)
        · right
          intro y hy
          rcases hright y hy with ⟨dy, hdy, hdyle⟩
          refine ⟨dy, ?_, hdyle⟩
          rw [hsl y, if_neg (hnot_news y dy hdy)]
          exact hdy
  · intro x
    rw [hsl x, hsp x]
    by_cases hx : x ∈ news
    · rw [if_pos hx, if_pos hx]
      rfl
    · rw [if_neg hx, if_neg hx]
      exact hpd x
  · rw [hsp root, if_neg hroot_not]
    exact hpr
  · intro x h
    rw [hsp x] at h
    by_cases hx : x ∈ news
    · rw [if_pos hx] at h
      exact absurd (Option.some.inj h) (by simp)
    · rw [if_neg hx] at h
      exact hpn x h
  · intro x p h
    rw [hsp x] at h
    by_cases hx : x ∈ news
    · rw [if_pos hx] at h
      have hp : p = id := by
        have := Option.some.inj h
        exact (Option.some.inj this).symm
      refine ⟨depth, ?_, ?_, ?_⟩
      · rw [hp, hsl id, if_neg hid_not]
        exact hlocid
      · rw [hsl x, if_pos hx]
      · rw [hp]
        exact ((hnews_iff x).mp hx).1
    · rw [if_neg hx] at h
      rcases hps x p h with ⟨dp, h1, h2, h3⟩
      refine ⟨dp, ?_, ?_, h3⟩
      · rw [hsl p, if_neg (hnot_news p dp h1)]
        exact h1
      · rw [hsl x, if_neg hx]
        exact h2
  · intro x
    rw [hsg x, hsl x]
    by_cases hx : x ∈ news
    · rw [if_pos hx, if_pos hx]
      have hlx : getA L x = none := ((hnews_iff x).mp hx).2
      have := hgr x
      rw [hlx, optMin_none_right] at this
      rw [this]
    · rw [if_neg hx, if_neg hx]
      exact hgr x
  · exact hsn1 hln
  · exact hsn2 hpnodup

end RippleCheck

namespace RippleCheck

theorem bfsLoop_reduce (graph : DependencyGraph) (n : Nat)
    (L : List (String × Nat)) (P : List (String × Option String))
    (G : List (String × Nat)) (id : String) (depth : Nat) (rest : List (String × Nat))
    (hlocid : getA L id = some depth) :
    bfsLoop graph (n + 1)
      { localDepth := L, perRootParent := P, globalDepthMap := G,
        queue := (id, depth) :: rest } =
      bfsLoop graph n (bfsStep graph id depth
        { localDepth := L, perRootParent := P, globalDepthMap := G, queue := rest }) := by
  simp only [bfsLoop]
  rw [hlocid]
  simp

theorem bfsLoop_inv (graph : DependencyGraph) (root : String)
    (g0 : List (String × Nat)) (hWF : GraphWF graph) :
    ∀ fuel st, BfsInv graph root g0 st → BfsInv graph root g0 (bfsLoop graph fuel st) := by
  intro fuel
  induction fuel with
  | zero => intro st h; exact h
  | succ n ih =>
    intro st h
    obtain ⟨L, P, G, Q⟩ := st
    cases Q with
    | nil => exact h
    | cons hd rest =>
      obtain ⟨id, depth⟩ := hd
      have hlocid : getA L id = some depth :=
        h.queue_local (id, depth) (List.mem_cons_self _ _)
      rw [bfsLoop_reduce graph n L P G id depth rest hlocid]
      exact ih _ (bfsInv_process graph root g0 hWF L P G id depth rest h)

/-- All ids occurring inside reverse sets; every non-root discovery is one. -/
def targetsList (graph : DependencyGraph) : List String :=
  (graph.reverse.map (fun p => p.2)).join

/-- Number of potential discoveries still missing from the visited map. -/
def undiscoveredCount (graph : DependencyGraph) (ld : List (String × Nat)) : Nat :=
  ((targetsList graph).dedup.filter (fun x => (getA ld x).isNone)).length

theorem mem_targetsList {graph : DependencyGraph} {id y : String}
    (hy : y ∈ revAdj graph id) : y ∈ targetsList graph := by
  unfold revAdj at hy
  cases hr : getA graph.reverse id with
  | none => rw [hr] at hy; simp at hy
  | some deps =>
    rw [hr] at hy
    simp only [Option.getD_some] at hy
    unfold targetsList
    apply List.mem_join.mpr
    exact ⟨deps, List.mem_map_of_mem _ (getA_mem _ hr), hy⟩

theorem filter_drop_one (dt : List String) (hnd : dt.Nodup) (p : String → Bool)
    (n : String) (hn : n ∈ dt) (hp : p n = true) :
    (dt.filter (fun x => p x && (x ≠ n))).length + 1 = (dt.filter p).length := by
  induction dt with
  | nil => simp at hn
  | cons a dt ih =>
    have hand : a ∉ dt := (List.nodup_cons.mp hnd).1
    have hndt : dt.Nodup := (List.nodup_cons.mp hnd).2
    rcases List.mem_cons.mp hn with hn | hn
    · subst hn
      rw [List.filter_cons, List.filter_cons]
      have h1 : (p n && (n ≠ n : Bool)) = false := by simp
      simp only [hp, h1, if_pos rfl]
      have h2 : dt.filter (fun x => p x && (x ≠ n)) = dt.filter p := by
        apply List.filter_congr
        intro x hx
        have : x ≠ n := fun he => hand (he ▸ hx)
        simp [this]
      rw [h2]
      simp
    · have hna : ¬ a = n := fun he => hand (he ▸ hn)
      rw [List.filter_cons, List.filter_cons]
      have h1 : (p a && (a ≠ n : Bool)) = p a := by
        simp [hna]
      rw [h1]
      cases hpa : p a with
      | true =>
        have hih := ih hndt hn
        simp at hih
        simp
        omega
      | false =>
        have hih := ih hndt hn
        simpa using hih
        
theorem filter_drop_list (news : List String) :
    news.Nodup → ∀ (dt : List String), dt.Nodup → ∀ (p : String → Bool),
      (∀ y ∈ news, y ∈ dt ∧ p y = true) →
      (dt.filter (fun x => p x && (x ∉ news))).length + news.length =
        (dt.filter p).length := by
  induction news with
  | nil =>
    intro _ dt _ p _
    have h : dt.filter (fun x => p x && (x ∉ ([] : List String))) = dt.filter p := by
      apply List.filter_congr
      intro x _
      simp
    rw [h]
    simp
  | cons nn ns ih =>
    intro hnd dt hdt p hys
    have hnn : nn ∉ ns := (List.nodup_cons.mp hnd).1
    have hns : ns.Nodup := (List.nodup_cons.mp hnd).2
    have hdrop := filter_drop_one dt hdt p nn (hys nn (List.mem_cons_self _ _)).1
      (hys nn (List.mem_cons_self _ _)).2
    have hih := ih hns dt hdt (fun x => p x && (x ≠ nn)) ?_
    · have hcongr : dt.filter (fun x => (p x && (x ≠ nn : Bool)) && (x ∉ ns)) =
          dt.filter (fun x => p x && (x ∉ nn :: ns)) := by
        apply List.filter_congr
        intro x _
        by_cases h1 : x = nn
        · simp [h1]
        · by_cases h2 : x ∈ ns
          · simp [h1, h2]
          · simp [h1, h2]
      rw [hcongr] at hih
      simp only [List.length_cons]
      omega
    · intro y hy
      refine ⟨(hys y (List.mem_cons_of_mem _ hy)).1, ?_⟩
      have h1 := (hys y (List.mem_cons_of_mem _ hy)).2
      have h2 : ¬ y = nn := fun he => hnn (he ▸ hy)
      simp [h1, h2]

end RippleCheck

namespace RippleCheck

theorem bfsLoop_empty (graph : DependencyGraph) (root : String)
    (g0 : List (String × Nat)) (hWF : GraphWF graph) :
    ∀ fuel st, BfsInv graph root g0 st →
      st.queue.length + undiscoveredCount graph st.localDepth ≤ fuel →
      (bfsLoop graph fuel st).queue = [] := by
  intro fuel
  induction fuel with
  | zero =>
    intro st h hm
    have hq : st.queue = [] := List.length_eq_zero.mp (by omega)
    show (bfsLoop graph 0 st).queue = []
    simp only [bfsLoop]
    exact hq
  | succ n ih =>
    intro st h hm
    obtain ⟨L, P, G, Q⟩ := st
    cases Q with
    | nil => simp only [bfsLoop]
    | cons hd rest =>
      obtain ⟨id, depth⟩ := hd
      have hlocid : getA L id = some depth :=
        h.queue_local (id, depth) (List.mem_cons_self _ _)
      rw [bfsLoop_reduce graph n L P G id depth rest hlocid]
      obtain ⟨hsl, _, _, hsq, _, _⟩ :=
        bfsStep_spec graph id depth
          { localDepth := L, perRootParent := P, globalDepthMap := G, queue := rest } hWF
      set news := (revAdj graph id).filter (fun y => (getA L y).isNone) with hnews
      have hnewsnd : news.Nodup := List.Nodup.filter _ (revAdj_nodup graph hWF id)
      have hnewsin : ∀ y ∈ news, y ∈ (targetsList graph).dedup ∧
          (getA L y).isNone = true := by
        intro y hy
        have h1 := List.mem_filter.mp hy
        exact ⟨List.mem_dedup.mpr (mem_targetsList h1.1), h1.2⟩
      have hcong : (targetsList graph).dedup.filter
          (fun x => (getA (bfsStep graph id depth
            { localDepth := L, perRootParent := P, globalDepthMap := G,
              queue := rest }).localDepth x).isNone) =
          (targetsList graph).dedup.filter
          (fun x => (getA L x).isNone && (x ∉ news)) := by
        apply List.filter_congr
        intro x _
        rw [hsl x]
        by_cases hx : x ∈ news
        · simp [hx]
        · simp [hx]
      have hdrop := filter_drop_list news hnewsnd (targetsList graph).dedup
        (List.nodup_dedup _) (fun x => (getA L x).isNone) hnewsin
      have hun : undiscoveredCount graph (bfsStep graph id depth
          { localDepth := L, perRootParent := P, globalDepthMap := G,
            queue := rest }).localDepth + news.length =
          undiscoveredCount graph L := by
        unfold undiscoveredCount
        rw [hcong]
        exact hdrop
      have hqlen : (bfsStep graph id depth
          { localDepth := L, perRootParent := P, globalDepthMap := G,
            queue := rest }).queue.length = rest.length + news.length := by
        rw [hsq]
        simp
      have hm2 : rest.length + 1 + undiscoveredCount graph L ≤ n + 1 := by
        simpa using hm
      apply ih
      · exact bfsInv_process graph root g0 hWF L P G id depth rest h
      · omega

theorem bfsUnlimited_spec (rootId : String) (graph : DependencyGraph)
    (g0 : List (String × Nat)) (hWF : GraphWF graph) :
    BfsInv graph rootId g0 (bfsUnlimited rootId graph g0) ∧
    (bfsUnlimited rootId graph g0).queue = [] := by
  have hinit := bfsInv_init graph rootId g0
  constructor
  · exact bfsLoop_inv graph rootId g0 hWF (bfsFuel graph) _ hinit
  · apply bfsLoop_empty graph rootId g0 hWF (bfsFuel graph) _ hinit
    have h1 : undiscoveredCount graph (setA [] rootId 0) ≤ (targetsList graph).length := by
      unfold undiscoveredCount
      have ha : ((targetsList graph).dedup.filter
          (fun x => (getA (setA ([] : List (String × Nat)) rootId 0) x).isNone)).length ≤
          (targetsList graph).dedup.length :=
        List.Sublist.length_le (List.filter_sublist (targetsList graph).dedup)
      have hb := List.Sublist.length_le (List.dedup_sublist (targetsList graph))
      omega
    have h2 : (targetsList graph).length =
        ((graph.reverse.map (fun p => p.2.length)).sum) := by
      unfold targetsList
      rw [List.length_join, List.map_map]
      rfl
    unfold bfsFuel
    have h3 : ([(rootId, 0)] : List (String × Nat)).length = 1 := rfl
    simp only [h3]
    omega

end RippleCheck

namespace RippleCheck

theorem bfs_reach_discovered (graph : DependencyGraph) (root : String)
    (g0 : List (String × Nat)) (hWF : GraphWF graph) :
    ∀ x d, ReachRev graph root x d →
      ∃ dx, getA (bfsUnlimited root graph g0).localDepth x = some dx ∧ dx ≤ d := by
  obtain ⟨hInv, hqe⟩ := bfsUnlimited_spec root graph g0 hWF
  intro x d hreach
  induction hreach with
  | base => exact ⟨0, hInv.root_mem, Nat.le_refl 0⟩
  | step hr hadj ih =>
    rcases ih with ⟨dx, hlx, hle⟩
    rcases hInv.closure _ dx hlx with hin | hright
    · rw [hqe] at hin
      simp at hin
    · rcases hright _ hadj with ⟨dy, hdy, hdyle⟩
      exact ⟨dy, hdy, by omega⟩

theorem bfs_localDepth_iff (graph : DependencyGraph) (root : String)
    (g0 : List (String × Nat)) (hWF : GraphWF graph) :
    ∀ x d, getA (bfsUnlimited root graph g0).localDepth x = some d ↔
      IsMinDepth graph root x d := by
  obtain ⟨hInv, _⟩ := bfsUnlimited_spec root graph g0 hWF
  intro x d
  constructor
  · intro h
    refine ⟨hInv.sound x d h, ?_⟩
    intro d' hd'
    rcases bfs_reach_discovered graph root g0 hWF x d' hd' with ⟨dx, hdx, hle⟩
    rw [h] at hdx
    have : d = dx := Option.some.inj hdx
    omega
  · rintro ⟨hr, hmin⟩
    rcases bfs_reach_discovered graph root g0 hWF x d hr with ⟨dx, hdx, hle⟩
    have hback := hmin dx (hInv.sound x dx hdx)
    have : dx = d := by omega
    rw [← this]
    exact hdx

theorem head?_append_left {α : Type} (l m : List α) (r : α) (h : l.head? = some r) :
    (l ++ m).head? = some r := by
  cases l with
  | nil => simp at h
  | cons a l => simpa using h

theorem getLast?_concat' {α : Type} (l : List α) (a : α) :
    (l ++ [a]).getLast? = some a := by
  induction l with
  | nil => rfl
  | cons b l ih =>
    rw [List.cons_append]
    cases hl : l ++ [a] with
    | nil => exact absurd hl (by simp)
    | cons c t =>
      rw [List.getLast?_cons_cons]
      rw [hl] at ih
      exact ih

theorem walkParent_chain (graph : DependencyGraph) (root : String)
    (g0 : List (String × Nat)) (hWF : GraphWF graph) :
    ∀ d x acc fuel, d + 1 ≤ fuel →
      getA (bfsUnlimited root graph g0).localDepth x = some d →
      ∃ l, walkParent (bfsUnlimited root graph g0).perRootParent fuel
          (Option.join (getA (bfsUnlimited root graph g0).perRootParent x)) (x :: acc) =
          (l ++ [x]) ++ acc ∧
        (l ++ [x]).length = d + 1 ∧
        (l ++ [x]).head? = some root ∧
        List.Chain' (fun a b => b ∈ revAdj graph a) (l ++ [x]) := by
  obtain ⟨hInv, _⟩ := bfsUnlimited_spec root graph g0 hWF
  intro d
  induction d with
  | zero =>
    intro x acc fuel hfuel hlx
    have hpsome : (getA (bfsUnlimited root graph g0).perRootParent x).isSome = true := by
      rw [hInv.parent_dom x, hlx]; rfl
    rcases Option.isSome_iff_exists.mp hpsome with ⟨pv, hpv⟩
    cases pv with
    | some p =>
      rcases hInv.parent_step x p hpv with ⟨dp, _, hx2, _⟩
      rw [hlx] at hx2
      exact absurd (Option.some.inj hx2) (by omega)
    | none =>
      have hxroot : x = root := hInv.parent_none x hpv
      cases fuel with
      | zero => omega
      | succ f =>
        refine ⟨[], ?_, rfl, ?_, ?_⟩
        · rw [hpv]
          rfl
        · simp [hxroot]
        · simp
  | succ d ih =>
    intro x acc fuel hfuel hlx
    have hpsome : (getA (bfsUnlimited root graph g0).perRootParent x).isSome = true := by
      rw [hInv.parent_dom x, hlx]; rfl
    rcases Option.isSome_iff_exists.mp hpsome with ⟨pv, hpv⟩
    cases pv with
    | none =>
      have hxroot : x = root := hInv.parent_none x hpv
      rw [hxroot] at hlx
      rw [hInv.root_mem] at hlx
      exact absurd (Option.some.inj hlx) (by omega)
    | some p =>
      rcases hInv.parent_step x p hpv with ⟨dp, hp1, hx2, hadj⟩
      rw [hlx] at hx2
      have hdp : dp = d := by
        have := Option.some.inj hx2
        omega
      rw [hdp] at hp1
      cases fuel with
      | zero => omega
      | succ f =>
        have hstep : walkParent (bfsUnlimited root graph g0).perRootParent (f + 1)
            (Option.join (getA (bfsUnlimited root graph g0).perRootParent x)) (x :: acc) =
            walkParent (bfsUnlimited root graph g0).perRootParent f
              (Option.join (getA (bfsUnlimited root graph g0).perRootParent p))
              (p :: x :: acc) := by
          rw [hpv]
          rfl
        rw [hstep]
        rcases ih p (x :: acc) f (by omega) hp1 with ⟨l, hwalk, hlen, hhead, hchain⟩
        refine ⟨l ++ [p], ?_, ?_, ?_, ?_⟩
        · rw [hwalk]
          simp
        · simp at hlen ⊢
          omega
        · exact head?_append_left _ _ _ hhead
        · rw [List.chain'_append]
          refine ⟨hchain, List.chain'_singleton x, ?_⟩
          intro a ha b hb
          rw [getLast?_concat' l p] at ha
          have ha2 : a = p := Option.some.inj ha.symm
          have hb2 : b = x := by
            simp at hb
            exact hb.symm
          rw [ha2, hb2]
          exact hadj

end RippleCheck

namespace RippleCheck

theorem nodupKeys_globalUpdate (g : List (String × Nat)) (k : String) (d : Nat)
    (h : (g.map Prod.fst).Nodup) : ((globalUpdate g k d).map Prod.fst).Nodup := by
  unfold globalUpdate
  cases getA g k with
  | none => exact nodupKeys_setA g k d h
  | some d0 =>
    show (List.map Prod.fst (if d0 > d then setA g k d else g)).Nodup
    by_cases hc : d0 > d
    · rw [if_pos hc]; exact nodupKeys_setA g k d h
    · rw [if_neg hc]; exact h

theorem bfsDiscover_global_nodup (graphId : String) (depth : Nat) :
    ∀ (deps : List String) (st : BfsState),
      (st.globalDepthMap.map Prod.fst).Nodup →
      (((deps.foldl
          (fun st depId =>
            if (getA st.localDepth depId).isSome then st
            else
              { localDepth := setA st.localDepth depId (depth + 1),
                perRootParent := setA st.perRootParent depId (some graphId),
                globalDepthMap := globalUpdate st.globalDepthMap depId (depth + 1),
                queue := st.queue ++ [(depId, depth + 1)] })
          st).globalDepthMap).map Prod.fst).Nodup := by
  intro deps
  induction deps with
  | nil => intro st h; exact h
  | cons d ds ih =>
    intro st h
    rw [List.foldl_cons]
    by_cases hdisc : (getA st.localDepth d).isSome = true
    · rw [if_pos hdisc]
      exact ih st h
    · rw [if_neg hdisc]
      exact ih _ (nodupKeys_globalUpdate _ _ _ h)

theorem bfsStep_global_nodup (graph : DependencyGraph) (id : String) (depth : Nat)
    (st : BfsState) (h : (st.globalDepthMap.map Prod.fst).Nodup) :
    ((bfsStep graph id depth st).globalDepthMap.map Prod.fst).Nodup := by
  unfold bfsStep
  cases getA graph.reverse id with
  | none => exact h
  | some deps => exact bfsDiscover_global_nodup id depth deps st h

theorem bfsLoop_reduce_skip (graph : DependencyGraph) (n : Nat)
    (L : List (String × Nat)) (P : List (String × Option String))
    (G : List (String × Nat)) (id : String) (depth : Nat) (rest : List (String × Nat))
    (h : (match getA L id with
          | some d => decide (d < depth)
          | none => false) = true) :
    bfsLoop graph (n + 1)
      { localDepth := L, perRootParent := P, globalDepthMap := G,
        queue := (id, depth) :: rest } =
      bfsLoop graph n
        { localDepth := L, perRootParent := P, globalDepthMap := G, queue := rest } := by
  simp only [bfsLoop]
  rw [h]
  simp

theorem bfsLoop_reduce_noskip (graph : DependencyGraph) (n : Nat)
    (L : List (String × Nat)) (P : List (String × Option String))
    (G : List (String × Nat)) (id : String) (depth : Nat) (rest : List (String × Nat))
    (h : (match getA L id with
          | some d => decide (d < depth)
          | none => false) = false) :
    bfsLoop graph (n + 1)
      { localDepth := L, perRootParent := P, globalDepthMap := G,
        queue := (id, depth) :: rest } =
      bfsLoop graph n (bfsStep graph id depth
        { localDepth := L, perRootParent := P, globalDepthMap := G, queue := rest }) := by
  simp only [bfsLoop]
  rw [h]
  simp

theorem bfsLoop_global_nodup (graph : DependencyGraph) :
    ∀ fuel st, (st.globalDepthMap.map Prod.fst).Nodup →
      ((bfsLoop graph fuel st).globalDepthMap.map Prod.fst).Nodup := by
  intro fuel
  induction fuel with
  | zero => intro st h; exact h
  | succ n ih =>
    intro st h
    obtain ⟨L, P, G, Q⟩ := st
    cases Q with
    | nil => exact h
    | cons hd rest =>
      obtain ⟨id, depth⟩ := hd
      cases hb : (match getA L id with
          | some d => decide (d < depth)
          | none => false) with
      | true =>
        rw [bfsLoop_reduce_skip graph n L P G id depth rest hb]
        exact ih _ h
      | false =>
        rw [bfsLoop_reduce_noskip graph n L P G id depth rest hb]
        exact ih _ (bfsStep_global_nodup graph id depth _ h)

theorem bfsUnlimited_global_nodup (rootId : String) (graph : DependencyGraph)
    (g0 : List (String × Nat)) (h : (g0.map Prod.fst).Nodup) :
    ((bfsUnlimited rootId graph g0).globalDepthMap.map Prod.fst).Nodup := by
  unfold bfsUnlimited
  exact bfsLoop_global_nodup graph _ _ (nodupKeys_globalUpdate g0 rootId 0 h)

end RippleCheck

namespace RippleCheck

theorem delA_length_lt {α : Type} (m : List (String × α)) (k : String)
    (h : (getA m k).isSome = true) : (delA m k).length < m.length := by
  rcases Option.isSome_iff_exists.mp h with ⟨v, hv⟩
  have hmem : (k, v) ∈ m := getA_mem m hv
  unfold delA
  rw [List.length_filter_lt_length_iff_exists]
  exact ⟨(k, v), hmem, by simp⟩

theorem bfs_depth_witness (graph : DependencyGraph) (root : String)
    (g0 : List (String × Nat)) (st : BfsState) (hInv : BfsInv graph root g0 st) :
    ∀ d x, getA st.localDepth x = some d →
      ∀ k, k ≤ d → ∃ y, getA st.localDepth y = some k ∧
        (getA st.perRootParent y).isSome = true := by
  intro d
  induction d with
  | zero =>
    intro x hx k hk
    have hk0 : k = 0 := Nat.le_zero.mp hk
    refine ⟨x, by rw [hx, hk0], ?_⟩
    rw [hInv.parent_dom x, hx]; rfl
  | succ d ih =>
    intro x hx k hk
    by_cases hkd : k = d + 1
    · exact ⟨x, by rw [hx, hkd], by rw [hInv.parent_dom x, hx]; rfl⟩
    · have hkle : k ≤ d := by omega
      have hps : (getA st.perRootParent x).isSome = true := by
        rw [hInv.parent_dom x, hx]; rfl
      rcases Option.isSome_iff_exists.mp hps with ⟨pv, hpv⟩
      cases pv with
      | none =>
        have hxr : x = root := hInv.parent_none x hpv
        rw [hxr, hInv.root_mem] at hx
        exact absurd (Option.some.inj hx) (by omega)
      | some p =>
        rcases hInv.parent_step x p hpv with ⟨dp, hdp, hx2, _⟩
        rw [hx] at hx2
        have hdpd : dp = d := by
          have := Option.some.inj hx2
          omega
        rw [hdpd] at hdp
        exact ih p hdp k hkle

theorem count_from_witness {α : Type} :
    ∀ (d : Nat) (pm : List (String × α)) (L : List (String × Nat)),
      (∀ k, k ≤ d → ∃ y, getA L y = some k ∧ (getA pm y).isSome = true) →
      d + 1 ≤ pm.length := by
  intro d
  induction d with
  | zero =>
    intro pm L h
    rcases h 0 (Nat.le_refl 0) with ⟨y, _, hy⟩
    rcases Option.isSome_iff_exists.mp hy with ⟨v, hv⟩
    have hmem : (y, v) ∈ pm := getA_mem pm hv
    have hne : pm ≠ [] := by
      intro he; rw [he] at hmem; simp at hmem
    have := List.length_pos.mpr hne
    omega
  | succ d ih =>
    intro pm L h
    rcases h (d + 1) (Nat.le_refl _) with ⟨y, hyL, hyP⟩
    have hlt := delA_length_lt pm y hyP
    have hrec : ∀ k, k ≤ d → ∃ z, getA L z = some k ∧
        (getA (delA pm y) z).isSome = true := by
      intro k hk
      rcases h k (by omega) with ⟨z, hzL, hzP⟩
      have hzy : z ≠ y := by
        intro he; rw [he, hyL] at hzL
        have := Option.some.inj hzL; omega
      refine ⟨z, hzL, ?_⟩
      rw [getA_delA_ne _ hzy]; exact hzP
    have := ih (delA pm y) L hrec
    omega

theorem bfs_depth_le_parent_length (graph : DependencyGraph) (root : String)
    (g0 : List (String × Nat)) (hWF : GraphWF graph) (x : String) (d : Nat)
    (h : getA (bfsUnlimited root graph g0).localDepth x = some d) :
    d + 1 ≤ (bfsUnlimited root graph g0).perRootParent.length := by
  obtain ⟨hInv, _⟩ := bfsUnlimited_spec root graph g0 hWF
  exact count_from_witness d _ _ (bfs_depth_witness graph root g0 _ hInv d x h)

theorem walkParent_full (graph : DependencyGraph) (root : String)
    (g0 : List (String × Nat)) (hWF : GraphWF graph) (x : String) (d : Nat)
    (h : getA (bfsUnlimited root graph g0).localDepth x = some d) :
    ∃ l, walkParent (bfsUnlimited root graph g0).perRootParent
        ((bfsUnlimited root graph g0).perRootParent.length + 1)
        (Option.join (getA (bfsUnlimited root graph g0).perRootParent x)) [x] =
        l ++ [x] ∧
      (l ++ [x]).length = d + 1 ∧
      (l ++ [x]).head? = some root ∧
      (l ++ [x]).getLast? = some x ∧
      List.Chain' (fun a b => b ∈ revAdj graph a) (l ++ [x]) := by
  have hfuel : d + 1 ≤ (bfsUnlimited root graph g0).perRootParent.length + 1 := by
    have := bfs_depth_le_parent_length graph root g0 hWF x d h
    omega
  rcases walkParent_chain graph root g0 hWF d x [] _ hfuel h with ⟨l, hw, hlen, hhd, hch⟩
  refine ⟨l, ?_, hlen, hhd, getLast?_concat' l x, hch⟩
  rw [hw, List.append_nil]

end RippleCheck

namespace RippleCheck

/-- One step of pass 1 of `traverseImpact`: run the per-root BFS on the shared
global depth map and store the root's parent map. -/
def pass1Step (graph : DependencyGraph)
    (acc : List (String × Nat) × List (String × List (String × Option String)))
    (root : ImpactRoot) :
    List (String × Nat) × List (String × List (String × Option String)) :=
  ((bfsUnlimited root.symbolId graph acc.1).globalDepthMap,
   setA acc.2 root.symbolId (bfsUnlimited root.symbolId graph acc.1).perRootParent)

theorem pass1Step_eq (graph : DependencyGraph)
    (init : List (String × Nat) × List (String × List (String × Option String)))
    (rs : List ImpactRoot) :
    rs.foldl
      (fun acc root =>
        let st := bfsUnlimited root.symbolId graph acc.1
        (st.globalDepthMap, setA acc.2 root.symbolId st.perRootParent))
      init = rs.foldl (pass1Step graph) init := rfl

theorem optMin_eq_none_iff (a b : Option Nat) :
    optMin a b = none ↔ a = none ∧ b = none := by
  cases a <;> cases b <;> simp [optMin]

theorem pass1_parent_mono (graph : DependencyGraph) :
    ∀ (rs : List ImpactRoot) (gacc : List (String × Nat))
      (macc : List (String × List (String × Option String))) (rid : String),
      (getA macc rid).isSome = true →
      (getA (rs.foldl (pass1Step graph) (gacc, macc)).2 rid).isSome = true := by
  intro rs
  induction rs with
  | nil => intro gacc macc rid h; exact h
  | cons r0 rest ih =>
    intro gacc macc rid h
    rw [List.foldl_cons]
    apply ih
    show (getA (setA macc r0.symbolId
      (bfsUnlimited r0.symbolId graph gacc).perRootParent) rid).isSome = true
    rw [getA_setA]
    by_cases hr : rid = r0.symbolId
    · rw [if_pos hr]; rfl
    · rw [if_neg hr]; exact h

theorem pass1_parent_covers (graph : DependencyGraph) :
    ∀ (rs : List ImpactRoot) (gacc : List (String × Nat))
      (macc : List (String × List (String × Option String))),
      ∀ r ∈ rs,
      (getA (rs.foldl (pass1Step graph) (gacc, macc)).2 r.symbolId).isSome = true := by
  intro rs
  induction rs with
  | nil => intro gacc macc r hr; exact absurd hr (by simp)
  | cons r0 rest ih =>
    intro gacc macc r hr
    rw [List.foldl_cons]
    rcases List.mem_cons.mp hr with hr0 | hrest
    · apply pass1_parent_mono
      show (getA (setA macc r0.symbolId
        (bfsUnlimited r0.symbolId graph gacc).perRootParent) r.symbolId).isSome = true
      rw [hr0, getA_setA, if_pos rfl]
      rfl
    · exact ih _ _ r hrest

theorem pass1_global_nodup (graph : DependencyGraph) :
    ∀ (rs : List ImpactRoot) (gacc : List (String × Nat))
      (macc : List (String × List (String × Option String))),
      (gacc.map Prod.fst).Nodup →
      ((rs.foldl (pass1Step graph) (gacc, macc)).1.map Prod.fst).Nodup := by
  intro rs
  induction rs with
  | nil => intro gacc macc h; exact h
  | cons r0 rest ih =>
    intro gacc macc h
    rw [List.foldl_cons]
    exact ih _ _ (bfsUnlimited_global_nodup r0.symbolId graph gacc h)

theorem pass1_parent_keys_nodup (graph : DependencyGraph) :
    ∀ (rs : List ImpactRoot) (gacc : List (String × Nat))
      (macc : List (String × List (String × Option String))),
      (macc.map Prod.fst).Nodup →
      ((rs.foldl (pass1Step graph) (gacc, macc)).2.map Prod.fst).Nodup := by
  intro rs
  induction rs with
  | nil => intro gacc macc h; exact h
  | cons r0 rest ih =>
    intro gacc macc h
    rw [List.foldl_cons]
    exact ih _ _ (nodupKeys_setA macc r0.symbolId _ h)

end RippleCheck

namespace RippleCheck

theorem pass1_fold_spec (graph : DependencyGraph) (hWF : GraphWF graph) :
    ∀ (rs : List ImpactRoot) (gacc : List (String × Nat))
      (macc : List (String × List (String × Option String))),
      (∀ x d, getA (rs.foldl (pass1Step graph) (gacc, macc)).1 x = some d →
          ((getA gacc x = some d ∨
              ∃ r ∈ rs, IsMinDepth graph r.symbolId x d) ∧
           (∀ d0, getA gacc x = some d0 → d ≤ d0) ∧
           (∀ r ∈ rs, ∀ dd, ReachRev graph r.symbolId x dd → d ≤ dd))) ∧
      (∀ x, getA (rs.foldl (pass1Step graph) (gacc, macc)).1 x = none →
          (getA gacc x = none ∧
           ∀ r ∈ rs, ∀ dd, ¬ ReachRev graph r.symbolId x dd)) ∧
      (∀ rid pm, getA (rs.foldl (pass1Step graph) (gacc, macc)).2 rid = some pm →
          (getA macc rid = some pm ∨
            ∃ r ∈ rs, r.symbolId = rid ∧
              ∃ gmid, pm = (bfsUnlimited rid graph gmid).perRootParent)) ∧
      (∀ rid, (getA (rs.foldl (pass1Step graph) (gacc, macc)).2 rid).isSome = true →
          ((getA macc rid).isSome = true ∨ ∃ r ∈ rs, r.symbolId = rid)) := by
  intro rs
  induction rs with
  | nil =>
    intro gacc macc
    refine ⟨?_, ?_, ?_, ?_⟩
    · intro x d h
      have h2 : getA gacc x = some d := h
      refine ⟨Or.inl h2, ?_, ?_⟩
      · intro d0 h0
        rw [h2] at h0
        have := Option.some.inj h0
        omega
      · intro r hr; exact absurd hr (by simp)
    · intro x h
      have h2 : getA gacc x = none := h
      exact ⟨h2, fun r hr => absurd hr (by simp)⟩
    · intro rid pm h; exact Or.inl h
    · intro rid h; exact Or.inl h
  | cons r0 rest ih =>
    intro gacc macc
    rw [List.foldl_cons]
    have hstep : pass1Step graph (gacc, macc) r0 =
        ((bfsUnlimited r0.symbolId graph gacc).globalDepthMap,
         setA macc r0.symbolId (bfsUnlimited r0.symbolId graph gacc).perRootParent) := rfl
    rw [hstep]
    obtain ⟨hInv, -⟩ := bfsUnlimited_spec r0.symbolId graph gacc hWF
    have hglob := hInv.global_rel
    have hLiff := bfs_localDepth_iff graph r0.symbolId gacc hWF
    have hreach := bfs_reach_discovered graph r0.symbolId gacc hWF
    obtain ⟨IH1, IH2, IH3, IH4⟩ :=
      ih (bfsUnlimited r0.symbolId graph gacc).globalDepthMap
        (setA macc r0.symbolId (bfsUnlimited r0.symbolId graph gacc).perRootParent)
    refine ⟨?_, ?_, ?_, ?_⟩
    · -- some-case characterization of the global depth map
      intro x d h
      obtain ⟨hach, hbnd, hroots⟩ := IH1 x d h
      have hbnd2 : ∀ d0, getA gacc x = some d0 → d ≤ d0 := by
        intro d0 h0
        have hg := hglob x
        rw [h0] at hg
        cases hl : getA (bfsUnlimited r0.symbolId graph gacc).localDepth x with
        | none =>
          rw [hl] at hg
          exact hbnd d0 hg
        | some dl =>
          rw [hl] at hg
          have hmin : d ≤ min d0 dl := hbnd _ hg
          omega
      have hr0bnd : ∀ dd, ReachRev graph r0.symbolId x dd → d ≤ dd := by
        intro dd hrd
        rcases hreach x dd hrd with ⟨dx, hdx, hdxle⟩
        have hg := hglob x
        rw [hdx] at hg
        cases hgc : getA gacc x with
        | none =>
          rw [hgc] at hg
          have := hbnd dx hg
          omega
        | some dg =>
          rw [hgc] at hg
          have hmin : d ≤ min dg dx := hbnd _ hg
          omega
      refine ⟨?_, hbnd2, ?_⟩
      · rcases hach with hg | ⟨r, hr, hmind⟩
        · rw [hglob x] at hg
          cases hgc : getA gacc x with
          | none =>
            rw [hgc] at hg
            cases hl : getA (bfsUnlimited r0.symbolId graph gacc).localDepth x with
            | none => rw [hl] at hg; exact absurd hg (by simp [optMin])
            | some dl =>
              rw [hl] at hg
              have hd : dl = d := by
                have : optMin none (some dl) = some dl := rfl
                rw [this] at hg
                exact Option.some.inj hg
              right
              refine ⟨r0, List.mem_cons_self r0 rest, ?_⟩
              rw [← hd]
              exact (hLiff x dl).mp hl
          | some dg =>
            rw [hgc] at hg
            cases hl : getA (bfsUnlimited r0.symbolId graph gacc).localDepth x with
            | none =>
              rw [hl] at hg
              have hd : dg = d := by
                have : optMin (some dg) none = some dg := rfl
                rw [this] at hg
                exact Option.some.inj hg
              left
              rw [hd]
            | some dl =>
              rw [hl] at hg
              have hd : min dg dl = d := by
                have : optMin (some dg) (some dl) = some (min dg dl) := rfl
                rw [this] at hg
                exact Option.some.inj hg
              by_cases hcmp : dl ≤ dg
              · right
                refine ⟨r0, List.mem_cons_self r0 rest, ?_⟩
                have : d = dl := by omega
                rw [this]
                exact (hLiff x dl).mp hl
              · left
                have : d = dg := by omega
                rw [this]
        · exact Or.inr ⟨r, List.mem_cons_of_mem r0 hr, hmind⟩
      · intro r hr dd hrd
        rcases List.mem_cons.mp hr with hr0 | hrest
        · rw [hr0] at hrd
          exact hr0bnd dd hrd
        · exact hroots r hrest dd hrd
    · -- none-case characterization of the global depth map
      intro x h
      obtain ⟨hg, hrest⟩ := IH2 x h
      rw [hglob x] at hg
      obtain ⟨hgacc, hloc⟩ := (optMin_eq_none_iff _ _).mp hg
      refine ⟨hgacc, ?_⟩
      intro r hr dd hrd
      rcases List.mem_cons.mp hr with hr0 | hrestm
      · rw [hr0] at hrd
        rcases hreach x dd hrd with ⟨dx, hdx, -⟩
        rw [hloc] at hdx
        exact absurd hdx (by simp)
      · exact hrest r hrestm dd hrd
    · -- parent-map contents
      intro rid pm h
      rcases IH3 rid pm h with hm | ⟨r, hr, hrid, hgm⟩
      · rw [getA_setA] at hm
        by_cases hr : rid = r0.symbolId
        · rw [if_pos hr] at hm
          right
          refine ⟨r0, List.mem_cons_self r0 rest, hr.symm, gacc, ?_⟩
          rw [hr]
          exact (Option.some.inj hm).symm
        · rw [if_neg hr] at hm
          exact Or.inl hm
      · exact Or.inr ⟨r, List.mem_cons_of_mem r0 hr, hrid, hgm⟩
    · -- parent-map keys
      intro rid h
      rcases IH4 rid h with hm | ⟨r, hr, hrid⟩
      · rw [getA_setA] at hm
        by_cases hr : rid = r0.symbolId
        · exact Or.inr ⟨r0, List.mem_cons_self r0 rest, hr.symm⟩
        · rw [if_neg hr] at hm
          exact Or.inl hm
      · exact Or.inr ⟨r, List.mem_cons_of_mem r0 hr, hrid⟩

end RippleCheck

namespace RippleCheck

/-- Root id set of a root list. -/
def rootSetOf (roots : List ImpactRoot) : List String :=
  roots.map (fun r => r.symbolId)

/-- Deep-mode roots. -/
def deepRootsOf (roots : List ImpactRoot) : List ImpactRoot :=
  roots.filter (fun r => r.propagationMode = PropagationMode.deep)

/-- Shallow-mode roots. -/
def shallowRootsOf (roots : List ImpactRoot) : List ImpactRoot :=
  roots.filter (fun r => r.propagationMode = PropagationMode.shallow)

/-- Pass 1 of `traverseImpact`: all deep BFS runs. -/
def pass1Of (roots : List ImpactRoot) (graph : DependencyGraph) :
    List (String × Nat) × List (String × List (String × Option String)) :=
  (deepRootsOf roots).foldl (pass1Step graph)
    (([] : List (String × Nat)), ([] : List (String × List (String × Option String))))

/-- One neighbour step of the shallow pass. -/
def shallowInner (rootSet : List String) (deepDepthMap : List (String × Nat))
    (rootId : String) (sp : List (String × String)) (depId : String) :
    List (String × String) :=
  if depId ∈ rootSet then sp
  else if (getA deepDepthMap depId).isSome then sp
  else if (getA sp depId).isSome then sp
  else setA sp depId rootId

/-- One shallow-root step of the shallow pass. -/
def shallowOuter (graph : DependencyGraph) (rootSet : List String)
    (deepDepthMap : List (String × Nat)) (sp : List (String × String))
    (root : ImpactRoot) : List (String × String) :=
  match getA graph.reverse root.symbolId with
  | none => sp
  | some dependents =>
      dependents.foldl (shallowInner rootSet deepDepthMap root.symbolId) sp

/-- The shallow parent map built by pass 2. -/
def shallowParentMapOf (roots : List ImpactRoot) (graph : DependencyGraph) :
    List (String × String) :=
  (shallowRootsOf roots).foldl
    (shallowOuter graph (rootSetOf roots) (pass1Of roots graph).1)
    ([] : List (String × String))

/-- One step of the root-excluding copy of the deep depth map. -/
def depthMap1Step (rootSet : List String) (dm : List (String × Nat))
    (p : String × Nat) : List (String × Nat) :=
  if p.1 ∈ rootSet then dm else setA dm p.1 p.2

/-- The deep part of the final depth map (roots excluded). -/
def depthMap1Of (roots : List ImpactRoot) (graph : DependencyGraph) :
    List (String × Nat) :=
  (pass1Of roots graph).1.foldl (depthMap1Step (rootSetOf roots))
    ([] : List (String × Nat))

/-- The final depth map (shallow entries pinned at depth 1). -/
def depthMapOf (roots : List ImpactRoot) (graph : DependencyGraph) :
    List (String × Nat) :=
  (shallowParentMapOf roots graph).foldl (fun dm p => setA dm p.1 1)
    (depthMap1Of roots graph)

/-- One classification step: depth 1 is direct, anything else indirect. -/
def classifiedStep (acc : List String × List String) (p : String × Nat) :
    List String × List String :=
  if p.2 = 1 then (acc.1 ++ [p.1], acc.2) else (acc.1, acc.2 ++ [p.1])

/-- The direct/indirect classification of the final depth map. -/
def classifiedOf (roots : List ImpactRoot) (graph : DependencyGraph) :
    List String × List String :=
  (depthMapOf roots graph).foldl classifiedStep (([] : List String), ([] : List String))

/-- `traverseImpact` rephrased through the named intermediate stages. -/
def traverseImpactS (roots : List ImpactRoot) (graph : DependencyGraph) :
    BlastRadiusResult :=
  { roots := roots,
    directImpact := (classifiedOf roots graph).1,
    indirectImpact := (classifiedOf roots graph).2,
    depthMap := depthMapOf roots graph,
    paths := buildPaths (depthMapOf roots graph) (pass1Of roots graph).2
      (shallowParentMapOf roots graph),
    stagedGraph := none }

theorem traverseImpact_eq (roots : List ImpactRoot) (graph : DependencyGraph) :
    traverseImpact roots graph = traverseImpactS roots graph := rfl

end RippleCheck

namespace RippleCheck

theorem shallowInner_fold (rootSet : List String) (dd : List (String × Nat))
    (rootId : String) :
    ∀ (deps : List String) (sp0 : List (String × String)),
      (∀ x s, getA sp0 x = some s →
        getA (deps.foldl (shallowInner rootSet dd rootId) sp0) x = some s) ∧
      (∀ x s, getA (deps.foldl (shallowInner rootSet dd rootId) sp0) x = some s →
        getA sp0 x = some s ∨
          (s = rootId ∧ x ∈ deps ∧ x ∉ rootSet ∧ (getA dd x).isSome = false)) ∧
      (∀ x, x ∈ deps → x ∉ rootSet → (getA dd x).isSome = false →
        (getA (deps.foldl (shallowInner rootSet dd rootId) sp0) x).isSome = true) ∧
      ((sp0.map Prod.fst).Nodup →
        (((deps.foldl (shallowInner rootSet dd rootId) sp0)).map Prod.fst).Nodup) := by
  intro deps
  induction deps with
  | nil =>
    intro sp0
    refine ⟨fun x s h => h, fun x s h => Or.inl h, ?_, fun h => h⟩
    intro x hx; exact absurd hx (by simp)
  | cons d0 rest ih =>
    intro sp0
    rw [List.foldl_cons]
    by_cases h1 : d0 ∈ rootSet
    · have hstep : shallowInner rootSet dd rootId sp0 d0 = sp0 := by
        unfold shallowInner; rw [if_pos h1]
      rw [hstep]
      obtain ⟨ihm, ihn, ihc, ihd⟩ := ih sp0
      refine ⟨ihm, ?_, ?_, ihd⟩
      · intro x s h
        rcases ihn x s h with h | ⟨hs, hx, hrs, hdd⟩
        · exact Or.inl h
        · exact Or.inr ⟨hs, List.mem_cons_of_mem d0 hx, hrs, hdd⟩
      · intro x hx hrs hdd
        rcases List.mem_cons.mp hx with hx0 | hxr
        · rw [hx0] at hrs; exact absurd h1 hrs
        · exact ihc x hxr hrs hdd
    · by_cases h2 : (getA dd d0).isSome = true
      · have hstep : shallowInner rootSet dd rootId sp0 d0 = sp0 := by
          unfold shallowInner; rw [if_neg h1, if_pos h2]
        rw [hstep]
        obtain ⟨ihm, ihn, ihc, ihd⟩ := ih sp0
        refine ⟨ihm, ?_, ?_, ihd⟩
        · intro x s h
          rcases ihn x s h with h | ⟨hs, hx, hrs, hdd⟩
          · exact Or.inl h
          · exact Or.inr ⟨hs, List.mem_cons_of_mem d0 hx, hrs, hdd⟩
        · intro x hx hrs hdd
          rcases List.mem_cons.mp hx with hx0 | hxr
          · rw [hx0] at hdd; rw [h2] at hdd; exact absurd hdd (by simp)
          · exact ihc x hxr hrs hdd
      · by_cases h3 : (getA sp0 d0).isSome = true
        · have hstep : shallowInner rootSet dd rootId sp0 d0 = sp0 := by
            unfold shallowInner; rw [if_neg h1, if_neg h2, if_pos h3]
          rw [hstep]
          obtain ⟨ihm, ihn, ihc, ihd⟩ := ih sp0
          refine ⟨ihm, ?_, ?_, ihd⟩
          · intro x s h
            rcases ihn x s h with h | ⟨hs, hx, hrs, hdd⟩
            · exact Or.inl h
            · exact Or.inr ⟨hs, List.mem_cons_of_mem d0 hx, hrs, hdd⟩
          · intro x hx hrs hdd
            rcases List.mem_cons.mp hx with hx0 | hxr
            · rcases Option.isSome_iff_exists.mp h3 with ⟨s0, hs0⟩
              rw [← hx0] at hs0
              have := (ih sp0).1 x s0 hs0
              rw [this]; rfl
            · exact ihc x hxr hrs hdd
        · have hstep : shallowInner rootSet dd rootId sp0 d0 = setA sp0 d0 rootId := by
            unfold shallowInner; rw [if_neg h1, if_neg h2, if_neg h3]
          rw [hstep]
          obtain ⟨ihm, ihn, ihc, ihd⟩ := ih (setA sp0 d0 rootId)
          have hget : ∀ x, getA (setA sp0 d0 rootId) x =
              if x = d0 then some rootId else getA sp0 x := by
            intro x; rw [getA_setA]
          refine ⟨?_, ?_, ?_, ?_⟩
          · intro x s h
            apply ihm
            rw [hget]
            by_cases hx : x = d0
            · rw [hx] at h
              have : (getA sp0 d0).isSome = true := by rw [h]; rfl
              exact absurd this h3
            · rw [if_neg hx]; exact h
          · intro x s h
            rcases ihn x s h with h | ⟨hs, hx, hrs, hdd⟩
            · rw [hget] at h
              by_cases hx : x = d0
              · rw [if_pos hx] at h
                have hsr : s = rootId := (Option.some.inj h).symm
                refine Or.inr ⟨hsr, by rw [hx]; exact List.mem_cons_self d0 rest, ?_, ?_⟩
                · rw [hx]; exact h1
                · rw [hx]
                  cases hdd : (getA dd d0).isSome
                  · rfl
                  · exact absurd hdd h2
              · rw [if_neg hx] at h; exact Or.inl h
            · exact Or.inr ⟨hs, List.mem_cons_of_mem d0 hx, hrs, hdd⟩
          · intro x hx hrs hdd
            rcases List.mem_cons.mp hx with hx0 | hxr
            · have : getA (setA sp0 d0 rootId) x = some rootId := by
                rw [hget, if_pos hx0]
              have := ihm x rootId this
              rw [this]; rfl
            · exact ihc x hxr hrs hdd
          · intro hnd
            exact ihd (nodupKeys_setA sp0 d0 rootId hnd)

end RippleCheck

namespace RippleCheck

theorem shallowOuter_fold (graph : DependencyGraph) (rootSet : List String)
    (dd : List (String × Nat)) :
    ∀ (rs : List ImpactRoot) (sp0 : List (String × String)),
      (∀ x s, getA sp0 x = some s →
        getA (rs.foldl (shallowOuter graph rootSet dd) sp0) x = some s) ∧
      (∀ x s, getA (rs.foldl (shallowOuter graph rootSet dd) sp0) x = some s →
        getA sp0 x = some s ∨
          (∃ r ∈ rs, s = r.symbolId ∧ x ∈ revAdj graph s ∧ x ∉ rootSet ∧
            (getA dd x).isSome = false)) ∧
      (∀ x r, r ∈ rs → x ∈ revAdj graph r.symbolId → x ∉ rootSet →
        (getA dd x).isSome = false →
        (getA (rs.foldl (shallowOuter graph rootSet dd) sp0) x).isSome = true) ∧
      ((sp0.map Prod.fst).Nodup →
        (((rs.foldl (shallowOuter graph rootSet dd) sp0)).map Prod.fst).Nodup) := by
  intro rs
  induction rs with
  | nil =>
    intro sp0
    refine ⟨fun x s h => h, fun x s h => Or.inl h, ?_, fun h => h⟩
    intro x r hr; exact absurd hr (by simp)
  | cons r0 rest ih =>
    intro sp0
    rw [List.foldl_cons]
    cases hg : getA graph.reverse r0.symbolId with
    | none =>
      have hstep : shallowOuter graph rootSet dd sp0 r0 = sp0 := by
        unfold shallowOuter; rw [hg]
      rw [hstep]
      obtain ⟨ihm, ihn, ihc, ihd⟩ := ih sp0
      refine ⟨ihm, ?_, ?_, ihd⟩
      · intro x s h
        rcases ihn x s h with h | ⟨r, hr, hs, hadj, hrs, hdd⟩
        · exact Or.inl h
        · exact Or.inr ⟨r, List.mem_cons_of_mem r0 hr, hs, hadj, hrs, hdd⟩
      · intro x r hr hadj hrs hdd
        rcases List.mem_cons.mp hr with hr0 | hrr
        · rw [hr0] at hadj
          unfold revAdj at hadj
          rw [hg] at hadj
          exact absurd hadj (by simp)
        · exact ihc x r hrr hadj hrs hdd
    | some deps =>
      have hstep : shallowOuter graph rootSet dd sp0 r0 =
          deps.foldl (shallowInner rootSet dd r0.symbolId) sp0 := by
        unfold shallowOuter; rw [hg]
      rw [hstep]
      have hdeps : revAdj graph r0.symbolId = deps := by
        unfold revAdj; rw [hg]; rfl
      obtain ⟨inm, inn, inc, ind⟩ := shallowInner_fold rootSet dd r0.symbolId deps sp0
      obtain ⟨ihm, ihn, ihc, ihd⟩ := ih (deps.foldl (shallowInner rootSet dd r0.symbolId) sp0)
      refine ⟨?_, ?_, ?_, ?_⟩
      · intro x s h
        exact ihm x s (inm x s h)
      · intro x s h
        rcases ihn x s h with h | ⟨r, hr, hs, hadj, hrs, hdd⟩
        · rcases inn x s h with h | ⟨hs, hx, hrs, hdd⟩
          · exact Or.inl h
          · refine Or.inr ⟨r0, List.mem_cons_self r0 rest, hs, ?_, hrs, hdd⟩
            rw [hs, hdeps]; exact hx
        · exact Or.inr ⟨r, List.mem_cons_of_mem r0 hr, hs, hadj, hrs, hdd⟩
      · intro x r hr hadj hrs hdd
        rcases List.mem_cons.mp hr with hr0 | hrr
        · rw [hr0] at hadj
          rw [hdeps] at hadj
          have := inc x hadj hrs hdd
          rcases Option.isSome_iff_exists.mp this with ⟨s0, hs0⟩
          have := ihm x s0 hs0
          rw [this]; rfl
        · exact ihc x r hrr hadj hrs hdd
      · intro hnd
        exact ihd (ind hnd)

end RippleCheck

namespace RippleCheck

theorem depthMap1_fold (rootSet : List String) :
    ∀ (dd : List (String × Nat)), (dd.map Prod.fst).Nodup →
      ∀ (dm0 : List (String × Nat)) (x : String),
      getA (dd.foldl (depthMap1Step rootSet) dm0) x =
        match getA dd x with
        | some v => if x ∈ rootSet then getA dm0 x else some v
        | none => getA dm0 x := by
  intro dd
  induction dd with
  | nil => intro _ dm0 x; rfl
  | cons p rest ih =>
    intro hnd dm0 x
    have hndr : (rest.map Prod.fst).Nodup := by
      rw [List.map_cons] at hnd
      exact (List.nodup_cons.mp hnd).2
    have hpk : p.1 ∉ rest.map Prod.fst := by
      rw [List.map_cons] at hnd
      exact (List.nodup_cons.mp hnd).1
    rw [List.foldl_cons]
    rw [ih hndr]
    by_cases hx : x = p.1
    · have hrest : getA rest x = none := by
        rw [getA_eq_none_iff]
        rw [hx]
        exact hpk
      have hdd : getA (p :: rest) x = some p.2 := by
        rw [getA]
        rw [if_pos hx.symm]
      rw [hrest, hdd]
      show getA (depthMap1Step rootSet dm0 p) x =
        if x ∈ rootSet then getA dm0 x else some p.2
      unfold depthMap1Step
      by_cases hrs : p.1 ∈ rootSet
      · have hxr : x ∈ rootSet := by rw [hx]; exact hrs
        rw [if_pos hrs, if_pos hxr]
      · have hxr : x ∉ rootSet := by rw [hx]; exact hrs
        rw [if_neg hrs, if_neg hxr, getA_setA, if_pos hx]
    · have hdd : getA (p :: rest) x = getA rest x := by
        rw [getA]
        have : ¬ p.1 = x := fun hh => hx hh.symm
        rw [if_neg this]
      rw [hdd]
      have hstep : getA (depthMap1Step rootSet dm0 p) x = getA dm0 x := by
        unfold depthMap1Step
        by_cases hrs : p.1 ∈ rootSet
        · rw [if_pos hrs]
        · rw [if_neg hrs, getA_setA, if_neg hx]
      cases getA rest x with
      | none => exact hstep
      | some v =>
        show (if x ∈ rootSet then getA (depthMap1Step rootSet dm0 p) x else some v) =
          if x ∈ rootSet then getA dm0 x else some v
        by_cases hxr : x ∈ rootSet
        · rw [if_pos hxr, if_pos hxr]; exact hstep
        · rw [if_neg hxr, if_neg hxr]

theorem depthMap1_nodup (rootSet : List String) :
    ∀ (dd : List (String × Nat)) (dm0 : List (String × Nat)),
      (dm0.map Prod.fst).Nodup →
      (((dd.foldl (depthMap1Step rootSet) dm0)).map Prod.fst).Nodup := by
  intro dd
  induction dd with
  | nil => intro dm0 h; exact h
  | cons p rest ih =>
    intro dm0 h
    rw [List.foldl_cons]
    apply ih
    unfold depthMap1Step
    by_cases hrs : p.1 ∈ rootSet
    · rw [if_pos hrs]; exact h
    · rw [if_neg hrs]; exact nodupKeys_setA dm0 p.1 p.2 h

theorem depthMap2_fold :
    ∀ (spm : List (String × String)) (dm0 : List (String × Nat)) (x : String),
      getA (spm.foldl (fun dm p => setA dm p.1 1) dm0) x =
        if (getA spm x).isSome = true then some 1 else getA dm0 x := by
  intro spm
  induction spm with
  | nil => intro dm0 x; simp [getA]
  | cons p rest ih =>
    intro dm0 x
    rw [List.foldl_cons, ih]
    by_cases hx : x = p.1
    · have h1 : getA (setA dm0 p.1 1) x = some 1 := by
        rw [getA_setA, if_pos hx]
      have h2 : (getA (p :: rest) x).isSome = true := by
        rw [getA]
        rw [if_pos hx.symm]
        rfl
      rw [h1, h2]
      by_cases hr : (getA rest x).isSome = true
      · rw [if_pos hr]; simp
      · rw [if_neg hr]; simp
    · have h1 : getA (setA dm0 p.1 1) x = getA dm0 x := by
        rw [getA_setA, if_neg hx]
      have h2 : getA (p :: rest) x = getA rest x := by
        rw [getA]
        have : ¬ p.1 = x := fun hh => hx hh.symm
        rw [if_neg this]
      rw [h1, h2]

theorem depthMap2_nodup :
    ∀ (spm : List (String × String)) (dm0 : List (String × Nat)),
      (dm0.map Prod.fst).Nodup →
      (((spm.foldl (fun dm p => setA dm p.1 1) dm0)).map Prod.fst).Nodup := by
  intro spm
  induction spm with
  | nil => intro dm0 h; exact h
  | cons p rest ih =>
    intro dm0 h
    rw [List.foldl_cons]
    exact ih _ (nodupKeys_setA dm0 p.1 1 h)

theorem classified_fold :
    ∀ (dm : List (String × Nat)) (acc : List String × List String),
      dm.foldl classifiedStep acc =
        (acc.1 ++ (dm.filter (fun p => p.2 = 1)).map Prod.fst,
         acc.2 ++ (dm.filter (fun p => ¬ p.2 = 1)).map Prod.fst) := by
  intro dm
  induction dm with
  | nil => intro acc; simp
  | cons p rest ih =>
    intro acc
    rw [List.foldl_cons, ih]
    by_cases hp : p.2 = 1
    · have hstep : classifiedStep acc p = (acc.1 ++ [p.1], acc.2) := by
        unfold classifiedStep; rw [if_pos hp]
      rw [hstep]
      simp [List.filter_cons, hp]
    · have hstep : classifiedStep acc p = (acc.1, acc.2 ++ [p.1]) := by
        unfold classifiedStep; rw [if_neg hp]
      rw [hstep]
      simp [List.filter_cons, hp]

theorem mem_filter_one_iff (dm : List (String × Nat)) (hnd : (dm.map Prod.fst).Nodup)
    (x : String) :
    x ∈ (dm.filter (fun p => p.2 = 1)).map Prod.fst ↔ getA dm x = some 1 := by
  constructor
  · intro h
    rcases List.mem_map.mp h with ⟨p, hp, hpx⟩
    rcases List.mem_filter.mp hp with ⟨hmem, hone⟩
    have hone2 : p.2 = 1 := by simpa using hone
    have : (x, (1 : Nat)) ∈ dm := by
      have : p = (x, 1) := by
        cases p with
        | mk a b =>
          simp at hpx hone2
          rw [hpx, hone2]
      rw [← this]
      exact hmem
    exact getA_of_nodup_mem hnd this
  · intro h
    have hmem : (x, (1 : Nat)) ∈ dm := getA_mem dm h
    apply List.mem_map.mpr
    refine ⟨(x, 1), ?_, rfl⟩
    apply List.mem_filter.mpr
    exact ⟨hmem, by simp⟩

theorem mem_filter_ne_one_iff (dm : List (String × Nat)) (hnd : (dm.map Prod.fst).Nodup)
    (x : String) :
    x ∈ (dm.filter (fun p => ¬ p.2 = 1)).map Prod.fst ↔
      ∃ v, getA dm x = some v ∧ v ≠ 1 := by
  constructor
  · intro h
    rcases List.mem_map.mp h with ⟨p, hp, hpx⟩
    rcases List.mem_filter.mp hp with ⟨hmem, hne⟩
    have hne2 : ¬ p.2 = 1 := by simpa using hne
    refine ⟨p.2, ?_, hne2⟩
    have : (x, p.2) ∈ dm := by
      cases p with
      | mk a b =>
        simp at hpx
        rw [← hpx]
        exact hmem
    exact getA_of_nodup_mem hnd this
  · rintro ⟨v, hv, hne⟩
    have hmem : (x, v) ∈ dm := getA_mem dm hv
    apply List.mem_map.mpr
    refine ⟨(x, v), ?_, rfl⟩
    apply List.mem_filter.mpr
    exact ⟨hmem, by simpa using hne⟩

end RippleCheck

namespace RippleCheck

/-- The path reconstructed from one stored per-root parent map. -/
def walkOf (q : String × List (String × Option String)) (id : String) : List String :=
  walkParent q.2 (q.2.length + 1) (Option.join (getA q.2 id)) [id]

/-- All paths recorded for one impacted id: one per deep parent map containing
it, plus the shallow two-element path when a shallow parent exists. -/
def allPathsFor (perRootParentMaps : List (String × List (String × Option String)))
    (shallowParentMap : List (String × String)) (id : String) :
    List (List String) :=
  let deepPaths := perRootParentMaps.foldl
    (fun acc q =>
      if (getA q.2 id).isSome then acc ++ [walkOf q id] else acc)
    ([] : List (List String))
  match getA shallowParentMap id with
  | some shallowParent => deepPaths ++ [[shallowParent, id]]
  | none => deepPaths

/-- One step of the `buildPaths` fold. -/
def buildStep (perRootParentMaps : List (String × List (String × Option String)))
    (shallowParentMap : List (String × String))
    (paths : List (String × List (List String))) (p : String × Nat) :
    List (String × List (List String)) :=
  if allPathsFor perRootParentMaps shallowParentMap p.1 = [] then paths
  else setA paths p.1 (allPathsFor perRootParentMaps shallowParentMap p.1)

theorem buildPaths_eq_fold (depthMap : List (String × Nat))
    (maps : List (String × List (String × Option String)))
    (spm : List (String × String)) :
    buildPaths depthMap maps spm =
      depthMap.foldl (buildStep maps spm) ([] : List (String × List (List String))) := rfl

theorem deepPaths_fold (id : String) :
    ∀ (maps : List (String × List (String × Option String)))
      (acc : List (List String)),
      maps.foldl
        (fun acc q =>
          if (getA q.2 id).isSome then acc ++ [walkOf q id] else acc)
        acc =
        acc ++ (maps.filter (fun q => (getA q.2 id).isSome)).map (fun q => walkOf q id) := by
  intro maps
  induction maps with
  | nil => intro acc; simp
  | cons q rest ih =>
    intro acc
    rw [List.foldl_cons]
    by_cases hq : (getA q.2 id).isSome = true
    · rw [if_pos hq, ih]
      simp [List.filter_cons, hq]
    · rw [if_neg hq, ih]
      simp [List.filter_cons, hq]

theorem allPathsFor_eq (maps : List (String × List (String × Option String)))
    (spm : List (String × String)) (id : String) :
    allPathsFor maps spm id =
      ((maps.filter (fun q => (getA q.2 id).isSome)).map (fun q => walkOf q id)) ++
        (match getA spm id with
         | some shallowParent => [[shallowParent, id]]
         | none => []) := by
  unfold allPathsFor
  rw [deepPaths_fold id maps []]
  cases getA spm id with
  | none => simp
  | some sp => simp

theorem buildPaths_getA (maps : List (String × List (String × Option String)))
    (spm : List (String × String)) :
    ∀ (dm : List (String × Nat)), (dm.map Prod.fst).Nodup →
      ∀ (paths0 : List (String × List (List String))) (x : String),
      getA (dm.foldl (buildStep maps spm) paths0) x =
        match getA dm x with
        | some _ =>
            if allPathsFor maps spm x = [] then getA paths0 x
            else some (allPathsFor maps spm x)
        | none => getA paths0 x := by
  intro dm
  induction dm with
  | nil => intro _ paths0 x; rfl
  | cons p rest ih =>
    intro hnd paths0 x
    have hndr : (rest.map Prod.fst).Nodup := by
      rw [List.map_cons] at hnd
      exact (List.nodup_cons.mp hnd).2
    have hpk : p.1 ∉ rest.map Prod.fst := by
      rw [List.map_cons] at hnd
      exact (List.nodup_cons.mp hnd).1
    rw [List.foldl_cons]
    rw [ih hndr]
    by_cases hx : x = p.1
    · have hrest : getA rest x = none := by
        rw [getA_eq_none_iff, hx]
        exact hpk
      have hdd : getA (p :: rest) x = some p.2 := by
        rw [getA, if_pos hx.symm]
      rw [hrest, hdd]
      show getA (buildStep maps spm paths0 p) x =
        if allPathsFor maps spm x = [] then getA paths0 x
        else some (allPathsFor maps spm x)
      unfold buildStep
      rw [← hx]
      by_cases hempty : allPathsFor maps spm x = []
      · rw [if_pos hempty, if_pos hempty]
      · rw [if_neg hempty, if_neg hempty, getA_setA, if_pos rfl]
    · have hdd : getA (p :: rest) x = getA rest x := by
        rw [getA]
        have : ¬ p.1 = x := fun hh => hx hh.symm
        rw [if_neg this]
      rw [hdd]
      have hstep : getA (buildStep maps spm paths0 p) x = getA paths0 x := by
        unfold buildStep
        by_cases hempty : allPathsFor maps spm p.1 = []
        · rw [if_pos hempty]
        · rw [if_neg hempty, getA_setA, if_neg hx]
      cases getA rest x with
      | none => exact hstep
      | some v =>
        show (if allPathsFor maps spm x = [] then getA (buildStep maps spm paths0 p) x
          else some (allPathsFor maps spm x)) =
          if allPathsFor maps spm x = [] then getA paths0 x
          else some (allPathsFor maps spm x)
        by_cases hempty : allPathsFor maps spm x = []
        · rw [if_pos hempty, if_pos hempty]; exact hstep
        · rw [if_neg hempty, if_neg hempty]

end RippleCheck

namespace RippleCheck

theorem mem_deepRootsOf (roots : List ImpactRoot) (r : ImpactRoot) :
    r ∈ deepRootsOf roots ↔
      r ∈ roots ∧ r.propagationMode = PropagationMode.deep := by
  unfold deepRootsOf
  rw [List.mem_filter]
  simp

theorem mem_shallowRootsOf (roots : List ImpactRoot) (r : ImpactRoot) :
    r ∈ shallowRootsOf roots ↔
      r ∈ roots ∧ r.propagationMode = PropagationMode.shallow := by
  unfold shallowRootsOf
  rw [List.mem_filter]
  simp

theorem reachRev_zero (graph : DependencyGraph) (root x : String)
    (h : ReachRev graph root x 0) : x = root := by
  cases h with
  | base => rfl

theorem pass1Of_some (roots : List ImpactRoot) (graph : DependencyGraph)
    (hWF : GraphWF graph) (x : String) (d : Nat)
    (h : getA (pass1Of roots graph).1 x = some d) :
    (∃ r ∈ deepRootsOf roots, IsMinDepth graph r.symbolId x d) ∧
    (∀ r ∈ deepRootsOf roots, ∀ dd, ReachRev graph r.symbolId x dd → d ≤ dd) := by
  obtain ⟨H1, -, -, -⟩ := pass1_fold_spec graph hWF (deepRootsOf roots) [] []
  obtain ⟨hach, -, hroots⟩ := H1 x d h
  refine ⟨?_, hroots⟩
  rcases hach with hg | h2
  · exact absurd hg (by simp [getA])
  · exact h2

theorem pass1Of_none (roots : List ImpactRoot) (graph : DependencyGraph)
    (hWF : GraphWF graph) (x : String)
    (h : getA (pass1Of roots graph).1 x = none) :
    ∀ r ∈ deepRootsOf roots, ∀ dd, ¬ ReachRev graph r.symbolId x dd := by
  obtain ⟨-, H2, -, -⟩ := pass1_fold_spec graph hWF (deepRootsOf roots) [] []
  exact (H2 x h).2

theorem pass1Of_isSome_of_reach (roots : List ImpactRoot) (graph : DependencyGraph)
    (hWF : GraphWF graph) (x : String) (r : ImpactRoot) (dd : Nat)
    (hr : r ∈ deepRootsOf roots) (hreach : ReachRev graph r.symbolId x dd) :
    (getA (pass1Of roots graph).1 x).isSome = true := by
  cases hg : getA (pass1Of roots graph).1 x with
  | none => exact absurd hreach (pass1Of_none roots graph hWF x hg r hr dd)
  | some d => rfl

theorem pass1Of_global_keys_nodup (roots : List ImpactRoot) (graph : DependencyGraph) :
    ((pass1Of roots graph).1.map Prod.fst).Nodup :=
  pass1_global_nodup graph (deepRootsOf roots) [] [] (by simp)

theorem pass1Of_parent_keys_nodup (roots : List ImpactRoot) (graph : DependencyGraph) :
    ((pass1Of roots graph).2.map Prod.fst).Nodup :=
  pass1_parent_keys_nodup graph (deepRootsOf roots) [] [] (by simp)

theorem pass1Of_parent_maps (roots : List ImpactRoot) (graph : DependencyGraph)
    (hWF : GraphWF graph) (rid : String) (pm : List (String × Option String))
    (h : getA (pass1Of roots graph).2 rid = some pm) :
    ∃ r ∈ deepRootsOf roots, r.symbolId = rid ∧
      ∃ gmid, pm = (bfsUnlimited rid graph gmid).perRootParent := by
  obtain ⟨-, -, H3, -⟩ := pass1_fold_spec graph hWF (deepRootsOf roots) [] []
  rcases H3 rid pm h with hm | h2
  · exact absurd hm (by simp [getA])
  · exact h2

theorem pass1Of_parent_covers (roots : List ImpactRoot) (graph : DependencyGraph)
    (r : ImpactRoot) (hr : r ∈ deepRootsOf roots) :
    (getA (pass1Of roots graph).2 r.symbolId).isSome = true :=
  pass1_parent_covers graph (deepRootsOf roots) [] [] r hr

theorem spmOf_some (roots : List ImpactRoot) (graph : DependencyGraph)
    (x s : String) (h : getA (shallowParentMapOf roots graph) x = some s) :
    ∃ r ∈ shallowRootsOf roots, s = r.symbolId ∧ x ∈ revAdj graph s ∧
      x ∉ rootSetOf roots ∧ (getA (pass1Of roots graph).1 x).isSome = false := by
  obtain ⟨-, H2, -, -⟩ := shallowOuter_fold graph (rootSetOf roots)
    (pass1Of roots graph).1 (shallowRootsOf roots) []
  rcases H2 x s h with hm | h2
  · exact absurd hm (by simp [getA])
  · exact h2

theorem spmOf_cover (roots : List ImpactRoot) (graph : DependencyGraph)
    (x : String) (r : ImpactRoot) (hr : r ∈ shallowRootsOf roots)
    (hadj : x ∈ revAdj graph r.symbolId) (hrs : x ∉ rootSetOf roots)
    (hdd : (getA (pass1Of roots graph).1 x).isSome = false) :
    (getA (shallowParentMapOf roots graph) x).isSome = true := by
  obtain ⟨-, -, H3, -⟩ := shallowOuter_fold graph (rootSetOf roots)
    (pass1Of roots graph).1 (shallowRootsOf roots) []
  exact H3 x r hr hadj hrs hdd

theorem spmOf_keys_nodup (roots : List ImpactRoot) (graph : DependencyGraph) :
    ((shallowParentMapOf roots graph).map Prod.fst).Nodup := by
  obtain ⟨-, -, -, H4⟩ := shallowOuter_fold graph (rootSetOf roots)
    (pass1Of roots graph).1 (shallowRootsOf roots) []
  exact H4 (by simp)

theorem depthMapOf_getA (roots : List ImpactRoot) (graph : DependencyGraph)
    (x : String) :
    getA (depthMapOf roots graph) x =
      if (getA (shallowParentMapOf roots graph) x).isSome = true then some 1
      else
        match getA (pass1Of roots graph).1 x with
        | some v => if x ∈ rootSetOf roots then none else some v
        | none => none := by
  unfold depthMapOf
  rw [depthMap2_fold]
  by_cases hs : (getA (shallowParentMapOf roots graph) x).isSome = true
  · rw [if_pos hs, if_pos hs]
  · rw [if_neg hs, if_neg hs]
    unfold depthMap1Of
    rw [depthMap1_fold (rootSetOf roots) (pass1Of roots graph).1
      (pass1Of_global_keys_nodup roots graph) [] x]
    cases getA (pass1Of roots graph).1 x with
    | none => rfl
    | some v =>
      show (if x ∈ rootSetOf roots then getA ([] : List (String × Nat)) x else some v) =
        if x ∈ rootSetOf roots then none else some v
      by_cases hr : x ∈ rootSetOf roots
      · rw [if_pos hr, if_pos hr]; rfl
      · rw [if_neg hr, if_neg hr]

theorem depthMapOf_keys_nodup (roots : List ImpactRoot) (graph : DependencyGraph) :
    ((depthMapOf roots graph).map Prod.fst).Nodup := by
  unfold depthMapOf
  apply depthMap2_nodup
  unfold depthMap1Of
  exact depthMap1_nodup (rootSetOf roots) (pass1Of roots graph).1 [] (by simp)

end RippleCheck

namespace RippleCheck

theorem depthMapOf_pos (roots : List ImpactRoot) (graph : DependencyGraph)
    (hWF : GraphWF graph) (x : String) (d : Nat)
    (h : getA (depthMapOf roots graph) x = some d) : 1 ≤ d := by
  rw [depthMapOf_getA] at h
  by_cases hs : (getA (shallowParentMapOf roots graph) x).isSome = true
  · rw [if_pos hs] at h
    have : d = 1 := (Option.some.inj h).symm
    omega
  · rw [if_neg hs] at h
    cases hg : getA (pass1Of roots graph).1 x with
    | none => rw [hg] at h; exact absurd h (by simp)
    | some v =>
      rw [hg] at h
      have h2 : (if x ∈ rootSetOf roots then (none : Option Nat) else some v) = some d := h
      by_cases hr : x ∈ rootSetOf roots
      · rw [if_pos hr] at h2; exact absurd h2 (by simp)
      · rw [if_neg hr] at h2
        have hd : v = d := Option.some.inj h2
        by_cases hv : v = 0
        · exfalso
          obtain ⟨⟨r, hrd, hmin⟩, -⟩ := pass1Of_some roots graph hWF x v hg
          rw [hv] at hmin
          have hx := reachRev_zero graph r.symbolId x hmin.1
          apply hr
          unfold rootSetOf
          apply List.mem_map.mpr
          exact ⟨r, ((mem_deepRootsOf roots r).mp hrd).1, hx.symm⟩
        · omega

theorem classifiedOf_eq (roots : List ImpactRoot) (graph : DependencyGraph) :
    classifiedOf roots graph =
      (((depthMapOf roots graph).filter (fun p => p.2 = 1)).map Prod.fst,
       ((depthMapOf roots graph).filter (fun p => ¬ p.2 = 1)).map Prod.fst) := by
  unfold classifiedOf
  rw [classified_fold]
  simp

theorem directImpact_iff (roots : List ImpactRoot) (graph : DependencyGraph)
    (x : String) :
    x ∈ (traverseImpactS roots graph).directImpact ↔
      getA (depthMapOf roots graph) x = some 1 := by
  show x ∈ (classifiedOf roots graph).1 ↔ _
  rw [classifiedOf_eq]
  exact mem_filter_one_iff (depthMapOf roots graph) (depthMapOf_keys_nodup roots graph) x

theorem indirectImpact_iff (roots : List ImpactRoot) (graph : DependencyGraph)
    (hWF : GraphWF graph) (x : String) :
    x ∈ (traverseImpactS roots graph).indirectImpact ↔
      ∃ d, getA (depthMapOf roots graph) x = some d ∧ 2 ≤ d := by
  show x ∈ (classifiedOf roots graph).2 ↔ _
  rw [classifiedOf_eq]
  show x ∈ ((depthMapOf roots graph).filter (fun p => ¬ p.2 = 1)).map Prod.fst ↔ _
  rw [mem_filter_ne_one_iff (depthMapOf roots graph) (depthMapOf_keys_nodup roots graph) x]
  constructor
  · rintro ⟨v, hv, hne⟩
    have := depthMapOf_pos roots graph hWF x v hv
    exact ⟨v, hv, by omega⟩
  · rintro ⟨d, hd, hge⟩
    exact ⟨d, hd, by omega⟩

end RippleCheck

namespace RippleCheck

theorem traverseImpactS_depthMap (roots : List ImpactRoot) (graph : DependencyGraph) :
    (traverseImpactS roots graph).depthMap = depthMapOf roots graph := rfl

theorem traverseImpactS_paths (roots : List ImpactRoot) (graph : DependencyGraph) :
    (traverseImpactS roots graph).paths =
      buildPaths (depthMapOf roots graph) (pass1Of roots graph).2
        (shallowParentMapOf roots graph) := rfl

theorem spmOf_isSome_false_of_pass1 (roots : List ImpactRoot) (graph : DependencyGraph)
    (x : String) (h : (getA (pass1Of roots graph).1 x).isSome = true) :
    (getA (shallowParentMapOf roots graph) x).isSome = false := by
  cases hs : getA (shallowParentMapOf roots graph) x with
  | none => rfl
  | some s =>
    obtain ⟨-, -, -, -, hnone⟩ := spmOf_some roots graph x s hs
    rcases spmOf_some roots graph x s hs with ⟨r, hr, hseq, hadj, hrs, hfalse⟩
    rw [h] at hfalse
    exact absurd hfalse (by simp)

end RippleCheck

namespace RippleCheck

/-- C1: `traverseImpact` classifies impacted symbols by true graph depth.
For every root list and every well-formed graph: (1) roots never appear in
`depthMap`, `directImpact` or `indirectImpact`; (2) every non-root node reached
by some deep root's BFS gets the minimum reverse-edge depth over all deep
roots, so a deep-reachable node is never downgraded by a shallow root; (3) a
non-root node reached by no deep root is recorded (at depth exactly 1) iff it
is a direct reverse neighbour of a shallow root; (4) `directImpact` is exactly
the set of ids at depth 1 and `indirectImpact` exactly those at depth >= 2. -/
theorem c1_depth_classification (roots : List ImpactRoot) (graph : DependencyGraph)
    (hWF : GraphWF graph) :
    (∀ r ∈ roots, getA (traverseImpact roots graph).depthMap r.symbolId = none ∧
        r.symbolId ∉ (traverseImpact roots graph).directImpact ∧
        r.symbolId ∉ (traverseImpact roots graph).indirectImpact) ∧
    (∀ x, x ∉ roots.map (fun r => r.symbolId) →
      ∀ r ∈ roots, r.propagationMode = PropagationMode.deep →
        ∀ dr, ReachRev graph r.symbolId x dr →
          ∃ d, getA (traverseImpact roots graph).depthMap x = some d ∧
            (∃ r2 ∈ roots, r2.propagationMode = PropagationMode.deep ∧
              IsMinDepth graph r2.symbolId x d) ∧
            (∀ r2 ∈ roots, r2.propagationMode = PropagationMode.deep →
              ∀ d2, ReachRev graph r2.symbolId x d2 → d ≤ d2)) ∧
    (∀ x, x ∉ roots.map (fun r => r.symbolId) →
        (∀ r ∈ roots, r.propagationMode = PropagationMode.deep →
          ∀ dd, ¬ ReachRev graph r.symbolId x dd) →
        (((getA (traverseImpact roots graph).depthMap x).isSome = true ↔
          ∃ r ∈ roots, r.propagationMode = PropagationMode.shallow ∧
            x ∈ revAdj graph r.symbolId) ∧
         ∀ d, getA (traverseImpact roots graph).depthMap x = some d → d = 1)) ∧
    (∀ x, (x ∈ (traverseImpact roots graph).directImpact ↔
        getA (traverseImpact roots graph).depthMap x = some 1) ∧
      (x ∈ (traverseImpact roots graph).indirectImpact ↔
        ∃ d, getA (traverseImpact roots graph).depthMap x = some d ∧ 2 ≤ d)) := by
  rw [traverseImpact_eq roots graph]
  rw [traverseImpactS_depthMap]
  refine ⟨?_, ?_, ?_, ?_⟩
  · -- roots excluded
    intro r hr
    have hrs : r.symbolId ∈ rootSetOf roots := by
      unfold rootSetOf
      exact List.mem_map.mpr ⟨r, hr, rfl⟩
    have hdm : getA (depthMapOf roots graph) r.symbolId = none := by
      rw [depthMapOf_getA]
      cases hs : getA (shallowParentMapOf roots graph) r.symbolId with
      | some s =>
        rcases spmOf_some roots graph r.symbolId s hs with ⟨-, -, -, -, hnr, -⟩
        exact absurd hrs hnr
      | none =>
        simp only [Option.isSome_none, Bool.false_eq_true, if_false]
        cases hg : getA (pass1Of roots graph).1 r.symbolId with
        | none => rfl
        | some v =>
          show (if r.symbolId ∈ rootSetOf roots then (none : Option Nat) else some v) = none
          rw [if_pos hrs]
    refine ⟨hdm, ?_, ?_⟩
    · intro hmem
      have := (directImpact_iff roots graph r.symbolId).mp hmem
      rw [hdm] at this
      exact absurd this (by simp)
    · intro hmem
      rcases (indirectImpact_iff roots graph hWF r.symbolId).mp hmem with ⟨d, hd, -⟩
      rw [hdm] at hd
      exact absurd hd (by simp)
  · -- deep-reached nodes: exact minimum depth over deep roots
    intro x hx r hr hdeep dr hreach
    have hx2 : x ∉ rootSetOf roots := hx
    have hrd : r ∈ deepRootsOf roots := (mem_deepRootsOf roots r).mpr ⟨hr, hdeep⟩
    have hsome := pass1Of_isSome_of_reach roots graph hWF x r dr hrd hreach
    rcases Option.isSome_iff_exists.mp hsome with ⟨v, hv⟩
    have hspm := spmOf_isSome_false_of_pass1 roots graph x hsome
    have hdm : getA (depthMapOf roots graph) x = some v := by
      rw [depthMapOf_getA, hspm]
      simp only [Bool.false_eq_true, if_false]
      rw [hv]
      show (if x ∈ rootSetOf roots then (none : Option Nat) else some v) = some v
      rw [if_neg hx2]
    obtain ⟨⟨r2, hr2, hmin⟩, hbnd⟩ := pass1Of_some roots graph hWF x v hv
    obtain ⟨hr2m, hr2d⟩ := (mem_deepRootsOf roots r2).mp hr2
    refine ⟨v, hdm, ⟨r2, hr2m, hr2d, hmin⟩, ?_⟩
    intro r3 hr3 hd3 d2 hreach2
    exact hbnd r3 ((mem_deepRootsOf roots r3).mpr ⟨hr3, hd3⟩) d2 hreach2
  · -- shallow-only nodes
    intro x hx hnone
    have hx2 : x ∉ rootSetOf roots := hx
    have hg : getA (pass1Of roots graph).1 x = none := by
      cases hg : getA (pass1Of roots graph).1 x with
      | none => rfl
      | some v =>
        obtain ⟨⟨r2, hr2, hmin⟩, -⟩ := pass1Of_some roots graph hWF x v hg
        obtain ⟨hr2m, hr2d⟩ := (mem_deepRootsOf roots r2).mp hr2
        exact absurd hmin.1 (hnone r2 hr2m hr2d v)
    have hgfalse : (getA (pass1Of roots graph).1 x).isSome = false := by
      rw [hg]; rfl
    constructor
    · constructor
      · intro hsome
        rcases Option.isSome_iff_exists.mp hsome with ⟨d, hd⟩
        rw [depthMapOf_getA] at hd
        cases hs : getA (shallowParentMapOf roots graph) x with
        | none =>
          have hf : (getA (shallowParentMapOf roots graph) x).isSome = false := by
            rw [hs]; rfl
          rw [hf] at hd
          simp only [Bool.false_eq_true, if_false] at hd
          rw [hg] at hd
          exact absurd hd (by simp)
        | some s =>
          rcases spmOf_some roots graph x s hs with ⟨r, hrm, hseq, hadj, -, -⟩
          obtain ⟨hrmem, hrsh⟩ := (mem_shallowRootsOf roots r).mp hrm
          refine ⟨r, hrmem, hrsh, ?_⟩
          rw [← hseq]
          exact hadj
      · rintro ⟨r, hrmem, hrsh, hadj⟩
        have hrm : r ∈ shallowRootsOf roots := (mem_shallowRootsOf roots r).mpr ⟨hrmem, hrsh⟩
        have hcov := spmOf_cover roots graph x r hrm hadj hx2 hgfalse
        rw [depthMapOf_getA, hcov]
        rfl
    · intro d hd
      rw [depthMapOf_getA] at hd
      by_cases hs : (getA (shallowParentMapOf roots graph) x).isSome = true
      · rw [if_pos hs] at hd
        exact (Option.some.inj hd).symm
      · rw [if_neg hs] at hd
        rw [hg] at hd
        exact absurd hd (by simp)
  · -- classification
    intro x
    exact ⟨directImpact_iff roots graph x, indirectImpact_iff roots graph hWF x⟩

end RippleCheck

namespace RippleCheck

/-- Concrete graph for exercising the C1 classification: `A→B`, `A→C`, `X→A`. -/
def c1Graph : DependencyGraph :=
  { forward := [("A", ["B", "C"]), ("X", ["A"])],
    reverse := [("B", ["A"]), ("C", ["A"]), ("A", ["X"])] }

/-- Concrete roots for exercising the C1 classification. -/
def c1Roots : List ImpactRoot :=
  [{ symbolId := "B", propagationMode := PropagationMode.deep,
     reason := RootReason.signatureRipple },
   { symbolId := "C", propagationMode := PropagationMode.shallow,
     reason := RootReason.bodyChange }]

theorem c1_depth_classification_witness :
    GraphWF c1Graph ∧
    ((∀ r ∈ c1Roots, getA (traverseImpact c1Roots c1Graph).depthMap r.symbolId = none ∧
        r.symbolId ∉ (traverseImpact c1Roots c1Graph).directImpact ∧
        r.symbolId ∉ (traverseImpact c1Roots c1Graph).indirectImpact) ∧
    (∀ x, x ∉ c1Roots.map (fun r => r.symbolId) →
      ∀ r ∈ c1Roots, r.propagationMode = PropagationMode.deep →
        ∀ dr, ReachRev c1Graph r.symbolId x dr →
          ∃ d, getA (traverseImpact c1Roots c1Graph).depthMap x = some d ∧
            (∃ r2 ∈ c1Roots, r2.propagationMode = PropagationMode.deep ∧
              IsMinDepth c1Graph r2.symbolId x d) ∧
            (∀ r2 ∈ c1Roots, r2.propagationMode = PropagationMode.deep →
              ∀ d2, ReachRev c1Graph r2.symbolId x d2 → d ≤ d2)) ∧
    (∀ x, x ∉ c1Roots.map (fun r => r.symbolId) →
        (∀ r ∈ c1Roots, r.propagationMode = PropagationMode.deep →
          ∀ dd, ¬ ReachRev c1Graph r.symbolId x dd) →
        (((getA (traverseImpact c1Roots c1Graph).depthMap x).isSome = true ↔
          ∃ r ∈ c1Roots, r.propagationMode = PropagationMode.shallow ∧
            x ∈ revAdj c1Graph r.symbolId) ∧
         ∀ d, getA (traverseImpact c1Roots c1Graph).depthMap x = some d → d = 1)) ∧
    (∀ x, (x ∈ (traverseImpact c1Roots c1Graph).directImpact ↔
        getA (traverseImpact c1Roots c1Graph).depthMap x = some 1) ∧
      (x ∈ (traverseImpact c1Roots c1Graph).indirectImpact ↔
        ∃ d, getA (traverseImpact c1Roots c1Graph).depthMap x = some d ∧ 2 ≤ d))) :=
  ⟨by decide, c1_depth_classification c1Roots c1Graph (by decide)⟩

end RippleCheck

namespace RippleCheck

theorem count_heads {β : Type} (rid : String) (F : String × β → List String)
    (C : String × β → Bool) :
    ∀ (maps : List (String × β)), (maps.map Prod.fst).Nodup →
      (∀ q ∈ maps, C q = true → (F q).head? = some q.1) →
      (∀ q ∈ maps, q.1 = rid → C q = true) →
      rid ∈ maps.map Prod.fst →
      (((maps.filter C).map F).filter (fun p => p.head? = some rid)).length = 1 := by
  intro maps
  induction maps with
  | nil => intro _ _ _ h; simp at h
  | cons q rest ih =>
    intro hnd hhead hC hmem
    have hndr : (rest.map Prod.fst).Nodup := by
      rw [List.map_cons] at hnd
      exact (List.nodup_cons.mp hnd).2
    have hqk : q.1 ∉ rest.map Prod.fst := by
      rw [List.map_cons] at hnd
      exact (List.nodup_cons.mp hnd).1
    by_cases hq : q.1 = rid
    · have hCq : C q = true := hC q (List.mem_cons_self q rest) hq
      have hhd : (F q).head? = some rid := by
        rw [hhead q (List.mem_cons_self q rest) hCq, hq]
      rw [List.filter_cons, if_pos hCq, List.map_cons, List.filter_cons]
      have hcond : ((F q).head? = some rid) := hhd
      rw [if_pos (by simpa using hcond)]
      have hzero : ((rest.filter C).map F).filter
          (fun p => p.head? = some rid) = [] := by
        apply List.filter_eq_nil.mpr
        intro p hp
        rcases List.mem_map.mp hp with ⟨q2, hq2, hq2p⟩
        rcases List.mem_filter.mp hq2 with ⟨hq2m, hq2C⟩
        have hh := hhead q2 (List.mem_cons_of_mem q hq2m) hq2C
        rw [← hq2p, hh]
        simp only [decide_eq_true_eq]
        intro he
        have : q2.1 = rid := Option.some.inj he
        apply hqk
        rw [hq, ← this]
        exact List.mem_map.mpr ⟨q2, hq2m, rfl⟩
      rw [hzero]
      rfl
    · have hmem2 : rid ∈ rest.map Prod.fst := by
        rw [List.map_cons] at hmem
        rcases List.mem_cons.mp hmem with h | h
        · exact absurd h.symm hq
        · exact h
      have hrec := ih hndr (fun q2 hq2 => hhead q2 (List.mem_cons_of_mem q hq2))
        (fun q2 hq2 => hC q2 (List.mem_cons_of_mem q hq2)) hmem2
      by_cases hCq : C q = true
      · rw [List.filter_cons, if_pos hCq, List.map_cons, List.filter_cons]
        have hhd : (F q).head? = some q.1 := hhead q (List.mem_cons_self q rest) hCq
        have hcond : ¬ ((F q).head? = some rid) := by
          rw [hhd]
          intro he
          exact hq (Option.some.inj he)
        rw [if_neg (by simpa using hcond)]
        exact hrec
      · rw [List.filter_cons, if_neg hCq]
        exact hrec

end RippleCheck

namespace RippleCheck

theorem pass1_entry_walk (roots : List ImpactRoot) (graph : DependencyGraph)
    (hWF : GraphWF graph) (x : String)
    (q : String × List (String × Option String))
    (hq : q ∈ (pass1Of roots graph).2)
    (hC : (getA q.2 x).isSome = true) :
    (walkOf q x).head? = some q.1 ∧ (walkOf q x).getLast? = some x ∧
    List.Chain' (fun a b => b ∈ revAdj graph a) (walkOf q x) ∧
    walkOf q x ≠ [] := by
  have hget : getA (pass1Of roots graph).2 q.1 = some q.2 := by
    apply getA_of_nodup_mem (pass1Of_parent_keys_nodup roots graph)
    cases q with
    | mk a b => exact hq
  rcases pass1Of_parent_maps roots graph hWF q.1 q.2 hget with ⟨r, hr, hrid, gmid, hpm⟩
  obtain ⟨hInv, -⟩ := bfsUnlimited_spec q.1 graph gmid hWF
  have hC2 : (getA (bfsUnlimited q.1 graph gmid).perRootParent x).isSome = true := by
    rw [← hpm]; exact hC
  have hloc : (getA (bfsUnlimited q.1 graph gmid).localDepth x).isSome = true := by
    rw [← hInv.parent_dom x]; exact hC2
  rcases Option.isSome_iff_exists.mp hloc with ⟨dx, hdx⟩
  rcases walkParent_full graph q.1 gmid hWF x dx hdx with ⟨l, hw, hlen, hhd, hlast, hch⟩
  have hwalk : walkOf q x = l ++ [x] := by
    unfold walkOf
    rw [hpm]
    exact hw
  rw [hwalk]
  exact ⟨hhd, hlast, hch, by simp⟩

theorem pass1_entry_of_reach (roots : List ImpactRoot) (graph : DependencyGraph)
    (hWF : GraphWF graph) (r : ImpactRoot) (hr : r ∈ deepRootsOf roots)
    (x : String) (dd : Nat) (hreach : ReachRev graph r.symbolId x dd) :
    ∃ pmr, getA (pass1Of roots graph).2 r.symbolId = some pmr ∧
      (getA pmr x).isSome = true := by
  have hcov := pass1Of_parent_covers roots graph r hr
  rcases Option.isSome_iff_exists.mp hcov with ⟨pmr, hpmr⟩
  refine ⟨pmr, hpmr, ?_⟩
  rcases pass1Of_parent_maps roots graph hWF r.symbolId pmr hpmr with ⟨r2, hr2, hrid2, gmid, hpm⟩
  obtain ⟨hInv, -⟩ := bfsUnlimited_spec r.symbolId graph gmid hWF
  rcases bfs_reach_discovered graph r.symbolId gmid hWF x dd hreach with ⟨dx, hdx, -⟩
  rw [hpm, hInv.parent_dom x, hdx]
  rfl

end RippleCheck

namespace RippleCheck

/-- C2: path completeness and chain validity.  Over a well-formed graph, every
id in `depthMap` has a non-empty `paths` entry; along every recorded path
consecutive elements are connected by a reverse edge and the last element is
the impacted id; and for every deep root whose BFS reaches the id, the entry
holds exactly one path whose first element is that root. -/
theorem c2_path_completeness (roots : List ImpactRoot) (graph : DependencyGraph)
    (hWF : GraphWF graph) :
    (∀ x d, getA (traverseImpact roots graph).depthMap x = some d →
      ∃ pl, getA (traverseImpact roots graph).paths x = some pl ∧ pl ≠ []) ∧
    (∀ x pl, getA (traverseImpact roots graph).paths x = some pl →
      (∀ p ∈ pl, p.getLast? = some x ∧
        List.Chain' (fun a b => b ∈ revAdj graph a) p) ∧
      (∀ r ∈ roots, r.propagationMode = PropagationMode.deep →
        (∃ dd, ReachRev graph r.symbolId x dd) →
        (pl.filter (fun p => p.head? = some r.symbolId)).length = 1)) := by
  rw [traverseImpact_eq roots graph, traverseImpactS_depthMap, traverseImpactS_paths]
  have hbp : ∀ x, getA (buildPaths (depthMapOf roots graph) (pass1Of roots graph).2
      (shallowParentMapOf roots graph)) x =
      match getA (depthMapOf roots graph) x with
      | some _ =>
          if allPathsFor (pass1Of roots graph).2 (shallowParentMapOf roots graph) x = []
          then getA ([] : List (String × List (List String))) x
          else some (allPathsFor (pass1Of roots graph).2 (shallowParentMapOf roots graph) x)
      | none => getA ([] : List (String × List (List String))) x := by
    intro x
    rw [buildPaths_eq_fold]
    exact buildPaths_getA (pass1Of roots graph).2 (shallowParentMapOf roots graph)
      (depthMapOf roots graph) (depthMapOf_keys_nodup roots graph) [] x
  constructor
  · -- every depthMap entry has a non-empty paths entry
    intro x d hdm
    have hne : allPathsFor (pass1Of roots graph).2 (shallowParentMapOf roots graph) x ≠ [] := by
      rw [depthMapOf_getA] at hdm
      by_cases hs : (getA (shallowParentMapOf roots graph) x).isSome = true
      · rcases Option.isSome_iff_exists.mp hs with ⟨sp, hsp⟩
        rw [allPathsFor_eq, hsp]
        simp
      · rw [if_neg hs] at hdm
        cases hg : getA (pass1Of roots graph).1 x with
        | none => rw [hg] at hdm; exact absurd hdm (by simp)
        | some v =>
          obtain ⟨⟨r, hr, hmin⟩, -⟩ := pass1Of_some roots graph hWF x v hg
          rcases pass1_entry_of_reach roots graph hWF r hr x v hmin.1 with ⟨pmr, hpmr, hpc⟩
          have hmem : (r.symbolId, pmr) ∈ (pass1Of roots graph).2 := getA_mem _ hpmr
          have hmemf : (r.symbolId, pmr) ∈
              (pass1Of roots graph).2.filter (fun q => (getA q.2 x).isSome) := by
            apply List.mem_filter.mpr
            exact ⟨hmem, by simpa using hpc⟩
          have hwmem : walkOf (r.symbolId, pmr) x ∈
              allPathsFor (pass1Of roots graph).2 (shallowParentMapOf roots graph) x := by
            rw [allPathsFor_eq]
            apply List.mem_append_left
            exact List.mem_map.mpr ⟨(r.symbolId, pmr), hmemf, rfl⟩
          exact List.ne_nil_of_mem hwmem
    have hval := hbp x
    rw [hdm] at hval
    have hval2 : getA (buildPaths (depthMapOf roots graph) (pass1Of roots graph).2
        (shallowParentMapOf roots graph)) x =
        if allPathsFor (pass1Of roots graph).2 (shallowParentMapOf roots graph) x = []
        then none
        else some (allPathsFor (pass1Of roots graph).2 (shallowParentMapOf roots graph) x) :=
      hval
    rw [if_neg hne] at hval2
    exact ⟨_, hval2, hne⟩
  · -- element validity and per-deep-root uniqueness
    intro x pl hpl
    have hval := hbp x
    cases hdm : getA (depthMapOf roots graph) x with
    | none =>
      rw [hdm] at hval
      have hval2 : getA (buildPaths (depthMapOf roots graph) (pass1Of roots graph).2
          (shallowParentMapOf roots graph)) x = none := hval
      rw [hpl] at hval2
      exact absurd hval2 (by simp)
    | some d =>
      rw [hdm] at hval
      have hval2 : getA (buildPaths (depthMapOf roots graph) (pass1Of roots graph).2
          (shallowParentMapOf roots graph)) x =
          if allPathsFor (pass1Of roots graph).2 (shallowParentMapOf roots graph) x = []
          then none
          else some (allPathsFor (pass1Of roots graph).2 (shallowParentMapOf roots graph) x) :=
        hval
      by_cases hne : allPathsFor (pass1Of roots graph).2 (shallowParentMapOf roots graph) x = []
      · rw [if_pos hne, hpl] at hval2
        exact absurd hval2.symm (by simp)
      · rw [if_neg hne, hpl] at hval2
        have hpleq : pl = allPathsFor (pass1Of roots graph).2
            (shallowParentMapOf roots graph) x := Option.some.inj hval2
        constructor
        · -- every path ends at x along reverse edges
          intro p hp
          rw [hpleq, allPathsFor_eq] at hp
          rcases List.mem_append.mp hp with hdeep | hsh
          · rcases List.mem_map.mp hdeep with ⟨q, hqf, hqp⟩
            rcases List.mem_filter.mp hqf with ⟨hqm, hqC⟩
            obtain ⟨-, hlast, hch, -⟩ :=
              pass1_entry_walk roots graph hWF x q hqm (by simpa using hqC)
            rw [← hqp]
            exact ⟨hlast, hch⟩
          · cases hs : getA (shallowParentMapOf roots graph) x with
            | none => rw [hs] at hsh; exact absurd hsh (by simp)
            | some sp =>
              rw [hs] at hsh
              have hpeq : p = [sp, x] := by simpa using hsh
              rcases spmOf_some roots graph x sp hs with ⟨r, hrm, hseq, hadj, -, -⟩
              rw [hpeq]
              refine ⟨rfl, ?_⟩
              simp [List.chain'_cons]
              exact hadj
        · -- exactly one path per reaching deep root
          rintro r hrmem hrdeep ⟨dd, hreach⟩
          have hrd : r ∈ deepRootsOf roots :=
            (mem_deepRootsOf roots r).mpr ⟨hrmem, hrdeep⟩
          have hgsome := pass1Of_isSome_of_reach roots graph hWF x r dd hrd hreach
          have hspmf := spmOf_isSome_false_of_pass1 roots graph x hgsome
          have hspm : getA (shallowParentMapOf roots graph) x = none := by
            cases hs : getA (shallowParentMapOf roots graph) x with
            | none => rfl
            | some sp => rw [hs] at hspmf; exact absurd hspmf (by simp)
          have hpleq2 : pl = ((pass1Of roots graph).2.filter
              (fun q => (getA q.2 x).isSome)).map (fun q => walkOf q x) := by
            rw [hpleq, allPathsFor_eq, hspm]
            simp
          rcases pass1_entry_of_reach roots graph hWF r hrd x dd hreach with ⟨pmr, hpmr, hpc⟩
          rw [hpleq2]
          apply count_heads r.symbolId (fun q => walkOf q x)
            (fun q => (getA q.2 x).isSome) (pass1Of roots graph).2
            (pass1Of_parent_keys_nodup roots graph)
          · intro q hq hC
            exact (pass1_entry_walk roots graph hWF x q hq hC).1
          · intro q hq hqrid
            have hgq : getA (pass1Of roots graph).2 q.1 = some q.2 := by
              apply getA_of_nodup_mem (pass1Of_parent_keys_nodup roots graph)
              cases q with
              | mk a b => exact hq
            rw [hqrid] at hgq
            rw [hgq] at hpmr
            have : q.2 = pmr := Option.some.inj hpmr
            rw [this]
            exact hpc
          · rw [← getA_isSome_iff]
            rw [hpmr]
            rfl

end RippleCheck

namespace RippleCheck

/-- Concrete graph for exercising C2: `A→B`, `X→A`, so `B`'s reverse closure
is `A` then `X`. -/
def c2Graph : DependencyGraph :=
  { forward := [("A", ["B"]), ("X", ["A"])],
    reverse := [("B", ["A"]), ("A", ["X"])] }

/-- Concrete roots for exercising C2: the deep root `B`. -/
def c2Roots : List ImpactRoot :=
  [{ symbolId := "B", propagationMode := PropagationMode.deep,
     reason := RootReason.deleted }]

theorem c2_path_completeness_witness :
    GraphWF c2Graph ∧
    ((∀ x d, getA (traverseImpact c2Roots c2Graph).depthMap x = some d →
      ∃ pl, getA (traverseImpact c2Roots c2Graph).paths x = some pl ∧ pl ≠ []) ∧
    (∀ x pl, getA (traverseImpact c2Roots c2Graph).paths x = some pl →
      (∀ p ∈ pl, p.getLast? = some x ∧
        List.Chain' (fun a b => b ∈ revAdj c2Graph a) p) ∧
      (∀ r ∈ c2Roots, r.propagationMode = PropagationMode.deep →
        (∃ dd, ReachRev c2Graph r.symbolId x dd) →
        (pl.filter (fun p => p.head? = some r.symbolId)).length = 1))) :=
  ⟨by decide, c2_path_completeness c2Roots c2Graph (by decide)⟩

end RippleCheck

namespace RippleCheck

/-- C10: all-shallow runs.  If every impact root propagates shallowly, every
recorded depth equals 1, `indirectImpact` is empty, and every recorded path is
a two-element chain: a shallow root followed by one of its reverse
neighbours. -/
theorem c10_all_shallow (roots : List ImpactRoot) (graph : DependencyGraph)
    (hsh : ∀ r ∈ roots, r.propagationMode = PropagationMode.shallow) :
    (∀ x d, getA (traverseImpact roots graph).depthMap x = some d → d = 1) ∧
    (traverseImpact roots graph).indirectImpact = [] ∧
    (∀ x pl, getA (traverseImpact roots graph).paths x = some pl →
      ∃ s, pl = [[s, x]] ∧ ∃ r ∈ roots, s = r.symbolId ∧ x ∈ revAdj graph s) := by
  rw [traverseImpact_eq roots graph, traverseImpactS_depthMap, traverseImpactS_paths]
  have hdr : deepRootsOf roots = [] := by
    unfold deepRootsOf
    apply List.filter_eq_nil.mpr
    intro r hr
    simp [hsh r hr]
  have hgnone : ∀ x, getA (pass1Of roots graph).1 x = none := by
    intro x
    unfold pass1Of
    rw [hdr]
    rfl
  have hdm : ∀ x, getA (depthMapOf roots graph) x =
      if (getA (shallowParentMapOf roots graph) x).isSome = true then some 1
      else none := by
    intro x
    rw [depthMapOf_getA]
    by_cases hs : (getA (shallowParentMapOf roots graph) x).isSome = true
    · rw [if_pos hs, if_pos hs]
    · rw [if_neg hs, if_neg hs, hgnone x]
  refine ⟨?_, ?_, ?_⟩
  · intro x d h
    rw [hdm x] at h
    by_cases hs : (getA (shallowParentMapOf roots graph) x).isSome = true
    · rw [if_pos hs] at h
      exact (Option.some.inj h).symm
    · rw [if_neg hs] at h
      exact absurd h (by simp)
  · show (classifiedOf roots graph).2 = []
    rw [classifiedOf_eq]
    have hmem1 : ∀ p ∈ depthMapOf roots graph, p.2 = 1 := by
      intro p hp
      have hget : getA (depthMapOf roots graph) p.1 = some p.2 := by
        apply getA_of_nodup_mem (depthMapOf_keys_nodup roots graph)
        cases p with
        | mk a b => exact hp
      rw [hdm p.1] at hget
      by_cases hs : (getA (shallowParentMapOf roots graph) p.1).isSome = true
      · rw [if_pos hs] at hget
        exact (Option.some.inj hget).symm
      · rw [if_neg hs] at hget
        exact absurd hget (by simp)
    have hfil : (depthMapOf roots graph).filter (fun p => ¬ p.2 = 1) = [] := by
      apply List.filter_eq_nil.mpr
      intro p hp
      simp [hmem1 p hp]
    rw [hfil]
    rfl
  · intro x pl hpl
    have hmaps : (pass1Of roots graph).2 = [] := by
      unfold pass1Of
      rw [hdr]
      rfl
    have hbp := buildPaths_getA (pass1Of roots graph).2 (shallowParentMapOf roots graph)
      (depthMapOf roots graph) (depthMapOf_keys_nodup roots graph) [] x
    rw [← buildPaths_eq_fold] at hbp
    cases hdmx : getA (depthMapOf roots graph) x with
    | none =>
      rw [hdmx] at hbp
      have hval : getA (buildPaths (depthMapOf roots graph) (pass1Of roots graph).2
          (shallowParentMapOf roots graph)) x = none := hbp
      rw [hpl] at hval
      exact absurd hval (by simp)
    | some d =>
      rw [hdmx] at hbp
      have hval : getA (buildPaths (depthMapOf roots graph) (pass1Of roots graph).2
          (shallowParentMapOf roots graph)) x =
          if allPathsFor (pass1Of roots graph).2 (shallowParentMapOf roots graph) x = []
          then none
          else some (allPathsFor (pass1Of roots graph).2
            (shallowParentMapOf roots graph) x) := hbp
      by_cases hne : allPathsFor (pass1Of roots graph).2
          (shallowParentMapOf roots graph) x = []
      · rw [if_pos hne, hpl] at hval
        exact absurd hval.symm (by simp)
      · rw [if_neg hne, hpl] at hval
        have hpleq : pl = allPathsFor (pass1Of roots graph).2
            (shallowParentMapOf roots graph) x := Option.some.inj hval
        rw [allPathsFor_eq, hmaps] at hpleq
        cases hs : getA (shallowParentMapOf roots graph) x with
        | none =>
          rw [hs] at hpleq
          rw [allPathsFor_eq, hmaps, hs] at hne
          exact absurd rfl hne
        | some sp =>
          rw [hs] at hpleq
          have hpleq2 : pl = [[sp, x]] := by simpa using hpleq
          rcases spmOf_some roots graph x sp hs with ⟨r, hrm, hseq, hadj, -, -⟩
          exact ⟨sp, hpleq2, r, ((mem_shallowRootsOf roots r).mp hrm).1, hseq, hadj⟩

end RippleCheck

namespace RippleCheck

/-- Concrete graph for exercising C10: `A→C`, with the single shallow root `C`. -/
def c10Graph : DependencyGraph :=
  { forward := [("A", ["C"])],
    reverse := [("C", ["A"])] }

/-- Concrete roots for exercising C10: the shallow root `C`. -/
def c10Roots : List ImpactRoot :=
  [{ symbolId := "C", propagationMode := PropagationMode.shallow,
     reason := RootReason.bodyChange }]

theorem c10_all_shallow_witness :
    (∀ r ∈ c10Roots, r.propagationMode = PropagationMode.shallow) ∧
    ((∀ x d, getA (traverseImpact c10Roots c10Graph).depthMap x = some d → d = 1) ∧
    (traverseImpact c10Roots c10Graph).indirectImpact = [] ∧
    (∀ x pl, getA (traverseImpact c10Roots c10Graph).paths x = some pl →
      ∃ s, pl = [[s, x]] ∧ ∃ r ∈ c10Roots, s = r.symbolId ∧ x ∈ revAdj c10Graph s)) :=
  ⟨by decide, c10_all_shallow c10Roots c10Graph (by decide)⟩

end RippleCheck

namespace RippleCheck

/-- JS regex `\s` on the ASCII range (space, tab, newline, carriage return,
vertical tab, form feed). -/
def isWS (c : Char) : Bool :=
  c = ' ' ∨ c = '\t' ∨ c = '\n' ∨ c = '\r' ∨ c = '\x0b' ∨ c = '\x0c'

/-- Helper for `collapseWs`: `prevWS` records whether the previous character
belonged to a whitespace run that has already emitted its single space. -/
def collapseWsAux : Bool → List Char → List Char
  | _, [] => []
  | prevWS, c :: rest =>
      if isWS c then
        if prevWS then collapseWsAux true rest
        else ' ' :: collapseWsAux true rest
      else c :: collapseWsAux false rest

/-- Embedding of `raw.replace(/\s+/g, ' ')`: collapse every whitespace run to
a single space. -/
def collapseWs (cs : List Char) : List Char :=
  collapseWsAux false cs

/-- Embedding of `String.prototype.trim` (applied after collapsing). -/
def trimWs (cs : List Char) : List Char :=
  ((cs.dropWhile (fun ch => isWS ch)).reverse.dropWhile (fun ch => isWS ch)).reverse

/-- Does the character sequence `s0 :: srest` occur in the text?  Embedding of
`text.includes(sep)`. -/
def containsSeq (s0 : Char) (srest : List Char) : List Char → Bool
  | [] => false
  | c :: rest => (decide (c = s0) && srest.isPrefixOf rest) || containsSeq s0 srest rest

/-- Embedding of `splitTopLevel`: split on the separator `s0 :: srest`, but
only at bracket depth 0.  The depth counter is an integer because the JS
counter may go negative on unbalanced input.  The extra `skip` argument
consumes the tail of a just-matched separator one character at a time, so the
recursion is structural on the text. -/
def splitTopLevelAux (s0 : Char) (srest : List Char) :
    Nat → List Char → Int → List Char → List (List Char)
  | _, [], _, acc => if acc.isEmpty then [] else [acc.reverse]
  | skip + 1, _ :: rest, depth, acc => splitTopLevelAux s0 srest skip rest depth acc
  | 0, c :: rest, depth, acc =>
      if c = '<' ∨ c = '{' ∨ c = '(' ∨ c = '[' then
        splitTopLevelAux s0 srest 0 rest (depth + 1) (c :: acc)
      else if c = '>' ∨ c = '}' ∨ c = ')' ∨ c = ']' then
        splitTopLevelAux s0 srest 0 rest (depth - 1) (c :: acc)
      else if depth = 0 ∧ c = s0 ∧ srest.isPrefixOf rest then
        acc.reverse :: splitTopLevelAux s0 srest srest.length rest 0 []
      else splitTopLevelAux s0 srest 0 rest depth (c :: acc)

def splitTopLevel (s0 : Char) (srest : List Char) (text : List Char) :
    List (List Char) :=
  splitTopLevelAux s0 srest 0 text 0 []

/-- JS default array sort comparator on strings: lexicographic by code unit. -/
def lexLe : List Char → List Char → Bool
  | [], _ => true
  | _ :: _, [] => false
  | a :: as, b :: bs =>
      if a.val < b.val then true
      else if b.val < a.val then false
      else lexLe as bs

def insertSorted (x : List Char) : List (List Char) → List (List Char)
  | [] => [x]
  | y :: ys => if lexLe x y then x :: y :: ys else y :: insertSorted x ys

/-- Embedding of `Array.prototype.sort()` on string arrays. -/
def sortLex (l : List (List Char)) : List (List Char) :=
  l.foldr insertSorted []

/-- The three ordering stages of `canonicalizeType`, applied to an already
whitespace-normalised type text. -/
def canonCore (s : List Char) : List Char :=
  let s1 :=
    if containsSeq ' ' ['|', ' '] s then
      let parts := splitTopLevel ' ' ['|', ' '] s
      if 1 < parts.length then
        List.intercalate [' ', '|', ' '] (sortLex (parts.map trimWs))
      else s
    else s
  let s2 :=
    if containsSeq ' ' ['&', ' '] s1 then
      let parts := splitTopLevel ' ' ['&', ' '] s1
      if 1 < parts.length then
        List.intercalate [' ', '&', ' '] (sortLex (parts.map trimWs))
      else s1
    else s1
  if s2.head? = some '{' ∧ s2.getLast? = some '}' then
    let inner := trimWs ((s2.drop 1).dropLast)
    let props := sortLex
      (((splitTopLevel ';' [' '] inner).map trimWs).filter (fun p => ¬ p.isEmpty))
    '{' :: ' ' :: (List.intercalate [';', ' '] props ++ [' ', '}'])
  else s2

/-- Embedding of `canonicalizeType`: collapse whitespace runs, trim, then sort
top-level union members, top-level intersection members, and object-literal
property signatures. -/
def canonicalizeType (raw : String) : String :=
  String.mk (canonCore (trimWs (collapseWs raw.data)))

end RippleCheck

namespace RippleCheck

/-- C9: signature canonicalization.  Canonicalizing `A | B | C` and
`C | A | B` (and likewise `A & B & C` and `C & A & B`) yields the same string,
so any hash of the canonical text — in the source, the truncated sha256 of
`hashText` — is identical; and two type texts that differ only in whitespace
runs (so they collapse and trim to the same character sequence) always hash
identically. -/
theorem c9_signature_canonicalization :
    (∀ hashText : String → String,
        hashText (canonicalizeType "A | B | C") =
          hashText (canonicalizeType "C | A | B")) ∧
    (∀ hashText : String → String,
        hashText (canonicalizeType "A & B & C") =
          hashText (canonicalizeType "C & A & B")) ∧
    (∀ s t : String, ∀ hashText : String → String,
        trimWs (collapseWs s.data) = trimWs (collapseWs t.data) →
        hashText (canonicalizeType s) = hashText (canonicalizeType t)) := by
  refine ⟨?_, ?_, ?_⟩
  · intro hashText
    exact congrArg hashText (by decide)
  · intro hashText
    exact congrArg hashText (by decide)
  · intro s t hashText h
    apply congrArg hashText
    unfold canonicalizeType
    rw [h]

theorem c9_signature_canonicalization_witness :
    trimWs (collapseWs ("A  |   B" : String).data) =
      trimWs (collapseWs ("A | B" : String).data) ∧
    canonicalizeType "A  |   B" = canonicalizeType "A | B" :=
  ⟨by decide,
   c9_signature_canonicalization.2.2 "A  |   B" "A | B" id (by decide)⟩

end RippleCheck

namespace RippleCheck

/-- Embedding of `ResolvedConfidence`. -/
inductive ResolvedConfidence where
  | high
  | medium
  | low
deriving DecidableEq

/-- Embedding of `CONFIDENCE_RANK`. -/
def CONFIDENCE_RANK : ResolvedConfidence → Nat
  | ResolvedConfidence.high => 2
  | ResolvedConfidence.medium => 1
  | ResolvedConfidence.low => 0

/-- Embedding of `demote`: drop one confidence tier, floor at `low`. -/
def demote : ResolvedConfidence → ResolvedConfidence
  | ResolvedConfidence.high => ResolvedConfidence.medium
  | ResolvedConfidence.medium => ResolvedConfidence.low
  | ResolvedConfidence.low => ResolvedConfidence.low

/-- Embedding of `maxConfidence`. -/
def maxConfidence (a b : ResolvedConfidence) : ResolvedConfidence :=
  if CONFIDENCE_RANK b ≤ CONFIDENCE_RANK a then a else b

/-- Embedding of `IntentDescriptor` (the fields used by the predictive
pipeline; `changeType` is the literal string union). -/
structure IntentDescriptor where
  prompt : String
  changeType : String
  symbolHints : List String
  fileHints : List String
  affectsPublicApi : Bool
deriving DecidableEq

/-- Embedding of `ResolvedSymbol`. -/
structure ResolvedSymbol where
  symbolId : String
  name : String
  filePath : String
  confidence : ResolvedConfidence
  matchedHints : List String
deriving DecidableEq

/-- Embedding of `ResolvedIntent`. -/
structure ResolvedIntent where
  descriptor : IntentDescriptor
  symbols : List ResolvedSymbol
  symbolIds : List String
  isRelevant : Bool
deriving DecidableEq

/-- Embedding of `VirtualDiffResult`. -/
structure VirtualDiffResult where
  roots : List ImpactRoot
  shadowIndex : List (String × SymbolEntry)
  shadowGraph : DependencyGraph
  phantomIds : List String
deriving DecidableEq

/-- Embedding of `cloneGraph`: a value copy of both adjacency maps (sharing is
unobservable in the functional model). -/
def cloneGraph (graph : DependencyGraph) : DependencyGraph :=
  { forward := graph.forward, reverse := graph.reverse }

/-- Embedding of `classifyRoot`.  The JS switch's default branch handles every
non-delete change type via `affectsPublicApi`. -/
def classifyRoot (changeType : String) (affectsPublicApi : Bool) :
    Option (RootReason × PropagationMode) :=
  if changeType = "delete" then
    some (RootReason.deleted, PropagationMode.deep)
  else if affectsPublicApi then
    some (RootReason.signatureRipple, PropagationMode.deep)
  else
    some (RootReason.bodyChange, PropagationMode.shallow)

/-- The synthetic `SymbolEntry` inserted for an unresolved `add` hint. -/
def phantomEntry (hint : String) : SymbolEntry :=
  { id := "__phantom__#" ++ hint, name := hint, kind := "function",
    filePath := "", startLine := 0, endLine := 0, startPos := 0, endPos := 0,
    isExported := true, parentId := none, signatureHash := "" }

/-- Embedding of `buildVirtualDiff`: shadow-copies of index and graph,
synthetic impact roots classified from the change type, phantoms for
unresolved `add` hints, and priority deduplication. -/
def buildVirtualDiff (resolvedIntent : ResolvedIntent)
    (symbolIndex : List (String × SymbolEntry)) (graph : DependencyGraph) :
    VirtualDiffResult :=
  let changeType := resolvedIntent.descriptor.changeType
  let classification := classifyRoot changeType resolvedIntent.descriptor.affectsPublicApi
  let pass := resolvedIntent.symbols.foldl
    (fun (acc : List (String × SymbolEntry) × List ImpactRoot) sym =>
      if changeType = "delete" then
        (delA acc.1 sym.symbolId,
         acc.2 ++ [{ symbolId := sym.symbolId,
                     propagationMode := PropagationMode.deep,
                     reason := RootReason.deleted }])
      else
        match classification with
        | some cls =>
            (acc.1, acc.2 ++ [{ symbolId := sym.symbolId,
                                propagationMode := cls.2,
                                reason := cls.1 }])
        | none => (acc.1, acc.2))
    (symbolIndex, ([] : List ImpactRoot))
  let phantomPass :=
    if changeType = "add" then
      let resolvedNames := resolvedIntent.symbols.map (fun s => s.name.toLower)
      resolvedIntent.descriptor.symbolHints.foldl
        (fun (acc : List (String × SymbolEntry) × List String) hint =>
          if hint.toLower ∈ resolvedNames then acc
          else
            let phantomId := "__phantom__#" ++ hint
            if (getA acc.1 phantomId).isSome then acc
            else (setA acc.1 phantomId (phantomEntry hint), acc.2 ++ [phantomId]))
        (pass.1, ([] : List String))
    else (pass.1, ([] : List String))
  let rootMap := pass.2.foldl
    (fun (rm : List (String × ImpactRoot)) candidate =>
      match getA rm candidate.symbolId with
      | none => setA rm candidate.symbolId candidate
      | some existing =>
          if REASON_PRIORITY existing.reason < REASON_PRIORITY candidate.reason then
            setA rm candidate.symbolId candidate
          else rm)
    ([] : List (String × ImpactRoot))
  { roots := rootMap.map Prod.snd,
    shadowIndex := phantomPass.1,
    shadowGraph := cloneGraph graph,
    phantomIds := phantomPass.2 }

/-- Embedding of `emptyBlastResult`. -/
def emptyBlastResult (roots : List ImpactRoot) : BlastRadiusResult :=
  { roots := roots, directImpact := [], indirectImpact := [],
    depthMap := [], paths := [], stagedGraph := none }

/-- `id.slice(0, id.lastIndexOf('#'))` as an optional file path. -/
def fileOfId (id : String) : Option String :=
  if '#' ∈ id.data then
    some (String.mk (((id.data.reverse.dropWhile (fun c => ¬ c = '#')).drop 1).reverse))
  else none

/-- The absolute files of the symbols being deleted (empty slices dropped,
as by `filter(Boolean)`). -/
def deletedAbsFilesOf (symbols : List ResolvedSymbol) : List String :=
  (symbols.map (fun s => (fileOfId s.symbolId).getD "")).filter (fun f => ¬ f = "")

/-- Embedding of `isInDeletedFile`. -/
def isInDeletedFile (deletedAbsFiles : List String) (id : String) : Bool :=
  match fileOfId id with
  | some f => f ∈ deletedAbsFiles
  | none => false

/-- The root-id → resolver-confidence table. -/
def rootConfidenceOf (symbols : List ResolvedSymbol) :
    List (String × ResolvedConfidence) :=
  symbols.foldl (fun m s => setA m s.symbolId s.confidence) []

/-- One step of the per-symbol confidence loop: `path[0]` is looked up in the
resolver table; unknown roots are skipped; the depth penalty demotes one tier
at depth ≥ 2. -/
def confStep (rootConf : List (String × ResolvedConfidence)) (depth : Nat)
    (best : ResolvedConfidence) (path : List String) : ResolvedConfidence :=
  match path.head? with
  | none => best
  | some rootId =>
      match getA rootConf rootId with
      | none => best
      | some rc => maxConfidence best (if depth ≤ 1 then rc else demote rc)

/-- The confidence recorded for one impacted symbol. -/
def bestConfidence (rootConf : List (String × ResolvedConfidence)) (depth : Nat)
    (symbolPaths : List (List String)) : ResolvedConfidence :=
  symbolPaths.foldl (confStep rootConf depth) ResolvedConfidence.low

/-- The whole per-symbol confidence map. -/
def confidenceMapOf (rootConf : List (String × ResolvedConfidence))
    (depthMap : List (String × Nat))
    (paths : List (String × List (List String))) :
    List (String × ResolvedConfidence) :=
  depthMap.foldl
    (fun cm p => setA cm p.1 (bestConfidence rootConf p.2 ((getA paths p.1).getD [])))
    ([] : List (String × ResolvedConfidence))

/-- Embedding of `PredictiveBlastRadiusResult`. -/
structure PredictiveBlastRadiusResult where
  roots : List ImpactRoot
  directImpact : List String
  indirectImpact : List String
  depthMap : List (String × Nat)
  paths : List (String × List (List String))
  stagedGraph : Option DependencyGraph
  confidenceMap : List (String × ResolvedConfidence)
  phantomIds : List String
  isRelevant : Bool
  resolvedRoots : List ResolvedSymbol
  changeType : String
deriving DecidableEq

/-- Embedding of `computePredictiveBlastRadius`: virtual diff, phantom filter,
BFS on the live graph, per-symbol confidence with depth penalty, and the
delete-intent same-file post-filter. -/
def computePredictiveBlastRadius (resolvedIntent : ResolvedIntent)
    (symbolIndex : List (String × SymbolEntry)) (graph : DependencyGraph) :
    PredictiveBlastRadiusResult :=
  let vd := buildVirtualDiff resolvedIntent symbolIndex graph
  let bfsRoots := vd.roots.filter (fun r => ¬ r.symbolId ∈ vd.phantomIds)
  let blastResult :=
    if 0 < bfsRoots.length then traverseImpact bfsRoots graph
    else emptyBlastResult bfsRoots
  let rootConf := rootConfidenceOf resolvedIntent.symbols
  let confidenceMap := confidenceMapOf rootConf blastResult.depthMap blastResult.paths
  if resolvedIntent.descriptor.changeType = "delete" ∧
      0 < resolvedIntent.symbols.length then
    let deletedAbsFiles := deletedAbsFilesOf resolvedIntent.symbols
    let f := blastResult.depthMap.foldl
      (fun (acc : List (String × Nat) × List (String × List (List String)) ×
              List (String × ResolvedConfidence)) p =>
        if isInDeletedFile deletedAbsFiles p.1 then acc
        else
          (setA acc.1 p.1 p.2,
           (match getA blastResult.paths p.1 with
            | some pp => setA acc.2.1 p.1 pp
            | none => acc.2.1),
           (match getA confidenceMap p.1 with
            | some cc => setA acc.2.2 p.1 cc
            | none => acc.2.2)))
      (([] : List (String × Nat)), ([] : List (String × List (List String))),
       ([] : List (String × ResolvedConfidence)))
    { roots := blastResult.roots,
      directImpact := blastResult.directImpact.filter
        (fun id => ¬ isInDeletedFile deletedAbsFiles id = true),
      indirectImpact := blastResult.indirectImpact.filter
        (fun id => ¬ isInDeletedFile deletedAbsFiles id = true),
      depthMap := f.1,
      paths := f.2.1,
      stagedGraph := some vd.shadowGraph,
      confidenceMap := f.2.2,
      phantomIds := vd.phantomIds,
      isRelevant := resolvedIntent.isRelevant,
      resolvedRoots := resolvedIntent.symbols,
      changeType := resolvedIntent.descriptor.changeType }
  else
    { roots := blastResult.roots,
      directImpact := blastResult.directImpact,
      indirectImpact := blastResult.indirectImpact,
      depthMap := blastResult.depthMap,
      paths := blastResult.paths,
      stagedGraph := some vd.shadowGraph,
      confidenceMap := confidenceMap,
      phantomIds := vd.phantomIds,
      isRelevant := resolvedIntent.isRelevant,
      resolvedRoots := resolvedIntent.symbols,
      changeType := resolvedIntent.descriptor.changeType }

end RippleCheck

namespace RippleCheck

theorem rank_le_maxConfidence_left (a b : ResolvedConfidence) :
    CONFIDENCE_RANK a ≤ CONFIDENCE_RANK (maxConfidence a b) := by
  unfold maxConfidence
  by_cases h : CONFIDENCE_RANK b ≤ CONFIDENCE_RANK a
  · rw [if_pos h]
  · rw [if_neg h]
    omega

theorem rank_le_maxConfidence_right (a b : ResolvedConfidence) :
    CONFIDENCE_RANK b ≤ CONFIDENCE_RANK (maxConfidence a b) := by
  unfold maxConfidence
  by_cases h : CONFIDENCE_RANK b ≤ CONFIDENCE_RANK a
  · rw [if_pos h]
    exact h
  · rw [if_neg h]

theorem maxConfidence_eq_or (a b : ResolvedConfidence) :
    maxConfidence a b = a ∨ maxConfidence a b = b := by
  unfold maxConfidence
  by_cases h : CONFIDENCE_RANK b ≤ CONFIDENCE_RANK a
  · rw [if_pos h]
    exact Or.inl rfl
  · rw [if_neg h]
    exact Or.inr rfl

theorem rank_demote_le (c : ResolvedConfidence) :
    CONFIDENCE_RANK (demote c) ≤ CONFIDENCE_RANK c := by
  cases c <;> decide

theorem confStep_skip_none (rootConf : List (String × ResolvedConfidence))
    (depth : Nat) (best : ResolvedConfidence) (path : List String)
    (hh : path.head? = none) : confStep rootConf depth best path = best := by
  unfold confStep
  rw [hh]

theorem confStep_skip_unknown (rootConf : List (String × ResolvedConfidence))
    (depth : Nat) (best : ResolvedConfidence) (path : List String) (rootId : String)
    (hh : path.head? = some rootId) (hg : getA rootConf rootId = none) :
    confStep rootConf depth best path = best := by
  unfold confStep
  rw [hh]
  show (match getA rootConf rootId with
        | none => best
        | some rc => maxConfidence best (if depth ≤ 1 then rc else demote rc)) = best
  rw [hg]

theorem confStep_eval (rootConf : List (String × ResolvedConfidence)) (depth : Nat)
    (best : ResolvedConfidence) (path : List String) (rootId : String)
    (rc : ResolvedConfidence) (hh : path.head? = some rootId)
    (hg : getA rootConf rootId = some rc) :
    confStep rootConf depth best path =
      maxConfidence best (if depth ≤ 1 then rc else demote rc) := by
  unfold confStep
  rw [hh]
  show (match getA rootConf rootId with
        | none => best
        | some rc2 => maxConfidence best (if depth ≤ 1 then rc2 else demote rc2)) =
      maxConfidence best (if depth ≤ 1 then rc else demote rc)
  rw [hg]

theorem confStep_cases (rootConf : List (String × ResolvedConfidence)) (depth : Nat)
    (best : ResolvedConfidence) (path : List String) :
    confStep rootConf depth best path = best ∨
      ∃ rootId rc, path.head? = some rootId ∧ getA rootConf rootId = some rc ∧
        confStep rootConf depth best path =
          maxConfidence best (if depth ≤ 1 then rc else demote rc) := by
  cases hh : path.head? with
  | none => exact Or.inl (confStep_skip_none rootConf depth best path hh)
  | some rootId =>
    cases hg : getA rootConf rootId with
    | none => exact Or.inl (confStep_skip_unknown rootConf depth best path rootId hh hg)
    | some rc =>
      exact Or.inr ⟨rootId, rc, rfl, hg,
        confStep_eval rootConf depth best path rootId rc hh hg⟩

theorem bestFold_mono (rootConf : List (String × ResolvedConfidence)) (depth : Nat) :
    ∀ (paths : List (List String)) (b0 : ResolvedConfidence),
      CONFIDENCE_RANK b0 ≤
        CONFIDENCE_RANK (paths.foldl (confStep rootConf depth) b0) := by
  intro paths
  induction paths with
  | nil => intro b0; exact Nat.le_refl _
  | cons p rest ih =>
    intro b0
    rw [List.foldl_cons]
    rcases confStep_cases rootConf depth b0 p with h | ⟨rootId, rc, hh, hg, h⟩
    · rw [h]; exact ih b0
    · rw [h]
      exact Nat.le_trans (rank_le_maxConfidence_left _ _) (ih _)

theorem bestFold_bound (rootConf : List (String × ResolvedConfidence)) (depth : Nat) :
    ∀ (paths : List (List String)) (b0 : ResolvedConfidence),
      ∀ path ∈ paths, ∀ rootId, path.head? = some rootId →
      ∀ rc, getA rootConf rootId = some rc →
        CONFIDENCE_RANK (if depth ≤ 1 then rc else demote rc) ≤
          CONFIDENCE_RANK (paths.foldl (confStep rootConf depth) b0) := by
  intro paths
  induction paths with
  | nil => intro b0 path hp; exact absurd hp (by simp)
  | cons p rest ih =>
    intro b0 path hp rootId hh rc hg
    rw [List.foldl_cons]
    rcases List.mem_cons.mp hp with hp0 | hpr
    · rw [hp0] at hh
      rw [confStep_eval rootConf depth b0 p rootId rc hh hg]
      exact Nat.le_trans (rank_le_maxConfidence_right _ _) (bestFold_mono rootConf depth rest _)
    · exact ih _ path hpr rootId hh rc hg

theorem bestFold_achieved (rootConf : List (String × ResolvedConfidence)) (depth : Nat) :
    ∀ (paths : List (List String)) (b0 : ResolvedConfidence),
      paths.foldl (confStep rootConf depth) b0 = b0 ∨
        ∃ path ∈ paths, ∃ rootId rc,
          path.head? = some rootId ∧ getA rootConf rootId = some rc ∧
          paths.foldl (confStep rootConf depth) b0 =
            (if depth ≤ 1 then rc else demote rc) := by
  intro paths
  induction paths with
  | nil => intro b0; exact Or.inl rfl
  | cons p rest ih =>
    intro b0
    rw [List.foldl_cons]
    rcases ih (confStep rootConf depth b0 p) with h | ⟨path, hp, rootId, rc, hh, hg, h⟩
    · rw [h]
      rcases confStep_cases rootConf depth b0 p with h2 | ⟨rootId, rc, hh, hg, h2⟩
      · rw [h2]; exact Or.inl rfl
      · rw [h2]
        rcases maxConfidence_eq_or b0 (if depth ≤ 1 then rc else demote rc) with h3 | h3
        · rw [h3]; exact Or.inl rfl
        · rw [h3]
          exact Or.inr ⟨p, List.mem_cons_self p rest, rootId, rc, hh, hg, rfl⟩
    · exact Or.inr ⟨path, List.mem_cons_of_mem p hp, rootId, rc, hh, hg, h⟩

theorem confidenceMapOf_fold (rootConf : List (String × ResolvedConfidence))
    (paths : List (String × List (List String))) :
    ∀ (dm : List (String × Nat)), (dm.map Prod.fst).Nodup →
      ∀ (cm0 : List (String × ResolvedConfidence)) (x : String),
      getA (dm.foldl
        (fun cm p => setA cm p.1 (bestConfidence rootConf p.2 ((getA paths p.1).getD [])))
        cm0) x =
        match getA dm x with
        | some depth => some (bestConfidence rootConf depth ((getA paths x).getD []))
        | none => getA cm0 x := by
  intro dm
  induction dm with
  | nil => intro _ cm0 x; rfl
  | cons p rest ih =>
    intro hnd cm0 x
    have hndr : (rest.map Prod.fst).Nodup := by
      rw [List.map_cons] at hnd
      exact (List.nodup_cons.mp hnd).2
    have hpk : p.1 ∉ rest.map Prod.fst := by
      rw [List.map_cons] at hnd
      exact (List.nodup_cons.mp hnd).1
    rw [List.foldl_cons, ih hndr]
    by_cases hx : x = p.1
    · have hrest : getA rest x = none := by
        rw [getA_eq_none_iff, hx]
        exact hpk
      have hdd : getA (p :: rest) x = some p.2 := by
        rw [getA, if_pos hx.symm]
      rw [hrest, hdd]
      show getA (setA cm0 p.1 (bestConfidence rootConf p.2 ((getA paths p.1).getD []))) x =
        some (bestConfidence rootConf p.2 ((getA paths x).getD []))
      rw [getA_setA, if_pos hx, hx]
    · have hdd : getA (p :: rest) x = getA rest x := by
        rw [getA]
        have : ¬ p.1 = x := fun hh => hx hh.symm
        rw [if_neg this]
      rw [hdd]
      have hstep : getA (setA cm0 p.1
          (bestConfidence rootConf p.2 ((getA paths p.1).getD []))) x = getA cm0 x := by
        rw [getA_setA, if_neg hx]
      cases getA rest x with
      | none => exact hstep
      | some v => rfl

end RippleCheck

namespace RippleCheck

/-- The phantom-filtered BFS roots of the predictive pipeline. -/
def bfsRootsOf (ri : ResolvedIntent) (si : List (String × SymbolEntry))
    (g : DependencyGraph) : List ImpactRoot :=
  (buildVirtualDiff ri si g).roots.filter
    (fun r => ¬ r.symbolId ∈ (buildVirtualDiff ri si g).phantomIds)

/-- The blast-radius result the predictive pipeline computes. -/
def blastOf (ri : ResolvedIntent) (si : List (String × SymbolEntry))
    (g : DependencyGraph) : BlastRadiusResult :=
  if 0 < (bfsRootsOf ri si g).length then traverseImpact (bfsRootsOf ri si g) g
  else emptyBlastResult (bfsRootsOf ri si g)

/-- The unfiltered per-symbol confidence map of the predictive pipeline. -/
def confMapOf0 (ri : ResolvedIntent) (si : List (String × SymbolEntry))
    (g : DependencyGraph) : List (String × ResolvedConfidence) :=
  confidenceMapOf (rootConfidenceOf ri.symbols) (blastOf ri si g).depthMap
    (blastOf ri si g).paths

/-- One step of the delete-intent post-filter. -/
def deleteFoldStep (D : List String) (bp : List (String × List (List String)))
    (cm : List (String × ResolvedConfidence))
    (acc : List (String × Nat) × List (String × List (List String)) ×
      List (String × ResolvedConfidence)) (p : String × Nat) :
    List (String × Nat) × List (String × List (List String)) ×
      List (String × ResolvedConfidence) :=
  if isInDeletedFile D p.1 then acc
  else
    (setA acc.1 p.1 p.2,
     (match getA bp p.1 with
      | some pp => setA acc.2.1 p.1 pp
      | none => acc.2.1),
     (match getA cm p.1 with
      | some cc => setA acc.2.2 p.1 cc
      | none => acc.2.2))

/-- `computePredictiveBlastRadius` rephrased through the named stages. -/
def computePredictiveS (ri : ResolvedIntent) (si : List (String × SymbolEntry))
    (g : DependencyGraph) : PredictiveBlastRadiusResult :=
  if ri.descriptor.changeType = "delete" ∧ 0 < ri.symbols.length then
    let deletedAbsFiles := deletedAbsFilesOf ri.symbols
    let f := (blastOf ri si g).depthMap.foldl
      (deleteFoldStep deletedAbsFiles (blastOf ri si g).paths (confMapOf0 ri si g))
      (([] : List (String × Nat)), ([] : List (String × List (List String))),
       ([] : List (String × ResolvedConfidence)))
    { roots := (blastOf ri si g).roots,
      directImpact := (blastOf ri si g).directImpact.filter
        (fun id => ¬ isInDeletedFile deletedAbsFiles id = true),
      indirectImpact := (blastOf ri si g).indirectImpact.filter
        (fun id => ¬ isInDeletedFile deletedAbsFiles id = true),
      depthMap := f.1,
      paths := f.2.1,
      stagedGraph := some (buildVirtualDiff ri si g).shadowGraph,
      confidenceMap := f.2.2,
      phantomIds := (buildVirtualDiff ri si g).phantomIds,
      isRelevant := ri.isRelevant,
      resolvedRoots := ri.symbols,
      changeType := ri.descriptor.changeType }
  else
    { roots := (blastOf ri si g).roots,
      directImpact := (blastOf ri si g).directImpact,
      indirectImpact := (blastOf ri si g).indirectImpact,
      depthMap := (blastOf ri si g).depthMap,
      paths := (blastOf ri si g).paths,
      stagedGraph := some (buildVirtualDiff ri si g).shadowGraph,
      confidenceMap := confMapOf0 ri si g,
      phantomIds := (buildVirtualDiff ri si g).phantomIds,
      isRelevant := ri.isRelevant,
      resolvedRoots := ri.symbols,
      changeType := ri.descriptor.changeType }

theorem computePredictive_eq (ri : ResolvedIntent) (si : List (String × SymbolEntry))
    (g : DependencyGraph) :
    computePredictiveBlastRadius ri si g = computePredictiveS ri si g := rfl

theorem blastOf_depthMap_nodup (ri : ResolvedIntent) (si : List (String × SymbolEntry))
    (g : DependencyGraph) : ((blastOf ri si g).depthMap.map Prod.fst).Nodup := by
  unfold blastOf
  by_cases h : 0 < (bfsRootsOf ri si g).length
  · rw [if_pos h, traverseImpact_eq, traverseImpactS_depthMap]
    exact depthMapOf_keys_nodup (bfsRootsOf ri si g) g
  · rw [if_neg h]
    simp [emptyBlastResult]

end RippleCheck

namespace RippleCheck

theorem deleteFold_spec (D : List String) (bp : List (String × List (List String)))
    (cm : List (String × ResolvedConfidence)) :
    ∀ (dm : List (String × Nat)), (dm.map Prod.fst).Nodup →
      ∀ (a : List (String × Nat) × List (String × List (List String)) ×
          List (String × ResolvedConfidence)) (x : String),
      (getA (dm.foldl (deleteFoldStep D bp cm) a).1 x =
        (match getA dm x with
         | some d => if isInDeletedFile D x then getA a.1 x else some d
         | none => getA a.1 x)) ∧
      (getA (dm.foldl (deleteFoldStep D bp cm) a).2.1 x =
        (match getA dm x with
         | some _ =>
            if isInDeletedFile D x then getA a.2.1 x
            else
              (match getA bp x with
               | some pp => some pp
               | none => getA a.2.1 x)
         | none => getA a.2.1 x)) ∧
      (getA (dm.foldl (deleteFoldStep D bp cm) a).2.2 x =
        (match getA dm x with
         | some _ =>
            if isInDeletedFile D x then getA a.2.2 x
            else
              (match getA cm x with
               | some cc => some cc
               | none => getA a.2.2 x)
         | none => getA a.2.2 x)) := by
  intro dm
  induction dm with
  | nil => intro _ a x; exact ⟨rfl, rfl, rfl⟩
  | cons p rest ih =>
    intro hnd a x
    have hndr : (rest.map Prod.fst).Nodup := by
      rw [List.map_cons] at hnd
      exact (List.nodup_cons.mp hnd).2
    have hpk : p.1 ∉ rest.map Prod.fst := by
      rw [List.map_cons] at hnd
      exact (List.nodup_cons.mp hnd).1
    rw [List.foldl_cons]
    obtain ⟨ih1, ih2, ih3⟩ := ih hndr (deleteFoldStep D bp cm a p) x
    by_cases hx : x = p.1
    · have hrest : getA rest x = none := by
        rw [getA_eq_none_iff, hx]
        exact hpk
      have hdd : getA (p :: rest) x = some p.2 := by
        rw [getA, if_pos hx.symm]
      rw [ih1, ih2, ih3, hrest, hdd]
      by_cases hdelx : isInDeletedFile D x = true
      · have hdelp : isInDeletedFile D p.1 = true := by rw [← hx]; exact hdelx
        have hstep : deleteFoldStep D bp cm a p = a := by
          unfold deleteFoldStep
          rw [if_pos hdelp]
        rw [hstep]
        refine ⟨?_, ?_, ?_⟩
        · show getA a.1 x = if isInDeletedFile D x then getA a.1 x else some p.2
          rw [if_pos hdelx]
        · show getA a.2.1 x = if isInDeletedFile D x then getA a.2.1 x else _
          rw [if_pos hdelx]
        · show getA a.2.2 x = if isInDeletedFile D x then getA a.2.2 x else _
          rw [if_pos hdelx]
      · have hdelp : ¬ isInDeletedFile D p.1 = true := by rw [← hx]; exact hdelx
        have hstep : deleteFoldStep D bp cm a p =
            (setA a.1 p.1 p.2,
             (match getA bp p.1 with
              | some pp => setA a.2.1 p.1 pp
              | none => a.2.1),
             (match getA cm p.1 with
              | some cc => setA a.2.2 p.1 cc
              | none => a.2.2)) := by
          unfold deleteFoldStep
          rw [if_neg hdelp]
        rw [hstep]
        refine ⟨?_, ?_, ?_⟩
        · show getA (setA a.1 p.1 p.2) x =
            if isInDeletedFile D x then getA a.1 x else some p.2
          rw [if_neg hdelx, getA_setA, if_pos hx]
        · show getA (match getA bp p.1 with
              | some pp => setA a.2.1 p.1 pp
              | none => a.2.1) x =
            if isInDeletedFile D x then getA a.2.1 x
            else
              (match getA bp x with
               | some pp => some pp
               | none => getA a.2.1 x)
          rw [if_neg hdelx, hx]
          cases hbp : getA bp p.1 with
          | some pp => rw [getA_setA, if_pos rfl]
          | none => rfl
        · show getA (match getA cm p.1 with
              | some cc => setA a.2.2 p.1 cc
              | none => a.2.2) x =
            if isInDeletedFile D x then getA a.2.2 x
            else
              (match getA cm x with
               | some cc => some cc
               | none => getA a.2.2 x)
          rw [if_neg hdelx, hx]
          cases hcm : getA cm p.1 with
          | some cc => rw [getA_setA, if_pos rfl]
          | none => rfl
    · have hdd : getA (p :: rest) x = getA rest x := by
        rw [getA]
        have : ¬ p.1 = x := fun hh => hx hh.symm
        rw [if_neg this]
      have hstep1 : getA (deleteFoldStep D bp cm a p).1 x = getA a.1 x := by
        unfold deleteFoldStep
        by_cases hdelp : isInDeletedFile D p.1 = true
        · rw [if_pos hdelp]
        · rw [if_neg hdelp]
          show getA (setA a.1 p.1 p.2) x = getA a.1 x
          rw [getA_setA, if_neg hx]
      have hstep2 : getA (deleteFoldStep D bp cm a p).2.1 x = getA a.2.1 x := by
        unfold deleteFoldStep
        by_cases hdelp : isInDeletedFile D p.1 = true
        · rw [if_pos hdelp]
        · rw [if_neg hdelp]
          show getA (match getA bp p.1 with
              | some pp => setA a.2.1 p.1 pp
              | none => a.2.1) x = getA a.2.1 x
          cases hbp : getA bp p.1 with
          | some pp => rw [getA_setA, if_neg hx]
          | none => rfl
      have hstep3 : getA (deleteFoldStep D bp cm a p).2.2 x = getA a.2.2 x := by
        unfold deleteFoldStep
        by_cases hdelp : isInDeletedFile D p.1 = true
        · rw [if_pos hdelp]
        · rw [if_neg hdelp]
          show getA (match getA cm p.1 with
              | some cc => setA a.2.2 p.1 cc
              | none => a.2.2) x = getA a.2.2 x
          cases hcm : getA cm p.1 with
          | some cc => rw [getA_setA, if_neg hx]
          | none => rfl
      rw [ih1, ih2, ih3, hdd, hstep1, hstep2, hstep3]
      exact ⟨rfl, rfl, rfl⟩

end RippleCheck

namespace RippleCheck

theorem predictive_conf_spec (ri : ResolvedIntent) (si : List (String × SymbolEntry))
    (g : DependencyGraph) :
    ∀ id conf,
      getA (computePredictiveBlastRadius ri si g).confidenceMap id = some conf →
      ∃ depth, getA (computePredictiveBlastRadius ri si g).depthMap id = some depth ∧
        conf = bestConfidence (rootConfidenceOf ri.symbols) depth
          ((getA (computePredictiveBlastRadius ri si g).paths id).getD []) := by
  intro id conf h
  rw [computePredictive_eq] at h ⊢
  have hcm0 : getA (confMapOf0 ri si g) id =
      (match getA (blastOf ri si g).depthMap id with
       | some depth => some (bestConfidence (rootConfidenceOf ri.symbols) depth
           ((getA (blastOf ri si g).paths id).getD []))
       | none => none) := by
    have := confidenceMapOf_fold (rootConfidenceOf ri.symbols) (blastOf ri si g).paths
      (blastOf ri si g).depthMap (blastOf_depthMap_nodup ri si g) [] id
    exact this
  by_cases hdel : ri.descriptor.changeType = "delete" ∧ 0 < ri.symbols.length
  · obtain ⟨s1, s2, s3⟩ := deleteFold_spec (deletedAbsFilesOf ri.symbols)
      (blastOf ri si g).paths (confMapOf0 ri si g) (blastOf ri si g).depthMap
      (blastOf_depthMap_nodup ri si g)
      (([] : List (String × Nat)), ([] : List (String × List (List String))),
       ([] : List (String × ResolvedConfidence))) id
    have e3 : (computePredictiveS ri si g).confidenceMap =
        ((blastOf ri si g).depthMap.foldl
          (deleteFoldStep (deletedAbsFilesOf ri.symbols) (blastOf ri si g).paths
            (confMapOf0 ri si g))
          (([] : List (String × Nat)), ([] : List (String × List (List String))),
           ([] : List (String × ResolvedConfidence)))).2.2 := by
      unfold computePredictiveS
      rw [if_pos hdel]
    have e1 : (computePredictiveS ri si g).depthMap =
        ((blastOf ri si g).depthMap.foldl
          (deleteFoldStep (deletedAbsFilesOf ri.symbols) (blastOf ri si g).paths
            (confMapOf0 ri si g))
          (([] : List (String × Nat)), ([] : List (String × List (List String))),
           ([] : List (String × ResolvedConfidence)))).1 := by
      unfold computePredictiveS
      rw [if_pos hdel]
    have e2 : (computePredictiveS ri si g).paths =
        ((blastOf ri si g).depthMap.foldl
          (deleteFoldStep (deletedAbsFilesOf ri.symbols) (blastOf ri si g).paths
            (confMapOf0 ri si g))
          (([] : List (String × Nat)), ([] : List (String × List (List String))),
           ([] : List (String × ResolvedConfidence)))).2.1 := by
      unfold computePredictiveS
      rw [if_pos hdel]
    rw [e3, s3] at h
    cases hdm : getA (blastOf ri si g).depthMap id with
    | none =>
      rw [hdm] at h
      exact absurd h (by simp [getA])
    | some d =>
      rw [hdm] at h
      have h2 : (if isInDeletedFile (deletedAbsFilesOf ri.symbols) id = true
          then getA ([] : List (String × ResolvedConfidence)) id
          else
            (match getA (confMapOf0 ri si g) id with
             | some cc => some cc
             | none => getA ([] : List (String × ResolvedConfidence)) id)) =
          some conf := h
      by_cases hdelid : isInDeletedFile (deletedAbsFilesOf ri.symbols) id = true
      · rw [if_pos hdelid] at h2
        exact absurd h2 (by simp [getA])
      · rw [if_neg hdelid] at h2
        rw [hdm] at hcm0
        have hcm1 : getA (confMapOf0 ri si g) id =
            some (bestConfidence (rootConfidenceOf ri.symbols) d
              ((getA (blastOf ri si g).paths id).getD [])) := hcm0
        rw [hcm1] at h2
        have hconf : conf = bestConfidence (rootConfidenceOf ri.symbols) d
            ((getA (blastOf ri si g).paths id).getD []) :=
          (Option.some.inj h2).symm
        refine ⟨d, ?_, ?_⟩
        · rw [e1, s1, hdm]
          show (if isInDeletedFile (deletedAbsFilesOf ri.symbols) id = true
            then getA ([] : List (String × Nat)) id else some d) = some d
          rw [if_neg hdelid]
        · have hpaths : (getA ((blastOf ri si g).depthMap.foldl
              (deleteFoldStep (deletedAbsFilesOf ri.symbols) (blastOf ri si g).paths
                (confMapOf0 ri si g))
              (([] : List (String × Nat)), ([] : List (String × List (List String))),
               ([] : List (String × ResolvedConfidence)))).2.1 id).getD [] =
              (getA (blastOf ri si g).paths id).getD [] := by
            rw [s2, hdm]
            show ((if isInDeletedFile (deletedAbsFilesOf ri.symbols) id = true
              then getA ([] : List (String × List (List String))) id
              else
                (match getA (blastOf ri si g).paths id with
                 | some pp => some pp
                 | none => getA ([] : List (String × List (List String))) id)).getD []) = _
            rw [if_neg hdelid]
            cases hbp : getA (blastOf ri si g).paths id with
            | some pp => rfl
            | none => rfl
          rw [e2, hpaths]
          exact hconf
  · have e3 : (computePredictiveS ri si g).confidenceMap = confMapOf0 ri si g := by
      unfold computePredictiveS
      rw [if_neg hdel]
    have e1 : (computePredictiveS ri si g).depthMap = (blastOf ri si g).depthMap := by
      unfold computePredictiveS
      rw [if_neg hdel]
    have e2 : (computePredictiveS ri si g).paths = (blastOf ri si g).paths := by
      unfold computePredictiveS
      rw [if_neg hdel]
    rw [e3] at h
    cases hdm : getA (blastOf ri si g).depthMap id with
    | none =>
      rw [hdm] at hcm0
      have hcm1 : getA (confMapOf0 ri si g) id = none := hcm0
      rw [h] at hcm1
      exact absurd hcm1 (by simp)
    | some d =>
      rw [hdm] at hcm0
      have hcm1 : getA (confMapOf0 ri si g) id =
          some (bestConfidence (rootConfidenceOf ri.symbols) d
            ((getA (blastOf ri si g).paths id).getD [])) := hcm0
      rw [h] at hcm1
      refine ⟨d, ?_, ?_⟩
      · rw [e1]
        exact hdm
      · rw [e2]
        exact Option.some.inj hcm1

end RippleCheck

namespace RippleCheck

/-- C7: confidence degradation.  For every impacted symbol recorded by
`computePredictiveBlastRadius`, the symbol has a depth, and (a) for each of
its explanation paths whose first element is a root known to the resolver,
the path's effective confidence — the root's resolver confidence at depth ≤ 1
and its one-tier demotion (high→medium, medium→low, low→low) at depth ≥ 2 —
is a lower bound on the recorded confidence; (b) the recorded confidence is
either the floor `low` or exactly some path's effective confidence (so it is
the maximum effective confidence across paths); and (c) for any path of
length ≥ 2 originating at a root with confidence c, the recorded confidence
is at least `demote c`. -/
theorem c7_confidence_degradation (ri : ResolvedIntent)
    (si : List (String × SymbolEntry)) (g : DependencyGraph) :
    ∀ id conf,
      getA (computePredictiveBlastRadius ri si g).confidenceMap id = some conf →
      ∃ depth, getA (computePredictiveBlastRadius ri si g).depthMap id = some depth ∧
        (∀ path ∈ (getA (computePredictiveBlastRadius ri si g).paths id).getD [],
          ∀ rootId, path.head? = some rootId →
          ∀ rc, getA (rootConfidenceOf ri.symbols) rootId = some rc →
            CONFIDENCE_RANK (if depth ≤ 1 then rc else demote rc) ≤
              CONFIDENCE_RANK conf) ∧
        (conf = ResolvedConfidence.low ∨
          ∃ path ∈ (getA (computePredictiveBlastRadius ri si g).paths id).getD [],
            ∃ rootId rc, path.head? = some rootId ∧
              getA (rootConfidenceOf ri.symbols) rootId = some rc ∧
              conf = (if depth ≤ 1 then rc else demote rc)) ∧
        (∀ path ∈ (getA (computePredictiveBlastRadius ri si g).paths id).getD [],
          2 ≤ path.length →
          ∀ rootId, path.head? = some rootId →
          ∀ rc, getA (rootConfidenceOf ri.symbols) rootId = some rc →
            CONFIDENCE_RANK (demote rc) ≤ CONFIDENCE_RANK conf) := by
  intro id conf h
  rcases predictive_conf_spec ri si g id conf h with ⟨depth, hdm, hconf⟩
  refine ⟨depth, hdm, ?_, ?_, ?_⟩
  · intro path hp rootId hh rc hg
    rw [hconf]
    exact bestFold_bound (rootConfidenceOf ri.symbols) depth _
      ResolvedConfidence.low path hp rootId hh rc hg
  · rcases bestFold_achieved (rootConfidenceOf ri.symbols) depth
      ((getA (computePredictiveBlastRadius ri si g).paths id).getD [])
      ResolvedConfidence.low with h2 | ⟨path, hp, rootId, rc, hh, hg, h2⟩
    · left
      rw [hconf]
      exact h2
    · right
      refine ⟨path, hp, rootId, rc, hh, hg, ?_⟩
      rw [hconf]
      exact h2
  · intro path hp hlen rootId hh rc hg
    have hb := bestFold_bound (rootConfidenceOf ri.symbols) depth
      ((getA (computePredictiveBlastRadius ri si g).paths id).getD [])
      ResolvedConfidence.low path hp rootId hh rc hg
    have hd : CONFIDENCE_RANK (demote rc) ≤
        CONFIDENCE_RANK (if depth ≤ 1 then rc else demote rc) := by
      by_cases hle : depth ≤ 1
      · rw [if_pos hle]
        exact rank_demote_le rc
      · rw [if_neg hle]
    rw [hconf]
    exact Nat.le_trans hd hb

/-- Concrete graph for exercising C7: `A→B`, analysed with deep root `B`. -/
def c7Graph : DependencyGraph :=
  { forward := [("A", ["B"])],
    reverse := [("B", ["A"])] }

/-- Concrete resolved intent for exercising C7: modify `B`, public API
affected, resolver confidence `high`. -/
def c7Intent : ResolvedIntent :=
  { descriptor :=
      { prompt := "change b", changeType := "modify", symbolHints := [],
        fileHints := [], affectsPublicApi := true },
    symbols :=
      [{ symbolId := "B", name := "b", filePath := "f.ts",
         confidence := ResolvedConfidence.high, matchedHints := [] }],
    symbolIds := ["B"],
    isRelevant := true }

theorem c7_confidence_degradation_witness :
    getA (computePredictiveBlastRadius c7Intent [] c7Graph).confidenceMap "A" =
      some ResolvedConfidence.high ∧
    (∃ depth, getA (computePredictiveBlastRadius c7Intent [] c7Graph).depthMap "A" =
        some depth ∧
      (∀ path ∈ (getA (computePredictiveBlastRadius c7Intent [] c7Graph).paths "A").getD [],
        ∀ rootId, path.head? = some rootId →
        ∀ rc, getA (rootConfidenceOf c7Intent.symbols) rootId = some rc →
          CONFIDENCE_RANK (if depth ≤ 1 then rc else demote rc) ≤
            CONFIDENCE_RANK ResolvedConfidence.high) ∧
      (ResolvedConfidence.high = ResolvedConfidence.low ∨
        ∃ path ∈ (getA (computePredictiveBlastRadius c7Intent [] c7Graph).paths "A").getD [],
          ∃ rootId rc, path.head? = some rootId ∧
            getA (rootConfidenceOf c7Intent.symbols) rootId = some rc ∧
            ResolvedConfidence.high = (if depth ≤ 1 then rc else demote rc)) ∧
      (∀ path ∈ (getA (computePredictiveBlastRadius c7Intent [] c7Graph).paths "A").getD [],
        2 ≤ path.length →
        ∀ rootId, path.head? = some rootId →
        ∀ rc, getA (rootConfidenceOf c7Intent.symbols) rootId = some rc →
          CONFIDENCE_RANK (demote rc) ≤ CONFIDENCE_RANK ResolvedConfidence.high)) :=
  ⟨by decide,
   c7_confidence_degradation c7Intent [] c7Graph "A" ResolvedConfidence.high (by decide)⟩

end RippleCheck

namespace RippleCheck

/-- A heap of JS `Map` objects: the live and shadow symbol indexes and
dependency graphs live behind numeric references, so aliasing and in-place
mutation are observable.  `nextRef` is the allocation counter. -/
structure Heap where
  indexes : List (Nat × SymbolIndex)
  graphs : List (Nat × DependencyGraph)
  nextRef : Nat

def readIndex (h : Heap) (r : Nat) : Option SymbolIndex :=
  getA h.indexes r

def readGraph (h : Heap) (r : Nat) : Option DependencyGraph :=
  getA h.graphs r

def writeIndex (h : Heap) (r : Nat) (v : SymbolIndex) : Heap :=
  { h with indexes := setA h.indexes r v }

def writeGraph (h : Heap) (r : Nat) (v : DependencyGraph) : Heap :=
  { h with graphs := setA h.graphs r v }

def allocIndex (h : Heap) (v : SymbolIndex) : Heap × Nat :=
  ({ indexes := setA h.indexes h.nextRef v, graphs := h.graphs,
     nextRef := h.nextRef + 1 }, h.nextRef)

def allocGraph (h : Heap) (v : DependencyGraph) : Heap × Nat :=
  ({ indexes := h.indexes, graphs := setA h.graphs h.nextRef v,
     nextRef := h.nextRef + 1 }, h.nextRef)

/-- Heap well-formedness: every allocated reference is below the counter. -/
def HeapWF (h : Heap) : Prop :=
  (∀ r ∈ h.indexes.map Prod.fst, r < h.nextRef) ∧
  (∀ r ∈ h.graphs.map Prod.fst, r < h.nextRef)

instance (h : Heap) : Decidable (HeapWF h) := by
  unfold HeapWF
  infer_instance

theorem readIndex_writeIndex_ne (h : Heap) (r : Nat) (v : SymbolIndex) (r2 : Nat)
    (hne : r2 ≠ r) : readIndex (writeIndex h r v) r2 = readIndex h r2 := by
  unfold readIndex writeIndex
  exact getA_setA_ne _ _ hne

theorem readGraph_writeIndex (h : Heap) (r : Nat) (v : SymbolIndex) (r2 : Nat) :
    readGraph (writeIndex h r v) r2 = readGraph h r2 := rfl

theorem readIndex_writeGraph (h : Heap) (r : Nat) (v : DependencyGraph) (r2 : Nat) :
    readIndex (writeGraph h r v) r2 = readIndex h r2 := rfl

theorem readGraph_writeGraph_ne (h : Heap) (r : Nat) (v : DependencyGraph) (r2 : Nat)
    (hne : r2 ≠ r) : readGraph (writeGraph h r v) r2 = readGraph h r2 := by
  unfold readGraph writeGraph
  exact getA_setA_ne _ _ hne

theorem readIndex_allocIndex_ne (h : Heap) (v : SymbolIndex) (r2 : Nat)
    (hne : r2 ≠ h.nextRef) : readIndex (allocIndex h v).1 r2 = readIndex h r2 := by
  unfold readIndex allocIndex
  exact getA_setA_ne _ _ hne

theorem readGraph_allocIndex (h : Heap) (v : SymbolIndex) (r2 : Nat) :
    readGraph (allocIndex h v).1 r2 = readGraph h r2 := rfl

theorem readIndex_allocGraph (h : Heap) (v : DependencyGraph) (r2 : Nat) :
    readIndex (allocGraph h v).1 r2 = readIndex h r2 := rfl

theorem readGraph_allocGraph_ne (h : Heap) (v : DependencyGraph) (r2 : Nat)
    (hne : r2 ≠ h.nextRef) : readGraph (allocGraph h v).1 r2 = readGraph h r2 := by
  unfold readGraph allocGraph
  exact getA_setA_ne _ _ hne

theorem foldl_preserves_readIndex {α β : Type} (step : Heap × β → α → Heap × β)
    (r2 : Nat) (hstep : ∀ acc a, readIndex (step acc a).1 r2 = readIndex acc.1 r2) :
    ∀ (l : List α) (acc : Heap × β),
      readIndex (l.foldl step acc).1 r2 = readIndex acc.1 r2 := by
  intro l
  induction l with
  | nil => intro acc; rfl
  | cons a rest ih =>
    intro acc
    rw [List.foldl_cons, ih, hstep]

theorem foldl_preserves_readGraph {α β : Type} (step : Heap × β → α → Heap × β)
    (r2 : Nat) (hstep : ∀ acc a, readGraph (step acc a).1 r2 = readGraph acc.1 r2) :
    ∀ (l : List α) (acc : Heap × β),
      readGraph (l.foldl step acc).1 r2 = readGraph acc.1 r2 := by
  intro l
  induction l with
  | nil => intro acc; rfl
  | cons a rest ih =>
    intro acc
    rw [List.foldl_cons, ih, hstep]

/-- Embedding of `detectGhostSymbols`: ids present in either graph map but
absent from the index. -/
def detectGhostSymbols (graph : DependencyGraph) (symbolIndex : SymbolIndex) :
    List String :=
  let allIds := (graph.forward.map Prod.fst ++ graph.reverse.map Prod.fst).foldl
    insertS []
  allIds.foldl
    (fun gs id => if (getA symbolIndex id).isSome then gs else gs ++ [id]) []

/-- Heap-level `handleFileChanged`: read the index and graph the caller hands
over, run the pure update, and write the results back in place. -/
def handleFileChangedH (fsPath : String) (parseResult : Option ParsedSourceFile)
    (h : Heap) (indexRef graphRef : Nat) : SignatureChangeResult × Heap :=
  match readIndex h indexRef, readGraph h graphRef with
  | some idx, some g =>
      let r := handleFileChanged fsPath parseResult idx g
      (r.1, writeGraph (writeIndex h indexRef r.2.1) graphRef r.2.2)
  | _, _ => ({ ripple := [], safe := [], added := [], removed := [] }, h)

theorem handleFileChangedH_readIndex_ne (fsPath : String)
    (parseResult : Option ParsedSourceFile) (h : Heap) (indexRef graphRef r2 : Nat)
    (hne : r2 ≠ indexRef) :
    readIndex (handleFileChangedH fsPath parseResult h indexRef graphRef).2 r2 =
      readIndex h r2 := by
  unfold handleFileChangedH
  cases hi : readIndex h indexRef with
  | none => rfl
  | some idx =>
    cases hg : readGraph h graphRef with
    | none => rfl
    | some g =>
      show readIndex (writeGraph (writeIndex h indexRef _) graphRef _) r2 = readIndex h r2
      rw [readIndex_writeGraph, readIndex_writeIndex_ne _ _ _ _ hne]

theorem handleFileChangedH_readGraph_ne (fsPath : String)
    (parseResult : Option ParsedSourceFile) (h : Heap) (indexRef graphRef r2 : Nat)
    (hne : r2 ≠ graphRef) :
    readGraph (handleFileChangedH fsPath parseResult h indexRef graphRef).2 r2 =
      readGraph h r2 := by
  unfold handleFileChangedH
  cases hi : readIndex h indexRef with
  | none => rfl
  | some idx =>
    cases hg : readGraph h graphRef with
    | none => rfl
    | some g =>
      show readGraph (writeGraph (writeIndex h indexRef _) graphRef _) r2 = readGraph h r2
      rw [readGraph_writeGraph_ne _ _ _ _ hne, readGraph_writeIndex]

end RippleCheck

namespace RippleCheck

/-- The references and pure values `buildVirtualDiff` hands back. -/
structure VirtualDiffRefs where
  roots : List ImpactRoot
  shadowIndexRef : Nat
  shadowGraphRef : Nat
  phantomIds : List String

/-- Heap-level `buildVirtualDiff`: clone the live index and graph into fresh
references, then mutate only the shadow index (delete-intent evictions and
`add`-intent phantoms).  The live references are only read. -/
def buildVirtualDiffH (resolvedIntent : ResolvedIntent) (h : Heap)
    (liveIndexRef liveGraphRef : Nat) : Heap × Option VirtualDiffRefs :=
  match readIndex h liveIndexRef, readGraph h liveGraphRef with
  | some symbolIndex, some graph =>
      let a1 := allocIndex h symbolIndex
      let a2 := allocGraph a1.1 (cloneGraph graph)
      let shadowIndexRef := a1.2
      let shadowGraphRef := a2.2
      let changeType := resolvedIntent.descriptor.changeType
      let classification :=
        classifyRoot changeType resolvedIntent.descriptor.affectsPublicApi
      let pass := resolvedIntent.symbols.foldl
        (fun (acc : Heap × List ImpactRoot) sym =>
          if changeType = "delete" then
            ((match readIndex acc.1 shadowIndexRef with
              | some si => writeIndex acc.1 shadowIndexRef (delA si sym.symbolId)
              | none => acc.1),
             acc.2 ++ [{ symbolId := sym.symbolId,
                         propagationMode := PropagationMode.deep,
                         reason := RootReason.deleted }])
          else
            match classification with
            | some cls =>
                (acc.1, acc.2 ++ [{ symbolId := sym.symbolId,
                                    propagationMode := cls.2,
                                    reason := cls.1 }])
            | none => acc)
        (a2.1, ([] : List ImpactRoot))
      let phantomPass :=
        if changeType = "add" then
          let resolvedNames := resolvedIntent.symbols.map (fun s => s.name.toLower)
          resolvedIntent.descriptor.symbolHints.foldl
            (fun (acc : Heap × List String) hint =>
              if hint.toLower ∈ resolvedNames then acc
              else
                let phantomId := "__phantom__#" ++ hint
                match readIndex acc.1 shadowIndexRef with
                | some si =>
                    if (getA si phantomId).isSome then acc
                    else (writeIndex acc.1 shadowIndexRef
                            (setA si phantomId (phantomEntry hint)),
                          acc.2 ++ [phantomId])
                | none => acc)
            (pass.1, ([] : List String))
        else (pass.1, ([] : List String))
      let rootMap := pass.2.foldl
        (fun (rm : List (String × ImpactRoot)) candidate =>
          match getA rm candidate.symbolId with
          | none => setA rm candidate.symbolId candidate
          | some existing =>
              if REASON_PRIORITY existing.reason < REASON_PRIORITY candidate.reason then
                setA rm candidate.symbolId candidate
              else rm)
        ([] : List (String × ImpactRoot))
      (phantomPass.1,
       some { roots := rootMap.map Prod.snd,
              shadowIndexRef := shadowIndexRef,
              shadowGraphRef := shadowGraphRef,
              phantomIds := phantomPass.2 })
  | _, _ => (h, none)

/-- Heap-level `analyzeStagedChanges`: run the incremental pipeline for each
staged file on the index and graph references it received, then detect ghost
symbols.  Returns the ripple roots and ghost symbols. -/
def analyzeStagedChangesH (stagedFiles : List (String × Option ParsedSourceFile))
    (h : Heap) (indexRef graphRef : Nat) : Heap × List String × List String :=
  let pass := stagedFiles.foldl
    (fun (acc : Heap × List String) f =>
      let r := handleFileChangedH f.1 f.2 acc.1 indexRef graphRef
      (r.2, acc.2 ++ r.1.ripple))
    (h, ([] : List String))
  let ghosts :=
    match readGraph pass.1 graphRef, readIndex pass.1 indexRef with
    | some g, some idx => detectGhostSymbols g idx
    | _, _ => []
  (pass.1, pass.2, ghosts)

/-- Heap-level `computeStagedBlastRadius`: clone the live index and graph,
run the staged analysis on the clones, classify the roots, and run the BFS on
the live graph.  The external inputs (parse results per staged file, renamed
paths, diff-hunk symbol ids) are parameters. -/
def computeStagedBlastRadiusH (stagedFiles : List (String × Option ParsedSourceFile))
    (renamedNewPaths : List String) (changedSymbolIds : List String) (h : Heap)
    (liveIndexRef liveGraphRef : Nat) : Heap × Option BlastRadiusResult :=
  match readIndex h liveIndexRef, readGraph h liveGraphRef with
  | some symbolIndex, some graph =>
      let a1 := allocIndex h symbolIndex
      let a2 := allocGraph a1.1 (cloneGraph graph)
      let shadowIndexRef := a1.2
      let shadowGraphRef := a2.2
      let staged := analyzeStagedChangesH stagedFiles a2.1 shadowIndexRef shadowGraphRef
      let h3 := staged.1
      let rippleRootSet := staged.2.1.foldl insertS []
      let ghostSet := staged.2.2.foldl insertS []
      let shadowIndexNow := (readIndex h3 shadowIndexRef).getD []
      let candidates :=
        (ghostSet.map (fun id =>
          { symbolId := id, propagationMode := PropagationMode.deep,
            reason := RootReason.deleted : ImpactRoot })) ++
        (rippleRootSet.map (fun id =>
          { symbolId := id, propagationMode := PropagationMode.deep,
            reason := RootReason.signatureRipple : ImpactRoot })) ++
        ((shadowIndexNow.filter (fun p => p.2.filePath ∈ renamedNewPaths)).map
          (fun p =>
            { symbolId := p.1, propagationMode := PropagationMode.deep,
              reason := RootReason.renamed : ImpactRoot })) ++
        (changedSymbolIds.map (fun id =>
          { symbolId := id, propagationMode := PropagationMode.shallow,
            reason := RootReason.bodyChange : ImpactRoot }))
      let rootMap := candidates.foldl
        (fun (rm : List (String × ImpactRoot)) candidate =>
          match getA rm candidate.symbolId with
          | none => setA rm candidate.symbolId candidate
          | some existing =>
              if REASON_PRIORITY existing.reason < REASON_PRIORITY candidate.reason then
                setA rm candidate.symbolId candidate
              else rm)
        ([] : List (String × ImpactRoot))
      let roots := rootMap.map Prod.snd
      let base := traverseImpact roots graph
      (h3, some { base with stagedGraph := readGraph h3 shadowGraphRef })
  | _, _ => (h, none)

end RippleCheck

namespace RippleCheck

/-- One symbol step of the heap-level virtual diff. -/
def vdSymbolStep (changeType : String)
    (classification : Option (RootReason × PropagationMode))
    (shadowIndexRef : Nat) (acc : Heap × List ImpactRoot) (sym : ResolvedSymbol) :
    Heap × List ImpactRoot :=
  if changeType = "delete" then
    ((match readIndex acc.1 shadowIndexRef with
      | some si => writeIndex acc.1 shadowIndexRef (delA si sym.symbolId)
      | none => acc.1),
     acc.2 ++ [{ symbolId := sym.symbolId,
                 propagationMode := PropagationMode.deep,
                 reason := RootReason.deleted }])
  else
    match classification with
    | some cls =>
        (acc.1, acc.2 ++ [{ symbolId := sym.symbolId,
                            propagationMode := cls.2,
                            reason := cls.1 }])
    | none => acc

/-- One phantom step of the heap-level virtual diff. -/
def vdPhantomStep (resolvedNames : List String) (shadowIndexRef : Nat)
    (acc : Heap × List String) (hint : String) : Heap × List String :=
  if hint.toLower ∈ resolvedNames then acc
  else
    let phantomId := "__phantom__#" ++ hint
    match readIndex acc.1 shadowIndexRef with
    | some si =>
        if (getA si phantomId).isSome then acc
        else (writeIndex acc.1 shadowIndexRef (setA si phantomId (phantomEntry hint)),
              acc.2 ++ [phantomId])
    | none => acc

/-- The shared root-deduplication step (highest `REASON_PRIORITY` wins). -/
def rootDedupStep (rm : List (String × ImpactRoot)) (candidate : ImpactRoot) :
    List (String × ImpactRoot) :=
  match getA rm candidate.symbolId with
  | none => setA rm candidate.symbolId candidate
  | some existing =>
      if REASON_PRIORITY existing.reason < REASON_PRIORITY candidate.reason then
        setA rm candidate.symbolId candidate
      else rm

/-- The two shadow allocations performed by every speculative analysis. -/
def shadowAllocOf (h : Heap) (idx0 : SymbolIndex) (g0 : DependencyGraph) : Heap :=
  (allocGraph (allocIndex h idx0).1 (cloneGraph g0)).1

/-- The symbol pass of the heap-level virtual diff. -/
def vdPassOf (ri : ResolvedIntent) (h : Heap) (idx0 : SymbolIndex)
    (g0 : DependencyGraph) : Heap × List ImpactRoot :=
  ri.symbols.foldl
    (vdSymbolStep ri.descriptor.changeType
      (classifyRoot ri.descriptor.changeType ri.descriptor.affectsPublicApi)
      h.nextRef)
    (shadowAllocOf h idx0 g0, ([] : List ImpactRoot))

/-- The phantom pass of the heap-level virtual diff. -/
def vdPhantomOf (ri : ResolvedIntent) (h : Heap) (idx0 : SymbolIndex)
    (g0 : DependencyGraph) : Heap × List String :=
  if ri.descriptor.changeType = "add" then
    ri.descriptor.symbolHints.foldl
      (vdPhantomStep (ri.symbols.map (fun s => s.name.toLower)) h.nextRef)
      ((vdPassOf ri h idx0 g0).1, ([] : List String))
  else ((vdPassOf ri h idx0 g0).1, ([] : List String))

/-- `buildVirtualDiffH` rephrased through the named stages. -/
def buildVirtualDiffHS (ri : ResolvedIntent) (h : Heap)
    (liveIndexRef liveGraphRef : Nat) : Heap × Option VirtualDiffRefs :=
  match readIndex h liveIndexRef, readGraph h liveGraphRef with
  | some idx0, some g0 =>
      ((vdPhantomOf ri h idx0 g0).1,
       some { roots := ((vdPassOf ri h idx0 g0).2.foldl rootDedupStep []).map Prod.snd,
              shadowIndexRef := h.nextRef,
              shadowGraphRef := h.nextRef + 1,
              phantomIds := (vdPhantomOf ri h idx0 g0).2 })
  | _, _ => (h, none)

theorem buildVirtualDiffH_eq (ri : ResolvedIntent) (h : Heap)
    (liveIndexRef liveGraphRef : Nat) :
    buildVirtualDiffH ri h liveIndexRef liveGraphRef =
      buildVirtualDiffHS ri h liveIndexRef liveGraphRef := rfl

/-- The staged pass of the heap-level staged blast radius. -/
def stagedPassOf (stagedFiles : List (String × Option ParsedSourceFile)) (h : Heap)
    (idx0 : SymbolIndex) (g0 : DependencyGraph) : Heap × List String × List String :=
  analyzeStagedChangesH stagedFiles (shadowAllocOf h idx0 g0) h.nextRef (h.nextRef + 1)

/-- `computeStagedBlastRadiusH` rephrased through the named stages. -/
def computeStagedBlastRadiusHS (stagedFiles : List (String × Option ParsedSourceFile))
    (renamedNewPaths : List String) (changedSymbolIds : List String) (h : Heap)
    (liveIndexRef liveGraphRef : Nat) : Heap × Option BlastRadiusResult :=
  match readIndex h liveIndexRef, readGraph h liveGraphRef with
  | some idx0, some g0 =>
      let staged := stagedPassOf stagedFiles h idx0 g0
      let candidates :=
        ((staged.2.2.foldl insertS []).map (fun id =>
          { symbolId := id, propagationMode := PropagationMode.deep,
            reason := RootReason.deleted : ImpactRoot })) ++
        ((staged.2.1.foldl insertS []).map (fun id =>
          { symbolId := id, propagationMode := PropagationMode.deep,
            reason := RootReason.signatureRipple : ImpactRoot })) ++
        ((((readIndex staged.1 h.nextRef).getD []).filter
            (fun p => p.2.filePath ∈ renamedNewPaths)).map
          (fun p =>
            { symbolId := p.1, propagationMode := PropagationMode.deep,
              reason := RootReason.renamed : ImpactRoot })) ++
        (changedSymbolIds.map (fun id =>
          { symbolId := id, propagationMode := PropagationMode.shallow,
            reason := RootReason.bodyChange : ImpactRoot }))
      (staged.1,
       some { traverseImpact ((candidates.foldl rootDedupStep []).map Prod.snd) g0 with
              stagedGraph := readGraph staged.1 (h.nextRef + 1) })
  | _, _ => (h, none)

theorem computeStagedBlastRadiusH_eq
    (stagedFiles : List (String × Option ParsedSourceFile))
    (renamedNewPaths : List String) (changedSymbolIds : List String) (h : Heap)
    (liveIndexRef liveGraphRef : Nat) :
    computeStagedBlastRadiusH stagedFiles renamedNewPaths changedSymbolIds h
        liveIndexRef liveGraphRef =
      computeStagedBlastRadiusHS stagedFiles renamedNewPaths changedSymbolIds h
        liveIndexRef liveGraphRef := rfl

end RippleCheck

namespace RippleCheck

theorem vdSymbolStep_readIndex_ne (changeType : String)
    (classification : Option (RootReason × PropagationMode)) (sIR r2 : Nat)
    (hne : r2 ≠ sIR) (acc : Heap × List ImpactRoot) (sym : ResolvedSymbol) :
    readIndex (vdSymbolStep changeType classification sIR acc sym).1 r2 =
      readIndex acc.1 r2 := by
  unfold vdSymbolStep
  by_cases hct : changeType = "delete"
  · rw [if_pos hct]
    cases hr : readIndex acc.1 sIR with
    | none => rfl
    | some si =>
      show readIndex (writeIndex acc.1 sIR (delA si sym.symbolId)) r2 = readIndex acc.1 r2
      exact readIndex_writeIndex_ne _ _ _ _ hne
  · rw [if_neg hct]
    cases classification with
    | none => rfl
    | some cls => rfl

theorem vdSymbolStep_readGraph (changeType : String)
    (classification : Option (RootReason × PropagationMode)) (sIR r2 : Nat)
    (acc : Heap × List ImpactRoot) (sym : ResolvedSymbol) :
    readGraph (vdSymbolStep changeType classification sIR acc sym).1 r2 =
      readGraph acc.1 r2 := by
  unfold vdSymbolStep
  by_cases hct : changeType = "delete"
  · rw [if_pos hct]
    cases hr : readIndex acc.1 sIR with
    | none => rfl
    | some si =>
      show readGraph (writeIndex acc.1 sIR (delA si sym.symbolId)) r2 = readGraph acc.1 r2
      exact readGraph_writeIndex _ _ _ _
  · rw [if_neg hct]
    cases classification with
    | none => rfl
    | some cls => rfl

theorem vdPhantomStep_readIndex_ne (resolvedNames : List String) (sIR r2 : Nat)
    (hne : r2 ≠ sIR) (acc : Heap × List String) (hint : String) :
    readIndex (vdPhantomStep resolvedNames sIR acc hint).1 r2 =
      readIndex acc.1 r2 := by
  unfold vdPhantomStep
  by_cases hn : hint.toLower ∈ resolvedNames
  · rw [if_pos hn]
  · rw [if_neg hn]
    cases hr : readIndex acc.1 sIR with
    | none => rfl
    | some si =>
      by_cases hex : (getA si ("__phantom__#" ++ hint)).isSome = true
      · show readIndex (if (getA si ("__phantom__#" ++ hint)).isSome = true then acc
          else (writeIndex acc.1 sIR (setA si ("__phantom__#" ++ hint)
            (phantomEntry hint)), acc.2 ++ ["__phantom__#" ++ hint])).1 r2 =
          readIndex acc.1 r2
        rw [if_pos hex]
      · show readIndex (if (getA si ("__phantom__#" ++ hint)).isSome = true then acc
          else (writeIndex acc.1 sIR (setA si ("__phantom__#" ++ hint)
            (phantomEntry hint)), acc.2 ++ ["__phantom__#" ++ hint])).1 r2 =
          readIndex acc.1 r2
        rw [if_neg hex]
        exact readIndex_writeIndex_ne _ _ _ _ hne

theorem vdPhantomStep_readGraph (resolvedNames : List String) (sIR r2 : Nat)
    (acc : Heap × List String) (hint : String) :
    readGraph (vdPhantomStep resolvedNames sIR acc hint).1 r2 =
      readGraph acc.1 r2 := by
  unfold vdPhantomStep
  by_cases hn : hint.toLower ∈ resolvedNames
  · rw [if_pos hn]
  · rw [if_neg hn]
    cases hr : readIndex acc.1 sIR with
    | none => rfl
    | some si =>
      by_cases hex : (getA si ("__phantom__#" ++ hint)).isSome = true
      · show readGraph (if (getA si ("__phantom__#" ++ hint)).isSome = true then acc
          else (writeIndex acc.1 sIR (setA si ("__phantom__#" ++ hint)
            (phantomEntry hint)), acc.2 ++ ["__phantom__#" ++ hint])).1 r2 =
          readGraph acc.1 r2
        rw [if_pos hex]
      · show readGraph (if (getA si ("__phantom__#" ++ hint)).isSome = true then acc
          else (writeIndex acc.1 sIR (setA si ("__phantom__#" ++ hint)
            (phantomEntry hint)), acc.2 ++ ["__phantom__#" ++ hint])).1 r2 =
          readGraph acc.1 r2
        rw [if_neg hex]
        exact readGraph_writeIndex _ _ _ _

theorem shadowAllocOf_readIndex (h : Heap) (idx0 : SymbolIndex) (g0 : DependencyGraph)
    (r2 : Nat) (hlt : r2 < h.nextRef) :
    readIndex (shadowAllocOf h idx0 g0) r2 = readIndex h r2 := by
  unfold shadowAllocOf
  rw [readIndex_allocGraph]
  exact readIndex_allocIndex_ne h idx0 r2 (by omega)

theorem shadowAllocOf_readGraph (h : Heap) (idx0 : SymbolIndex) (g0 : DependencyGraph)
    (r2 : Nat) (hlt : r2 < h.nextRef) :
    readGraph (shadowAllocOf h idx0 g0) r2 = readGraph h r2 := by
  unfold shadowAllocOf
  have h1 : (allocIndex h idx0).1.nextRef = h.nextRef + 1 := rfl
  rw [readGraph_allocGraph_ne _ _ _ (by rw [h1]; omega)]
  rfl

theorem vdPassOf_readIndex (ri : ResolvedIntent) (h : Heap) (idx0 : SymbolIndex)
    (g0 : DependencyGraph) (r2 : Nat) (hlt : r2 < h.nextRef) :
    readIndex (vdPassOf ri h idx0 g0).1 r2 = readIndex h r2 := by
  unfold vdPassOf
  rw [foldl_preserves_readIndex _ r2
    (fun acc sym => vdSymbolStep_readIndex_ne _ _ _ r2 (by omega) acc sym)]
  exact shadowAllocOf_readIndex h idx0 g0 r2 hlt

theorem vdPassOf_readGraph (ri : ResolvedIntent) (h : Heap) (idx0 : SymbolIndex)
    (g0 : DependencyGraph) (r2 : Nat) (hlt : r2 < h.nextRef) :
    readGraph (vdPassOf ri h idx0 g0).1 r2 = readGraph h r2 := by
  unfold vdPassOf
  rw [foldl_preserves_readGraph _ r2
    (fun acc sym => vdSymbolStep_readGraph _ _ _ r2 acc sym)]
  exact shadowAllocOf_readGraph h idx0 g0 r2 hlt

theorem vdPhantomOf_readIndex (ri : ResolvedIntent) (h : Heap) (idx0 : SymbolIndex)
    (g0 : DependencyGraph) (r2 : Nat) (hlt : r2 < h.nextRef) :
    readIndex (vdPhantomOf ri h idx0 g0).1 r2 = readIndex h r2 := by
  unfold vdPhantomOf
  by_cases hadd : ri.descriptor.changeType = "add"
  · rw [if_pos hadd]
    rw [foldl_preserves_readIndex _ r2
      (fun acc hint => vdPhantomStep_readIndex_ne _ _ r2 (by omega) acc hint)]
    exact vdPassOf_readIndex ri h idx0 g0 r2 hlt
  · rw [if_neg hadd]
    exact vdPassOf_readIndex ri h idx0 g0 r2 hlt

theorem vdPhantomOf_readGraph (ri : ResolvedIntent) (h : Heap) (idx0 : SymbolIndex)
    (g0 : DependencyGraph) (r2 : Nat) (hlt : r2 < h.nextRef) :
    readGraph (vdPhantomOf ri h idx0 g0).1 r2 = readGraph h r2 := by
  unfold vdPhantomOf
  by_cases hadd : ri.descriptor.changeType = "add"
  · rw [if_pos hadd]
    rw [foldl_preserves_readGraph _ r2
      (fun acc hint => vdPhantomStep_readGraph _ _ r2 acc hint)]
    exact vdPassOf_readGraph ri h idx0 g0 r2 hlt
  · rw [if_neg hadd]
    exact vdPassOf_readGraph ri h idx0 g0 r2 hlt

theorem analyzeStagedChangesH_readIndex_ne
    (stagedFiles : List (String × Option ParsedSourceFile)) (h : Heap)
    (indexRef graphRef r2 : Nat) (hne : r2 ≠ indexRef) :
    readIndex (analyzeStagedChangesH stagedFiles h indexRef graphRef).1 r2 =
      readIndex h r2 := by
  unfold analyzeStagedChangesH
  rw [foldl_preserves_readIndex _ r2
    (fun acc f => handleFileChangedH_readIndex_ne f.1 f.2 acc.1 indexRef graphRef r2 hne)]

theorem analyzeStagedChangesH_readGraph_ne
    (stagedFiles : List (String × Option ParsedSourceFile)) (h : Heap)
    (indexRef graphRef r2 : Nat) (hne : r2 ≠ graphRef) :
    readGraph (analyzeStagedChangesH stagedFiles h indexRef graphRef).1 r2 =
      readGraph h r2 := by
  unfold analyzeStagedChangesH
  rw [foldl_preserves_readGraph _ r2
    (fun acc f => handleFileChangedH_readGraph_ne f.1 f.2 acc.1 indexRef graphRef r2 hne)]

theorem stagedPassOf_readIndex (stagedFiles : List (String × Option ParsedSourceFile))
    (h : Heap) (idx0 : SymbolIndex) (g0 : DependencyGraph) (r2 : Nat)
    (hlt : r2 < h.nextRef) :
    readIndex (stagedPassOf stagedFiles h idx0 g0).1 r2 = readIndex h r2 := by
  unfold stagedPassOf
  rw [analyzeStagedChangesH_readIndex_ne _ _ _ _ r2 (by omega)]
  exact shadowAllocOf_readIndex h idx0 g0 r2 hlt

theorem stagedPassOf_readGraph (stagedFiles : List (String × Option ParsedSourceFile))
    (h : Heap) (idx0 : SymbolIndex) (g0 : DependencyGraph) (r2 : Nat)
    (hlt : r2 < h.nextRef) :
    readGraph (stagedPassOf stagedFiles h idx0 g0).1 r2 = readGraph h r2 := by
  unfold stagedPassOf
  rw [analyzeStagedChangesH_readGraph_ne _ _ _ _ r2 (by omega)]
  exact shadowAllocOf_readGraph h idx0 g0 r2 hlt

end RippleCheck


namespace RippleCheck

/-- C6: shadow isolation.  On a well-formed heap holding the live symbol
index and live dependency graph, both speculative analyses — the heap-level
`buildVirtualDiff` of the predictive intent path, and the heap-level
`computeStagedBlastRadius` of the staging path (whose staged pipeline runs
`handleFileChanged` in place on the references it received) — leave the live
index and the live graph exactly as they were: every write lands on the
freshly allocated shadow clones, whose references differ from the live ones. -/
theorem c6_shadow_isolation (h : Heap) (liveIndexRef liveGraphRef : Nat)
    (hWFh : HeapWF h)
    (hli : liveIndexRef ∈ h.indexes.map Prod.fst)
    (hlg : liveGraphRef ∈ h.graphs.map Prod.fst) :
    (∀ ri : ResolvedIntent,
      readIndex (buildVirtualDiffH ri h liveIndexRef liveGraphRef).1 liveIndexRef =
        readIndex h liveIndexRef ∧
      readGraph (buildVirtualDiffH ri h liveIndexRef liveGraphRef).1 liveGraphRef =
        readGraph h liveGraphRef ∧
      (∀ refs, (buildVirtualDiffH ri h liveIndexRef liveGraphRef).2 = some refs →
        refs.shadowIndexRef ≠ liveIndexRef ∧ refs.shadowGraphRef ≠ liveGraphRef)) ∧
    (∀ (stagedFiles : List (String × Option ParsedSourceFile))
       (renamedNewPaths changedSymbolIds : List String),
      readIndex (computeStagedBlastRadiusH stagedFiles renamedNewPaths
          changedSymbolIds h liveIndexRef liveGraphRef).1 liveIndexRef =
        readIndex h liveIndexRef ∧
      readGraph (computeStagedBlastRadiusH stagedFiles renamedNewPaths
          changedSymbolIds h liveIndexRef liveGraphRef).1 liveGraphRef =
        readGraph h liveGraphRef) := by
  have hliLt : liveIndexRef < h.nextRef := hWFh.1 liveIndexRef hli
  have hlgLt : liveGraphRef < h.nextRef := hWFh.2 liveGraphRef hlg
  have hlis : (readIndex h liveIndexRef).isSome = true := by
    unfold readIndex
    rw [getA_isSome_iff]
    exact hli
  have hlgs : (readGraph h liveGraphRef).isSome = true := by
    unfold readGraph
    rw [getA_isSome_iff]
    exact hlg
  rcases Option.isSome_iff_exists.mp hlis with ⟨idx0, hidx0⟩
  rcases Option.isSome_iff_exists.mp hlgs with ⟨g0, hg0⟩
  constructor
  · intro ri
    rw [buildVirtualDiffH_eq]
    unfold buildVirtualDiffHS
    rw [hidx0, hg0]
    refine ⟨?_, ?_, ?_⟩
    · show readIndex (vdPhantomOf ri h idx0 g0).1 liveIndexRef = some idx0
      rw [vdPhantomOf_readIndex ri h idx0 g0 liveIndexRef hliLt]
      exact hidx0
    · show readGraph (vdPhantomOf ri h idx0 g0).1 liveGraphRef = some g0
      rw [vdPhantomOf_readGraph ri h idx0 g0 liveGraphRef hlgLt]
      exact hg0
    · intro refs hrefs
      have h3 : (some h.nextRef : Option Nat) = some refs.shadowIndexRef := by
        have h5 := congrArg (fun o => Option.map VirtualDiffRefs.shadowIndexRef o) hrefs
        exact h5
      have h4 : (some (h.nextRef + 1) : Option Nat) = some refs.shadowGraphRef := by
        have h5 := congrArg (fun o => Option.map VirtualDiffRefs.shadowGraphRef o) hrefs
        exact h5
      have h3b := Option.some.inj h3
      have h4b := Option.some.inj h4
      constructor
      · rw [← h3b]
        omega
      · rw [← h4b]
        omega
  · intro stagedFiles renamedNewPaths changedSymbolIds
    rw [computeStagedBlastRadiusH_eq]
    unfold computeStagedBlastRadiusHS
    rw [hidx0, hg0]
    constructor
    · show readIndex (stagedPassOf stagedFiles h idx0 g0).1 liveIndexRef = some idx0
      rw [stagedPassOf_readIndex stagedFiles h idx0 g0 liveIndexRef hliLt]
      exact hidx0
    · show readGraph (stagedPassOf stagedFiles h idx0 g0).1 liveGraphRef = some g0
      rw [stagedPassOf_readGraph stagedFiles h idx0 g0 liveGraphRef hlgLt]
      exact hg0

end RippleCheck

namespace RippleCheck

/-- Concrete heap for exercising C6: live index at reference 0, live graph at
reference 1. -/
def c6Heap : Heap :=
  { indexes := [(0, [])],
    graphs := [(1, { forward := [("A", ["B"])], reverse := [("B", ["A"])] })],
    nextRef := 2 }

theorem c6_shadow_isolation_witness :
    (HeapWF c6Heap ∧ (0 : Nat) ∈ c6Heap.indexes.map Prod.fst ∧
      (1 : Nat) ∈ c6Heap.graphs.map Prod.fst) ∧
    ((∀ ri : ResolvedIntent,
      readIndex (buildVirtualDiffH ri c6Heap 0 1).1 0 = readIndex c6Heap 0 ∧
      readGraph (buildVirtualDiffH ri c6Heap 0 1).1 1 = readGraph c6Heap 1 ∧
      (∀ refs, (buildVirtualDiffH ri c6Heap 0 1).2 = some refs →
        refs.shadowIndexRef ≠ 0 ∧ refs.shadowGraphRef ≠ 1)) ∧
    (∀ (stagedFiles : List (String × Option ParsedSourceFile))
       (renamedNewPaths changedSymbolIds : List String),
      readIndex (computeStagedBlastRadiusH stagedFiles renamedNewPaths
          changedSymbolIds c6Heap 0 1).1 0 = readIndex c6Heap 0 ∧
      readGraph (computeStagedBlastRadiusH stagedFiles renamedNewPaths
          changedSymbolIds c6Heap 0 1).1 1 = readGraph c6Heap 1)) :=
  ⟨⟨by decide, by decide, by decide⟩,
   c6_shadow_isolation c6Heap 0 1 (by decide) (by decide) (by decide)⟩

end RippleCheck
